import Mathlib

/-
Shallow embedding of dsa/data_structures/graphs.py and
dsa/algorithms/shortest_path.py, with theorems settling the frozen claims.

Python floats are idealised as exact rationals (`ℚ`), with `WithTop ℚ`
standing in for `math.inf` where the code uses it as a sentinel.  A Python
`assert` failure (or an `IndexError` from an out-of-range index) is modelled
by `Option`/a failure constructor: `none` means the call raises.
-/

namespace DSA

/-- `_VertexAndWeight` named tuple of graphs.py: a neighbor index with the
weight of the edge leading to it. -/
structure VertexAndWeight where
  vertex : ℕ
  weight : ℚ
deriving DecidableEq, Repr

/-- The scan of `_add_element_sorted` (graphs.py lines 399-406) computing the
insertion slot: `index_to_insert` starts at 0 and becomes `index + 1` whenever
`key(neighbor) < key(element)`; when an equal key is met the function returns
without inserting (`none` here). `i` is the running index of the scan. -/
def addElementSortedSlot {β : Type} (key : β → ℕ) (kel : ℕ) :
    List β → ℕ → ℕ → Option ℕ
  | [], _, slot => some slot
  | b :: rest, i, slot =>
    if key b = kel then none
    else if key b < kel then addElementSortedSlot key kel rest (i + 1) (i + 1)
    else addElementSortedSlot key kel rest (i + 1) slot

/-- `_add_element_sorted` of graphs.py: insert `element` keeping the sequence
sorted by `key`; if an element with an equal key already exists the call
silently returns with the sequence unchanged. -/
def addElementSorted {β : Type} (key : β → ℕ) (seq : List β) (element : β) : List β :=
  match addElementSortedSlot key (key element) seq 0 0 with
  | none => seq
  | some slot => seq.insertIdx slot element

/-- `list.set`-with-function helper used below for in-place mutation of one
list cell (no-op out of range, which callers guard against). -/
def listModify {β : Type} (l : List β) (i : ℕ) (f : β → β) : List β :=
  match l[i]? with
  | some a => l.set i (f a)
  | none => l

/-! ### `_AdjacencyList` (graphs.py lines 186-257) -/

/-- `_AdjacencyList`: one neighbor list per vertex. -/
abbrev AdjacencyList := List (List VertexAndWeight)

namespace AdjacencyList

def nVertices (al : AdjacencyList) : ℕ := al.length

/-- `iterate_neighbors`: asserts `0 <= vertex < n_vertices`, then yields the
stored row. -/
def iterateNeighbors (al : AdjacencyList) (v : ℕ) : Option (List VertexAndWeight) :=
  al[v]?

/-- `add_vertex`: append an empty row. -/
def addVertex (al : AdjacencyList) : AdjacencyList := al ++ [[]]

/-- `remove_vertex` (lines 213-221): asserts `vertex < n_vertices`, deletes the
row, then in every remaining row removes the first entry whose stored index
equals the removed index (the loop `break`s after one removal).  Note the
code never renumbers stored neighbor indices greater than `vertex`. -/
def removeVertex (al : AdjacencyList) (v : ℕ) : Option AdjacencyList :=
  if v < al.length then
    some ((al.eraseIdx v).map fun nbrs => nbrs.eraseP fun vw => vw.vertex == v)
  else none

/-- `has_edge`: asserts distinct in-range indices, then scans the row. -/
def hasEdge (al : AdjacencyList) (v1 v2 : ℕ) : Option Bool :=
  if v1 ≠ v2 ∧ v1 < al.length ∧ v2 < al.length then
    some ((al.getD v1 []).any fun vw => vw.vertex == v2)
  else none

/-- `get_edge`: scans the row for `v2`, returning `math.inf` when absent. -/
def getEdge (al : AdjacencyList) (v1 v2 : ℕ) : Option (WithTop ℚ) :=
  if v1 ≠ v2 ∧ v1 < al.length ∧ v2 < al.length then
    match (al.getD v1 []).find? (fun vw => vw.vertex == v2) with
    | some vw => some (vw.weight : WithTop ℚ)
    | none => some ⊤
  else none

/-- `add_edge` (lines 242-248): asserts distinct in-range indices (it does not
check the weight, and duplicates are silently ignored by
`_add_element_sorted`). -/
def addEdge (al : AdjacencyList) (v1 v2 : ℕ) (w : ℚ) : Option AdjacencyList :=
  if v1 ≠ v2 ∧ v1 < al.length ∧ v2 < al.length then
    some (al.set v1 (addElementSorted (fun vw => vw.vertex) (al.getD v1 []) ⟨v2, w⟩))
  else none

/-- `remove_edge` (lines 250-257): asserts distinct in-range indices, then the
loop removes the matching entry (rows hold at most one entry per target, so
the remove-inside-iteration removes exactly the first match); a missing edge
is silently ignored. -/
def removeEdge (al : AdjacencyList) (v1 v2 : ℕ) : Option AdjacencyList :=
  if v1 ≠ v2 ∧ v1 < al.length ∧ v2 < al.length then
    some (al.set v1 ((al.getD v1 []).eraseP fun vw => vw.vertex == v2))
  else none

end AdjacencyList

/-! ### `_AdjacencyMatrix` (graphs.py lines 260-310) -/

/-- `_AdjacencyMatrix`: dense weight matrix, `0.0` meaning no edge. -/
abbrev AdjacencyMatrix := List (List ℚ)

namespace AdjacencyMatrix

def nVertices (m : AdjacencyMatrix) : ℕ := m.length

/-- `iterate_neighbors`: enumerate the row (raising when out of range),
yielding entries with positive weight. -/
def iterateNeighbors (m : AdjacencyMatrix) (v : ℕ) : Option (List VertexAndWeight) :=
  m[v]?.map fun row =>
    row.enum.filterMap fun p => if 0 < p.2 then some ⟨p.1, p.2⟩ else none

/-- `add_vertex`: append a zero row of the old length, then append `0.0` to
every row (the new one included). -/
def addVertex (m : AdjacencyMatrix) : AdjacencyMatrix :=
  (m ++ [List.replicate m.length 0]).map fun row => row ++ [0]

/-- `remove_vertex` (lines 290-294): `del` the row and the column; an
out-of-range index raises `IndexError` (no assert). -/
def removeVertex (m : AdjacencyMatrix) (v : ℕ) : Option AdjacencyMatrix :=
  if v < m.length then
    let m2 := m.eraseIdx v
    if m2.all (fun row => v < row.length) then some (m2.map fun row => row.eraseIdx v)
    else none
  else none

/-- `has_edge`: plain double indexing. -/
def hasEdge (m : AdjacencyMatrix) (v1 v2 : ℕ) : Option Bool := do
  let row ← m[v1]?
  let w ← row[v2]?
  pure (decide (0 < w))

def getEdge (m : AdjacencyMatrix) (v1 v2 : ℕ) : Option (WithTop ℚ) := do
  let row ← m[v1]?
  let w ← row[v2]?
  pure (w : WithTop ℚ)

/-- `add_edge` (lines 303-306): asserts `weight > 0`, then overwrites the cell
whether or not an edge is already present. -/
def addEdge (m : AdjacencyMatrix) (v1 v2 : ℕ) (w : ℚ) : Option AdjacencyMatrix :=
  if 0 < w then do
    let row ← m[v1]?
    let _ ← row[v2]?
    pure (m.set v1 (row.set v2 w))
  else none

/-- `remove_edge`: zero the cell (no existence check). -/
def removeEdge (m : AdjacencyMatrix) (v1 v2 : ℕ) : Option AdjacencyMatrix := do
  let row ← m[v1]?
  let _ ← row[v2]?
  pure (m.set v1 (row.set v2 0))

end AdjacencyMatrix

/-! ### `_PointersAndObjects` (graphs.py lines 313-393)

Python object aliasing is modelled by an arena: `objs` holds every `_Vertex`
object ever allocated (objects survive even when no longer listed), `live` is
the `_vertices` pointer list, and object identity (`is`) is arena-id equality.
A neighbor entry stores the arena id of the referenced `_Vertex` and the edge
weight. -/

structure PVertex where
  index : ℕ
  neighbors : List (ℕ × ℚ)
deriving DecidableEq, Repr

structure PointersAndObjects where
  objs : List PVertex
  live : List ℕ
deriving DecidableEq, Repr

namespace PointersAndObjects

def nVertices (po : PointersAndObjects) : ℕ := po.live.length

/-- `iterate_neighbors` (lines 331-334): yields the current `index` of each
referenced object together with the weight. -/
def iterateNeighbors (po : PointersAndObjects) (v : ℕ) : Option (List VertexAndWeight) := do
  let oid ← po.live[v]?
  let vx ← po.objs[oid]?
  vx.neighbors.mapM fun p => do
    let nv ← po.objs[p.1]?
    pure (⟨nv.index, p.2⟩ : VertexAndWeight)

/-- `add_vertex`: allocate `_Vertex(index=self.n_vertices)` and append the
pointer. -/
def addVertex (po : PointersAndObjects) : PointersAndObjects :=
  { objs := po.objs ++ [⟨po.live.length, []⟩], live := po.live ++ [po.objs.length] }

/-- `remove_vertex` (lines 340-344): `pop` the pointer (raising when out of
range), then rewrite the `index` of every remaining vertex object.  Edges
pointing at the removed object are left in place. -/
def removeVertex (po : PointersAndObjects) (v : ℕ) : Option PointersAndObjects := do
  let _ ← po.live[v]?
  let live := po.live.eraseIdx v
  let objs := (live.enum).foldl
    (fun objs p => listModify objs p.2 fun vx => { vx with index := p.1 }) po.objs
  pure { objs, live }

/-- `has_edge` (lines 346-348) via `_Vertex.has_neighbor`: asserts the target
object is not the source object itself, then compares by identity. -/
def hasEdge (po : PointersAndObjects) (v1 v2 : ℕ) : Option Bool := do
  let oid1 ← po.live[v1]?
  let oid2 ← po.live[v2]?
  if oid1 = oid2 then none
  else do
    let vx1 ← po.objs[oid1]?
    pure (vx1.neighbors.any fun p => p.1 == oid2)

/-- `get_edge` (lines 350-351) calls `get_neighbor_weight(vertex_2)` passing
the raw `int` where a `_Vertex` object is expected; `has_neighbor` compares
that int by identity (`is`) against vertex objects, which is never true, so
the `assert self.has_neighbor(vertex)` in `get_neighbor_weight` always fails.
The call raises `AssertionError` unconditionally (after the `vertex_1`
lookup, which can only raise as well). -/
def getEdge (_po : PointersAndObjects) (_v1 _v2 : ℕ) : Option (WithTop ℚ) :=
  none

/-- `add_edge` via `_Vertex.add_neighbor` (lines 383-386): asserts the edge is
absent (object identity), then `_add_element_sorted` keyed by the current
`index` of the referenced object. -/
def addEdge (po : PointersAndObjects) (v1 v2 : ℕ) (w : ℚ) : Option PointersAndObjects := do
  let oid1 ← po.live[v1]?
  let oid2 ← po.live[v2]?
  if oid1 = oid2 then none
  else do
    let vx1 ← po.objs[oid1]?
    if vx1.neighbors.any (fun p => p.1 == oid2) then none
    else
      let key := fun (p : ℕ × ℚ) => (po.objs[p.1]?.getD ⟨0, []⟩).index
      pure { po with objs := listModify po.objs oid1 fun vx =>
        { vx with neighbors := addElementSorted key vx.neighbors (oid2, w) } }

/-- `remove_edge` via `_Vertex.remove_neighbor` (lines 388-393): the loop body
ignores which neighbor was requested and removes the first entry of the
neighbor list, raising `AssertionError` when the list is empty. -/
def removeEdge (po : PointersAndObjects) (v1 v2 : ℕ) : Option PointersAndObjects := do
  let oid1 ← po.live[v1]?
  let _ ← po.live[v2]?
  let vx1 ← po.objs[oid1]?
  match vx1.neighbors with
  | [] => none
  | _ :: rest => pure { po with objs := listModify po.objs oid1 fun vx =>
      { vx with neighbors := rest } }

end PointersAndObjects

/-! ### The polymorphic representation and the `Graph` facade -/

/-- `_GraphRepresentation`: one of the three backends, selected by
`Graph._get_representation`. -/
inductive Rep where
  | adjacencyList (al : AdjacencyList)
  | adjacencyMatrix (am : AdjacencyMatrix)
  | pointersAndObjects (po : PointersAndObjects)
deriving DecidableEq

namespace Rep

def nVertices : Rep → ℕ
  | .adjacencyList al => al.nVertices
  | .adjacencyMatrix am => am.nVertices
  | .pointersAndObjects po => po.nVertices

def iterateNeighbors : Rep → ℕ → Option (List VertexAndWeight)
  | .adjacencyList al, v => al.iterateNeighbors v
  | .adjacencyMatrix am, v => am.iterateNeighbors v
  | .pointersAndObjects po, v => po.iterateNeighbors v

def addVertex : Rep → Rep
  | .adjacencyList al => .adjacencyList al.addVertex
  | .adjacencyMatrix am => .adjacencyMatrix am.addVertex
  | .pointersAndObjects po => .pointersAndObjects po.addVertex

def removeVertex : Rep → ℕ → Option Rep
  | .adjacencyList al, v => (al.removeVertex v).map .adjacencyList
  | .adjacencyMatrix am, v => (am.removeVertex v).map .adjacencyMatrix
  | .pointersAndObjects po, v => (po.removeVertex v).map .pointersAndObjects

def hasEdge : Rep → ℕ → ℕ → Option Bool
  | .adjacencyList al, v1, v2 => al.hasEdge v1 v2
  | .adjacencyMatrix am, v1, v2 => am.hasEdge v1 v2
  | .pointersAndObjects po, v1, v2 => po.hasEdge v1 v2

def getEdge : Rep → ℕ → ℕ → Option (WithTop ℚ)
  | .adjacencyList al, v1, v2 => al.getEdge v1 v2
  | .adjacencyMatrix am, v1, v2 => am.getEdge v1 v2
  | .pointersAndObjects po, v1, v2 => po.getEdge v1 v2

def addEdge : Rep → ℕ → ℕ → ℚ → Option Rep
  | .adjacencyList al, v1, v2, w => (al.addEdge v1 v2 w).map .adjacencyList
  | .adjacencyMatrix am, v1, v2, w => (am.addEdge v1 v2 w).map .adjacencyMatrix
  | .pointersAndObjects po, v1, v2, w => (po.addEdge v1 v2 w).map .pointersAndObjects

def removeEdge : Rep → ℕ → ℕ → Option Rep
  | .adjacencyList al, v1, v2 => (al.removeEdge v1 v2).map .adjacencyList
  | .adjacencyMatrix am, v1, v2 => (am.removeEdge v1 v2).map .adjacencyMatrix
  | .pointersAndObjects po, v1, v2 => (po.removeEdge v1 v2).map .pointersAndObjects

end Rep

/-- The `Graph` facade: payload values in insertion order, directedness fixed
at construction, and the owned representation. -/
structure Graph (α : Type) where
  values : List α
  directed : Bool
  rep : Rep

/-- `Graph(representation=..., directed=...)`: empty values with an empty
backend. -/
def Graph.empty (α : Type) (rep : Rep) (directed : Bool) : Graph α :=
  { values := [], directed, rep }

namespace Graph

variable {α : Type} [DecidableEq α]

/-- `has_value`. -/
def hasValue (g : Graph α) (v : α) : Bool := g.values.contains v

/-- `_get_index`: asserts presence, then linear scan for the first equal
value. -/
def getIndex (g : Graph α) (v : α) : Option ℕ :=
  g.values.findIdx? fun x => x == v

/-- `add_value`: asserts absence, appends the value and a backend vertex. -/
def addValue (g : Graph α) (v : α) : Option (Graph α) :=
  if g.hasValue v then none
  else some { g with values := g.values ++ [v], rep := g.rep.addVertex }

/-- `remove_value`: index lookup, delete from `values`, backend
`remove_vertex`. -/
def removeValue (g : Graph α) (v : α) : Option (Graph α) := do
  let i ← g.getIndex v
  let rep ← g.rep.removeVertex i
  pure { g with values := g.values.eraseIdx i, rep }

/-- `has_connection`: directed graphs ask one direction, undirected ask both
with Python `or` short-circuiting. -/
def hasConnection (g : Graph α) (a b : α) : Option Bool := do
  let i ← g.getIndex a
  let j ← g.getIndex b
  if g.directed then g.rep.hasEdge i j
  else do
    let h1 ← g.rep.hasEdge i j
    if h1 then pure true else g.rep.hasEdge j i

/-- `get_connection_weight`: asserts `has_connection`, then asks the backend
for the stored weight. -/
def getConnectionWeight (g : Graph α) (a b : α) : Option (WithTop ℚ) := do
  let c ← g.hasConnection a b
  if c then do
    let i ← g.getIndex a
    let j ← g.getIndex b
    g.rep.getEdge i j
  else none

/-- `add_connection` (lines 115-123): asserts `weight > 0` and that no
connection exists, then adds the edge (both directions when undirected). -/
def addConnection (g : Graph α) (a b : α) (w : ℚ) : Option (Graph α) :=
  if 0 < w then do
    let c ← g.hasConnection a b
    if c then none
    else do
      let i ← g.getIndex a
      let j ← g.getIndex b
      let rep1 ← g.rep.addEdge i j w
      if g.directed then pure { g with rep := rep1 }
      else do
        let rep2 ← rep1.addEdge j i w
        pure { g with rep := rep2 }
  else none

/-- `remove_connection`: asserts the connection exists, then removes the edge
(both directions when undirected). -/
def removeConnection (g : Graph α) (a b : α) : Option (Graph α) := do
  let c ← g.hasConnection a b
  if c then do
    let i ← g.getIndex a
    let j ← g.getIndex b
    let rep1 ← g.rep.removeEdge i j
    if g.directed then pure { g with rep := rep1 }
    else do
      let rep2 ← rep1.removeEdge j i
      pure { g with rep := rep2 }
  else none

/-- `iterate_neighbors` (facade): map the backend's index-level neighbors back
through `values`. -/
def iterateNeighbors (g : Graph α) (v : α) : Option (List (α × ℚ)) := do
  let i ← g.getIndex v
  let l ← g.rep.iterateNeighbors i
  l.mapM fun vw => do
    let x ← g.values[vw.vertex]?
    pure (x, vw.weight)

/-- `traverse_BFS` worker (graphs.py lines 43-50): pop the queue front, yield
it, mark-and-enqueue each unvisited neighbor.  The fuel only bounds the
number of iterations; `2 * n + 2` is proven sufficient below. -/
def bfsAux (rep : Rep) : ℕ → List ℕ → List Bool → Option (List ℕ)
  | 0, _, _ => none
  | fuel + 1, queue, visited =>
    match queue with
    | [] => some []
    | i :: rest => do
      let l ← rep.iterateNeighbors i
      let s ← l.foldlM
        (fun (s : List Bool × List ℕ) vw => do
          let b ← s.1[vw.vertex]?
          if b then pure s else pure (s.1.set vw.vertex true, s.2 ++ [vw.vertex]))
        (visited, ([] : List ℕ))
      let out ← bfsAux rep fuel (rest ++ s.2) s.1
      pure (i :: out)

/-- `traverse_BFS` (lines 26-50): visited array of `len(self)` with the start
marked, queue seeded with the start index, values yielded in pop order. -/
def traverseBFS (g : Graph α) (v : α) : Option (List α) := do
  let i ← g.getIndex v
  let visited := (List.replicate g.values.length false).set i true
  let idxs ← bfsAux g.rep (2 * g.values.length + 2) [i] visited
  idxs.mapM fun j => g.values[j]?

/-- `traverse_DFS` worker (lines 67-73): return if visited, otherwise yield
the vertex, mark it, and recurse into each neighbor in order.  The code
yields before marking, but no other generator step can run in between, so
mark-then-yield is equivalent.  Fuel `n + 1` is proven sufficient below. -/
def dfsAux (rep : Rep) : ℕ → List Bool → ℕ → Option (List Bool × List ℕ)
  | 0, _, _ => none
  | fuel + 1, visited, i => do
    let b ← visited[i]?
    if b then pure (visited, [])
    else do
      let vis1 := visited.set i true
      let l ← rep.iterateNeighbors i
      let s ← l.foldlM
        (fun (s : List Bool × List ℕ) vw => do
          let r ← dfsAux rep fuel s.1 vw.vertex
          pure (r.1, s.2 ++ r.2))
        (vis1, ([] : List ℕ))
      pure (s.1, i :: s.2)

/-- `traverse_DFS` (lines 52-76). -/
def traverseDFS (g : Graph α) (v : α) : Option (List α) := do
  let i ← g.getIndex v
  let r ← dfsAux g.rep (g.values.length + 1) (List.replicate g.values.length false) i
  r.2.mapM fun j => g.values[j]?

end Graph

/-! ### Value-level paths and distances

`a_star_search_algorithm` consumes the graph only through
`Graph.iterate_neighbors`; the path notions below are phrased over that same
interface. -/

namespace Graph

variable {α : Type} [DecidableEq α]

/-- The neighbor list `iterate_neighbors` would yield for a present value
(`[]` for an absent one). -/
def gNbrList (g : Graph α) (v : α) : List (α × ℚ) := (g.iterateNeighbors v).getD []

/-- The weight `iterate_neighbors` reports for the edge `a → b` (`0` when the
edge is absent; always positive for a real edge of a well-formed graph). -/
def wgtVal (g : Graph α) (a b : α) : ℚ :=
  (((g.gNbrList a).find? fun e => e.1 == b).map Prod.snd).getD 0

/-- Total weight of a vertex sequence, summing `wgtVal` over consecutive
pairs. -/
def pathCost (g : Graph α) : List α → ℚ
  | [] => 0
  | [_] => 0
  | a :: b :: rest => g.wgtVal a b + g.pathCost (b :: rest)

/-- `p` is a path from `s` to `t`: nonempty, starts at `s`, ends at `t`, and
every consecutive pair is an edge reported by `iterate_neighbors`. -/
def IsPathFrom (g : Graph α) (s t : α) (p : List α) : Prop :=
  p.head? = some s ∧ p.getLast? = some t ∧
    p.Chain' fun a b => ((g.gNbrList a).any fun e => e.1 == b) = true

/-- All duplicate-free paths from `u` to `t` avoiding `avoid`, by bounded
depth-first enumeration (complete once `fuel` exceeds every possible path
length). -/
def pathsAux (nbr : α → List α) : ℕ → α → α → List α → List (List α)
  | 0, _, _, _ => []
  | fuel + 1, u, t, avoid =>
    if u = t then [[u]]
    else ((nbr u).filter fun w => decide (w ∉ avoid)).flatMap
      fun w => (pathsAux nbr fuel w t (u :: avoid)).map fun p => u :: p

/-- All simple paths from `s` to `t` through the graph's neighbor relation. -/
def simplePathsFrom (g : Graph α) (s t : α) : List (List α) :=
  pathsAux (fun u => (g.gNbrList u).map Prod.fst) (g.values.length + 1) s t []

/-- The costs of all simple paths from `s` to `t`. -/
def pathCosts (g : Graph α) (s t : α) : List ℚ :=
  (g.simplePathsFrom s t).map (g.pathCost)

/-- Fuel for the search loop: every loop iteration strictly decreases the
measure `2 * (sum over vertices of the rank of its g-score among its simple
path costs) + (queue length)`, which starts below this number. -/
def aStarFuel (g : Graph α) (s : α) : ℕ :=
  2 * (g.values.map fun v => ((g.pathCosts s v).dedup).length).sum + 2

end Graph

/-! ### `a_star_search_algorithm` (shortest_path.py lines 30-116) -/

/-- Mutable state of the search loop: the min-priority queue (as the multiset
of its `(f-score, vertex)` entries), the two defaultdicts, and the
predecessor map. -/
structure AStarState (α : Type) where
  queue : List (WithTop ℚ × α)
  dist : α → WithTop ℚ
  est : α → WithTop ℚ
  prev : α → Option α

/-- `heapq` pops the least `(key, vertex)` tuple in lexicographic order; with
equal keys the vertex breaks the tie, and fully equal tuples are
interchangeable values. -/
def queueMin {α : Type} [LinearOrder α] :
    List (WithTop ℚ × α) → Option (WithTop ℚ × α)
  | [] => none
  | e :: rest =>
    some (rest.foldl (fun m x => if x.1 < m.1 ∨ (x.1 = m.1 ∧ x.2 < m.2) then x else m) e)

/-- `heappop`: remove one occurrence of the least entry. -/
def popMin {α : Type} [DecidableEq α] [LinearOrder α] (q : List (WithTop ℚ × α)) :
    Option ((WithTop ℚ × α) × List (WithTop ℚ × α)) :=
  (queueMin q).map fun m => (m, q.erase m)

/-- Result of `a_star_search_algorithm`.  `unreachableTargetError` is the
`assert vertex_current == vertex_target, "Source and target are not
connected"` failure at line 107 — the one message-carrying, expected failure;
`missingValueError` is the `assert self.has_value(value)` precondition
failure raised from inside `Graph.iterate_neighbors`; `divergence` marks fuel
exhaustion and is proven unreachable for the fuel used. -/
inductive SPOutcome (α : Type) where
  | ok (path : List α) (distance : WithTop ℚ)
  | unreachableTargetError
  | missingValueError
  | divergence
deriving DecidableEq

/-- Lines 94-105: relax one neighbor `(w, c)` of `u`, where `dsc` is the
cached `g`-score of `u`: on strict improvement record the predecessor, the
new g-score and f-score, and push `(f-score, w)`. -/
def relaxOne {α : Type} [DecidableEq α] (hfn : α → ℚ) (u : α) (dsc : WithTop ℚ)
    (st : AStarState α) (e : α × ℚ) : AStarState α :=
  let dsn : WithTop ℚ := dsc + (e.2 : WithTop ℚ)
  if dsn < st.dist e.1 then
    let est2 := Function.update st.est e.1 (dsn + ((hfn e.1 : ℚ) : WithTop ℚ))
    { queue := (est2 e.1, e.1) :: st.queue
      dist := Function.update st.dist e.1 dsn
      est := est2
      prev := Function.update st.prev e.1 (some u) }
  else st

/-- Lines 110-114: walk the predecessor map back from the target, prepending
each predecessor (`none` models the infinite loop a cyclic map would cause;
the map is proven acyclic). -/
def reconsAux {α : Type} [DecidableEq α] (prev : α → Option α) :
    ℕ → α → List α → Option (List α)
  | 0, _, _ => none
  | fuel + 1, cur, acc =>
    match prev cur with
    | none => some acc
    | some p => reconsAux prev fuel p (p :: acc)

/-- The `while` loop of lines 83-116: pop the least entry; stop successfully
when it is the target (reconstructing the path and reading the target's
g-score); when the queue empties the assert at line 107 fires.  `n` bounds
the reconstruction (number of graph values). -/
def aStarLoop {α : Type} [DecidableEq α] [LinearOrder α]
    (nbrs : α → Option (List (α × ℚ))) (hfn : α → ℚ) (t : α) (n : ℕ) :
    ℕ → AStarState α → SPOutcome α
  | 0, _ => .divergence
  | fuel + 1, st =>
    match popMin st.queue with
    | none => .unreachableTargetError
    | some (e, q2) =>
      if e.2 = t then
        match reconsAux st.prev (n + 1) t [t] with
        | none => .divergence
        | some p => .ok p (st.dist t)
      else
        match nbrs e.2 with
        | none => .missingValueError
        | some l =>
          let dsc := st.dist e.2
          aStarLoop nbrs hfn t n fuel (l.foldl (relaxOne hfn e.2 dsc) { st with queue := q2 })

/-- `no_guess_min_distance_from_target`: the default zero heuristic. -/
def noGuessMinDistanceFromTarget {α : Type} : α → ℚ := fun _ => 0

/-- `a_star_search_algorithm`: initial state per lines 69-81 (queue seeded
with `(0.0, source)`, `g(source) = 0`, `f(source) = h(source)`), then the
loop.  The heuristic is `guess_min_distance_from_target` with the graph and
target already applied. -/
def aStarSearchAlgorithm {α : Type} [DecidableEq α] [LinearOrder α] (g : Graph α)
    (s t : α) (hfn : α → ℚ) : SPOutcome α :=
  let st : AStarState α :=
    { queue := [((0 : WithTop ℚ), s)]
      dist := Function.update (fun _ => (⊤ : WithTop ℚ)) s 0
      est := Function.update (fun _ => (⊤ : WithTop ℚ)) s ((hfn s : ℚ) : WithTop ℚ)
      prev := fun _ => none }
  aStarLoop (fun v => g.iterateNeighbors v) hfn t g.values.length (g.aStarFuel s) st

/-! ### Well-formedness (the data-model invariant of the spec, §3) -/

/-- Adjacency-list invariant: stored neighbor indices are in range, weights
positive, and each row mentions each target at most once. -/
def AdjacencyList.WF (al : AdjacencyList) : Prop :=
  ∀ row ∈ al, (∀ vw ∈ row, vw.vertex < al.length ∧ 0 < vw.weight) ∧
    (row.map fun vw => vw.vertex).Nodup

/-- Adjacency-matrix invariant: square with nonnegative entries (a positive
entry is an edge, `0` is absence). -/
def AdjacencyMatrix.WF (m : AdjacencyMatrix) : Prop :=
  (∀ row ∈ m, row.length = m.length) ∧ ∀ row ∈ m, ∀ x ∈ row, 0 ≤ x

/-- Pointers-and-objects invariant: the pointer list holds distinct valid
arena ids, each live object's `index` is its position, and neighbor entries
reference live objects with positive weights, one entry per target. -/
def PointersAndObjects.WF (po : PointersAndObjects) : Prop :=
  po.live.Nodup ∧
  ∀ i < po.live.length,
    po.live.getD i 0 < po.objs.length ∧
    (po.objs.getD (po.live.getD i 0) ⟨0, []⟩).index = i ∧
    (∀ p ∈ (po.objs.getD (po.live.getD i 0) ⟨0, []⟩).neighbors, p.1 ∈ po.live ∧ 0 < p.2) ∧
    ((po.objs.getD (po.live.getD i 0) ⟨0, []⟩).neighbors.map Prod.fst).Nodup

def Rep.WF : Rep → Prop
  | .adjacencyList al => al.WF
  | .adjacencyMatrix am => am.WF
  | .pointersAndObjects po => po.WF

/-- Facade invariant: distinct values in lockstep with the backend. -/
def Graph.WF {α : Type} [DecidableEq α] (g : Graph α) : Prop :=
  g.values.Nodup ∧ g.rep.WF ∧ g.rep.nVertices = g.values.length

instance (al : AdjacencyList) : Decidable al.WF := by
  unfold AdjacencyList.WF; infer_instance

instance (m : AdjacencyMatrix) : Decidable m.WF := by
  unfold AdjacencyMatrix.WF; infer_instance

instance (po : PointersAndObjects) : Decidable po.WF := by
  unfold PointersAndObjects.WF; infer_instance

instance (r : Rep) : Decidable r.WF := by
  cases r <;> (unfold Rep.WF; infer_instance)

instance {α : Type} [DecidableEq α] (g : Graph α) : Decidable g.WF := by
  unfold Graph.WF; infer_instance

/-! ### Reachability notions used to specify the traversals and the search -/

/-- The `has_been_traversed` array marks index `i`. -/
abbrev Vis (vis : List Bool) (i : ℕ) : Prop := vis.getD i false = true

/-- Number of unmarked in-range indices (termination measure of the
traversals). -/
def unvis (vis : List Bool) : ℕ :=
  ((Finset.range vis.length).filter fun i => ¬ Vis vis i).card

/-- The backend reports an edge from index `u` to index `w`. -/
def EdgeIdx (rep : Rep) (u w : ℕ) : Prop :=
  ∃ l, rep.iterateNeighbors u = some l ∧ ∃ vw ∈ l, vw.vertex = w

/-- Index-level reachability through the backend's neighbor iteration. -/
inductive IdxReach (rep : Rep) (s : ℕ) : ℕ → Prop
  | refl : IdxReach rep s s
  | tail {u w : ℕ} : IdxReach rep s u → EdgeIdx rep u w → IdxReach rep s w

/-- Reachability from `j` along edges whose endpoints (after `j`) are all
unmarked in `vis`. -/
inductive ReachAvoid (rep : Rep) (vis : List Bool) (j : ℕ) : ℕ → Prop
  | refl : ReachAvoid rep vis j j
  | tail {u w : ℕ} : ReachAvoid rep vis j u → EdgeIdx rep u w → ¬ Vis vis w →
      ReachAvoid rep vis j w

/-- The backend answers neighbor queries for every index below `n`, with all
reported neighbor indices below `n` (consequence of well-formedness). -/
def NbrsBound (rep : Rep) (n : ℕ) : Prop :=
  ∀ i < n, ∃ l, rep.iterateNeighbors i = some l ∧ ∀ vw ∈ l, vw.vertex < n

/-- Value-level reachability through the facade's `iterate_neighbors`. -/
inductive ValReach {α : Type} [DecidableEq α] (g : Graph α) (s : α) : α → Prop
  | refl : ValReach g s s
  | tail {u w : α} : ValReach g s u → (∃ c, (w, c) ∈ g.gNbrList u) → ValReach g s w

/-! ### Concrete states used when settling the claims -/

/-- Directed graph over each backend, built by
`add_value 1; add_value 2; add_value 3; add_connection 1 3 (weight 1);
remove_value 2`. -/
def seqRemoveMiddle (r : Rep) : Option (Graph ℕ) := do
  let g := Graph.empty ℕ r true
  let g ← g.addValue 1
  let g ← g.addValue 2
  let g ← g.addValue 3
  let g ← g.addConnection 1 3 1
  g.removeValue 2

def seqRemoveMiddleList : Option (Graph ℕ) := seqRemoveMiddle (.adjacencyList [])
def seqRemoveMiddleMatrix : Option (Graph ℕ) := seqRemoveMiddle (.adjacencyMatrix [])
def seqRemoveMiddlePointers : Option (Graph ℕ) := seqRemoveMiddle (.pointersAndObjects ⟨[], []⟩)

/-- Pointers backend with three vertices and the edge `0 → 1`, as built by the
operations (arena ids equal positions, object 0 points at object 1). -/
def poEdge01 : PointersAndObjects :=
  { objs := [⟨0, [(1, 1)]⟩, ⟨1, []⟩, ⟨2, []⟩], live := [0, 1, 2] }

/-- Directed pointers-backed graph with values 1,2,3 and connections `1 → 3`
then `1 → 2` (so vertex 0 has two neighbors), followed by
`remove_connection 1 3`. -/
def seqPointersRemoveEdge : Option (Graph ℕ) := do
  let g := Graph.empty ℕ (.pointersAndObjects ⟨[], []⟩) true
  let g ← g.addValue 1
  let g ← g.addValue 2
  let g ← g.addValue 3
  let g ← g.addConnection 1 3 1
  let g ← g.addConnection 1 2 1
  g.removeConnection 1 3

/-- Undirected pointers-backed graph with values 1,2 and
`add_connection 1 2 (weight 2)`. -/
def seqPointersUndirected : Option (Graph ℕ) := do
  let g := Graph.empty ℕ (.pointersAndObjects ⟨[], []⟩) false
  let g ← g.addValue 1
  let g ← g.addValue 2
  g.addConnection 1 2 2

/-! ### Invariants of the search loop -/

/-- A path all of whose vertices are present and distinct, and whose every
prefix cost bounds the recorded distance of the prefix's endpoint from
above. -/
def DistWitness {α : Type} [DecidableEq α] (g : Graph α) (d : α → WithTop ℚ)
    (p : List α) : Prop :=
  p.Nodup ∧ (∀ x ∈ p, x ∈ g.values) ∧
    ∀ k, (h : k < p.length) → d p[k] ≤ ((g.pathCost (p.take (k + 1)) : ℚ) : WithTop ℚ)

/-- Distance-map invariant of the search loop: every finite recorded distance
is realised by a simple path through present vertices. -/
def DistInv {α : Type} [DecidableEq α] (g : Graph α) (s : α) (d : α → WithTop ℚ) :
    Prop :=
  ∀ v, d v ≠ ⊤ → ∃ p, g.IsPathFrom s v p ∧ DistWitness g d p ∧
    d v = ((g.pathCost p : ℚ) : WithTop ℚ)

/-- Queue invariant of the search loop: every queued vertex is present and has
a finite recorded distance. -/
def QueueInv {α : Type} [DecidableEq α] (g : Graph α) (st : AStarState α) : Prop :=
  ∀ e ∈ st.queue, st.dist e.2 ≠ ⊤ ∧ e.2 ∈ g.values

/-- Rank of a vertex: how many distinct simple-path costs lie strictly below
its recorded distance.  Strictly decreases at every improvement the loop
makes. -/
def rank {α : Type} [DecidableEq α] (g : Graph α) (s : α) (d : α → WithTop ℚ)
    (v : α) : ℕ :=
  (((g.pathCosts s v).dedup).filter fun c => ((c : ℚ) : WithTop ℚ) < d v).length

/-- Sum of all ranks: with the queue length, the termination measure of the
search loop. -/
def rankSum {α : Type} [DecidableEq α] (g : Graph α) (s : α) (d : α → WithTop ℚ) :
    ℕ :=
  (g.values.map fun v => rank g s d v).sum

/-- A vertex is settled when its recorded distance is finite and no queue
entry carries it at that key: its best entry has been popped and every
remaining entry for it is stale. -/
def Settled {α : Type} [DecidableEq α] (st : AStarState α) (v : α) : Prop :=
  st.dist v ≠ ⊤ ∧ (st.dist v, v) ∉ st.queue

/-- Least cost over the enumerated paths from `s` to `v` (`⊤` when there are
none). -/
def minCost {α : Type} [DecidableEq α] (g : Graph α) (s v : α) : WithTop ℚ :=
  ((g.pathCosts s v).map fun c => ((c : ℚ) : WithTop ℚ)).foldr min ⊤

/-- The full loop invariant of the search run with the zero heuristic
(Dijkstra): the C5 invariants, the source pinned at distance `0`, key
soundness, per-vertex key distinctness, settled vertices under the frontier
and relaxed, a fresh queue entry for the target while it is unsettled, and a
sound predecessor map. -/
def DijkInv {α : Type} [DecidableEq α] (g : Graph α) (s t : α)
    (st : AStarState α) : Prop :=
  QueueInv g st ∧ DistInv g s st.dist ∧
  st.dist s = 0 ∧
  (∀ e ∈ st.queue, st.dist e.2 ≤ e.1) ∧
  (∀ v, ((st.queue.filter fun e => e.2 = v).map Prod.fst).Nodup) ∧
  (∀ v, Settled st v → (∀ e ∈ st.queue, st.dist v ≤ e.1) ∧
    ∀ e ∈ g.gNbrList v, st.dist e.1 ≤ st.dist v + (e.2 : WithTop ℚ)) ∧
  (st.dist t ≠ ⊤ → (st.dist t, t) ∈ st.queue) ∧
  st.prev s = none ∧
  (∀ x, x ≠ s → st.dist x ≠ ⊤ → ∃ u, st.prev x = some u ∧ st.dist u ≠ ⊤ ∧
    u ∈ g.values ∧ ((g.gNbrList u).any fun e => e.1 == x) = true ∧
    st.dist u + ((g.wgtVal u x : ℚ) : WithTop ℚ) ≤ st.dist x)

/-- Invariant carried through the neighbor-relaxation fold of one fresh pop:
`v` is the popped vertex, `dsc` its (frozen) distance, `SOld`/`dOld` the
settled set and distance map at the moment of the pop. -/
def DijkFoldInv {α : Type} [DecidableEq α] (g : Graph α) (s v : α)
    (dsc : WithTop ℚ) (SOld : α → Prop) (dOld : α → WithTop ℚ)
    (st : AStarState α) : Prop :=
  (∀ x, st.dist x ≤ dOld x) ∧
  (∀ x, SOld x → st.dist x = dOld x) ∧
  (∀ x, SOld x → (st.dist x, x) ∉ st.queue) ∧
  st.dist v = dsc ∧
  st.dist s = 0 ∧
  (∀ e ∈ st.queue, st.dist e.2 ≤ e.1) ∧
  (∀ x, ((st.queue.filter fun e => e.2 = x).map Prod.fst).Nodup) ∧
  (∀ u, st.dist u ≠ ⊤ → (st.dist u, u) ∈ st.queue ∨ SOld u ∨ u = v) ∧
  st.prev s = none ∧
  (∀ x, x ≠ s → st.dist x ≠ ⊤ → ∃ u, st.prev x = some u ∧ st.dist u ≠ ⊤ ∧
    u ∈ g.values ∧ ((g.gNbrList u).any fun e => e.1 == x) = true ∧
    st.dist u + ((g.wgtVal u x : ℚ) : WithTop ℚ) ≤ st.dist x) ∧
  (∀ e ∈ st.queue, dsc ≤ e.1) ∧
  (∀ x, SOld x → ∀ e ∈ st.queue, dOld x ≤ e.1) ∧
  (dsc, v) ∉ st.queue

/-!
## Theorems

General lemmas first, then one theorem per claim (with a witness where the
theorem carries hypotheses).
-/

/-- The one-entry queue pops its entry. -/
theorem popMin_singleton {α : Type} [DecidableEq α] [LinearOrder α]
    (e : WithTop ℚ × α) : popMin [e] = some (e, []) := by
  simp [popMin, queueMin]

theorem listGetDEq {β : Type} (l : List β) (i : ℕ) (d : β) (h : i < l.length) :
    l.getD i d = l[i] := by
  induction l generalizing i with
  | nil => cases h
  | cons a t ih =>
    cases i with
    | zero => rfl
    | succ m => simpa using ih m (by simpa using h)

theorem visGetElem (vis : List Bool) (i : ℕ) (h : i < vis.length) :
    vis[i]? = some (vis.getD i false) := by
  rw [List.getElem?_eq_getElem h, listGetDEq vis i false h]

/-- Marking one in-range cell: the marked set grows by exactly that index. -/
theorem visSetTrue (vis : List Bool) (v : ℕ) (hv : v < vis.length) (x : ℕ) :
    Vis (vis.set v true) x ↔ (Vis vis x ∨ x = v) := by
  by_cases hx : x = v
  · subst hx
    simp [Vis, List.getD_eq_getElem?_getD, List.getElem?_set_self (by simpa using hv)]
  · simp [Vis, List.getD_eq_getElem?_getD, List.getElem?_set_ne (fun h => hx h.symm), hx]

theorem visReplicate (n x : ℕ) : ¬ Vis (List.replicate n false) x := by
  intro h
  rw [Vis, List.getD_eq_getElem?_getD] at h
  by_cases hx : x < n
  · rw [List.getElem?_replicate_of_lt hx] at h
    simp at h
  · rw [List.getElem?_eq_none (by simpa using le_of_not_lt hx)] at h
    simp at h

/-- Marking cells only ever shrinks the unvisited count. -/
theorem unvisMono (vis vis2 : List Bool) (hl : vis2.length = vis.length)
    (h : ∀ x, Vis vis x → Vis vis2 x) : unvis vis2 ≤ unvis vis := by
  unfold unvis
  rw [hl]
  apply Finset.card_le_card
  intro x hx
  rw [Finset.mem_filter] at hx ⊢
  exact ⟨hx.1, fun hv => hx.2 (h x hv)⟩

/-- Marking exactly the (fresh, in-range, duplicate-free) indices of `newq`
removes `newq.length` from the unvisited count. -/
theorem unvisDrop (vis vis2 : List Bool) (newq : List ℕ)
    (hl : vis2.length = vis.length) (hnd : newq.Nodup)
    (hsub : ∀ x ∈ newq, ¬ Vis vis x ∧ x < vis.length)
    (hv : ∀ x, Vis vis2 x ↔ (Vis vis x ∨ x ∈ newq)) :
    unvis vis2 + newq.length = unvis vis := by
  unfold unvis
  rw [hl]
  have hset : ((Finset.range vis.length).filter fun i => ¬ Vis vis2 i) =
      ((Finset.range vis.length).filter fun i => ¬ Vis vis i) \ newq.toFinset := by
    ext x
    simp only [Finset.mem_filter, Finset.mem_sdiff, Finset.mem_range, List.mem_toFinset, hv]
    tauto
  have hsubset : newq.toFinset ⊆ (Finset.range vis.length).filter fun i => ¬ Vis vis i := by
    intro x hx
    rw [List.mem_toFinset] at hx
    obtain ⟨h1, h2⟩ := hsub x hx
    exact Finset.mem_filter.mpr ⟨Finset.mem_range.mpr h2, h1⟩
  rw [hset, Finset.card_sdiff hsubset, List.toFinset_card_of_nodup hnd]
  have := Finset.card_le_card hsubset
  rw [List.toFinset_card_of_nodup hnd] at this
  omega

theorem reachAvoid_mono {rep : Rep} {vis vis2 : List Bool} {j k : ℕ}
    (hsub : ∀ x, Vis vis x → Vis vis2 x) (h : ReachAvoid rep vis2 j k) :
    ReachAvoid rep vis j k := by
  induction h with
  | refl => exact .refl
  | tail _ he hn ih => exact .tail ih he fun hx => hn (hsub _ hx)

theorem reachAvoid_trans {rep : Rep} {vis : List Bool} {i j k : ℕ}
    (h1 : ReachAvoid rep vis i j) (h2 : ReachAvoid rep vis j k) :
    ReachAvoid rep vis i k := by
  induction h2 with
  | refl => exact h1
  | tail _ he hn ih => exact .tail ih he hn

theorem reachAvoid_elem {rep : Rep} {vis : List Bool} {j k : ℕ}
    (h : ReachAvoid rep vis j k) : k = j ∨ ¬ Vis vis k := by
  cases h with
  | refl => exact .inl rfl
  | tail _ _ hn => exact .inr hn

theorem reachAvoid_idxReach {rep : Rep} {vis : List Bool} {j k : ℕ}
    (h : ReachAvoid rep vis j k) : IdxReach rep j k := by
  induction h with
  | refl => exact .refl
  | tail _ he _ ih => exact .tail ih he

theorem idxReach_reachAvoid_single {rep : Rep} {vis : List Bool} {i : ℕ}
    (hvis : ∀ x, Vis vis x → x = i) :
    ∀ {k}, IdxReach rep i k → ReachAvoid rep vis i k := by
  intro k h
  induction h with
  | refl => exact .refl
  | tail _ he ih =>
    rename_i u w _
    by_cases hw : w = i
    · exact hw ▸ .refl
    · exact .tail ih he fun hx => hw (hvis w hx)

/-- `mapM` over `Option` succeeds on pointwise-successful functions and
relates input and output elementwise. -/
theorem listMapMSome {β γ : Type} (f : β → Option γ) :
    ∀ l : List β, (∀ x ∈ l, ∃ y, f x = some y) →
      ∃ l2, l.mapM f = some l2 ∧ List.Forall₂ (fun x y => f x = some y) l l2 := by
  intro l
  induction l with
  | nil => exact fun _ => ⟨[], by rw [List.mapM_nil]; rfl, .nil⟩
  | cons a t ih =>
    intro h
    obtain ⟨y, hy⟩ := h a (by simp)
    obtain ⟨l2, hl2, hf⟩ := ih fun x hx => h x (by simp [hx])
    exact ⟨y :: l2, by rw [List.mapM_cons, hy, hl2]; rfl, .cons hy hf⟩

/-- Conversely, a successful `mapM` over `Option` yields elementwise-related
lists. -/
theorem listMapMForall {β γ : Type} (f : β → Option γ) :
    ∀ (l : List β) (l2 : List γ), l.mapM f = some l2 →
      List.Forall₂ (fun x y => f x = some y) l l2 := by
  intro l
  induction l with
  | nil =>
    intro l2 h
    simp only [List.mapM_nil] at h
    cases h
    exact .nil
  | cons a t ih =>
    intro l2 h
    rw [List.mapM_cons] at h
    cases ha : f a with
    | none => rw [ha] at h; simp at h
    | some y =>
      rw [ha] at h
      cases ht : t.mapM f with
      | none => rw [ht] at h; simp at h
      | some l3 =>
        rw [ht] at h
        simp only [bind_pure_comp, Option.bind_some, Option.map_some] at h
        cases h
        exact .cons ha (ih l3 ht)

/-- Claim C1: the three backends are NOT observationally equivalent.  After
`add_value 1/2/3; add_connection 1 3; remove_value 2`, the adjacency-list
backend answers `has_connection 1 3 = False` (its `remove_vertex` does not
renumber stored neighbor indices), while the adjacency-matrix and
pointers-and-objects backends answer `True`. -/
theorem C1_backends_disagree :
    (seqRemoveMiddleList.bind fun g => g.hasConnection 1 3) = some false ∧
    (seqRemoveMiddleMatrix.bind fun g => g.hasConnection 1 3) = some true ∧
    (seqRemoveMiddlePointers.bind fun g => g.hasConnection 1 3) = some true := by
  decide

/-- Claim C2: `remove_vertex` fails to renumber (adjacency list) and fails to
remove edges touching the removed vertex (pointers).  Removing vertex 1 from
the list backend `[[(2, w)], [], []]` leaves the stored index 2 untouched —
the surviving edge should have become `0 → 1` but `has_edge 0 1` is `False`
and the row still references index 2 = n_vertices.  Removing vertex 1 from
the pointers backend with edge `0 → 1` keeps the edge to the removed object:
`iterate_neighbors 0` still reports an edge (now claiming neighbor index 1,
the renumbered third vertex) while `has_edge 0 1` is `False`. -/
theorem C2_remove_vertex_no_renumber :
    (AdjacencyList.removeVertex [[⟨2, 1⟩], [], []] 1 = some [[⟨2, 1⟩], []] ∧
      AdjacencyList.hasEdge [[⟨2, 1⟩], []] 0 1 = some false) ∧
    ∃ po2, poEdge01.removeVertex 1 = some po2 ∧
      po2.iterateNeighbors 0 = some [⟨1, 1⟩] ∧
      po2.hasEdge 0 1 = some false := by
  refine ⟨by decide, ⟨{ objs := [⟨0, [(1, 1)]⟩, ⟨1, []⟩, ⟨1, []⟩], live := [0, 2] }, ?_, ?_, ?_⟩⟩
  · decide
  · decide
  · decide

/-- Claim C3: `remove_value` followed by `add_value` of a fresh value
resurrects a stale edge on the adjacency-list backend: after
`add 1/2/3; connect 1 3; remove 2; add 4`, `has_connection 1 4` is `True`
(the stale stored index 2 now denotes the new value 4), while the claim
requires the fresh value to have no connections. -/
theorem C3_stale_edge_resurrected :
    ((seqRemoveMiddleList.bind fun g => g.addValue 4).bind fun g =>
      g.hasConnection 1 4) = some true := by
  decide

/-- Claim C7: `_Vertex.remove_neighbor` ignores which neighbor was requested
and removes the first entry of the neighbor list.  With edges `1 → 3` and
`1 → 2`, `remove_connection 1 3` removes the edge `1 → 2` instead:
afterwards `has_connection 1 3` is still `True` and `has_connection 1 2` is
`False`. -/
theorem C7_remove_edge_wrong_neighbor :
    ((seqPointersRemoveEdge.bind fun g => g.hasConnection 1 3) = some true) ∧
    ((seqPointersRemoveEdge.bind fun g => g.hasConnection 1 2) = some false) := by
  decide

/-- Claim C9: on the pointers-and-objects backend `get_connection_weight`
always raises: `get_edge` passes the integer index to
`get_neighbor_weight`, whose identity-based `has_neighbor` test can never
accept an `int`, so its assert fires.  After the undirected
`add_connection 1 2 (weight 2)`, `has_connection 2 1` is `True` as the claim
says, but `get_connection_weight 2 1` (and even `get_connection_weight 1 2`)
raises `AssertionError` instead of returning 2. -/
theorem C9_get_weight_always_fails :
    ((seqPointersUndirected.bind fun g => g.hasConnection 2 1) = some true) ∧
    ((seqPointersUndirected.bind fun g => g.getConnectionWeight 2 1) = none) ∧
    ((seqPointersUndirected.bind fun g => g.getConnectionWeight 1 2) = none) := by
  decide

/-- When some element of the sequence already carries the key of the element
to insert, the `_add_element_sorted` scan returns without a slot. -/
theorem addElementSortedSlot_eq_none {β : Type} (key : β → ℕ) (kel : ℕ) :
    ∀ (seq : List β) (i slot : ℕ), (∃ b ∈ seq, key b = kel) →
      addElementSortedSlot key kel seq i slot = none := by
  intro seq
  induction seq with
  | nil => rintro i slot ⟨b, hb, -⟩; cases hb
  | cons a rest ih =>
    rintro i slot ⟨b, hb, hk⟩
    unfold addElementSortedSlot
    rcases List.mem_cons.mp hb with rfl | hb2
    · rw [if_pos hk]
    · by_cases ha : key a = kel
      · rw [if_pos ha]
      · rw [if_neg ha]
        by_cases hlt : key a < kel
        · rw [if_pos hlt]; exact ih _ _ ⟨b, hb2, hk⟩
        · rw [if_neg hlt]; exact ih _ _ ⟨b, hb2, hk⟩

/-- `_add_element_sorted` silently ignores an element whose key is already
present. -/
theorem addElementSorted_of_mem {β : Type} (key : β → ℕ) (seq : List β) (element : β)
    (h : ∃ b ∈ seq, key b = key element) : addElementSorted key seq element = seq := by
  unfold addElementSorted
  rw [addElementSortedSlot_eq_none key _ seq 0 0 h]

/-- Setting a cell to the value it already holds is the identity. -/
theorem listSetGetDSelf {β : Type} :
    ∀ (l : List β) (n : ℕ) (d : β), l.set n (l.getD n d) = l := by
  intro l
  induction l with
  | nil => intro n d; rfl
  | cons a t ih =>
    intro n d
    cases n with
    | zero => rfl
    | succ m => simpa using ih m d

/-- Reading back a freshly set cell. -/
theorem listGetSetSelf {β : Type} :
    ∀ (l : List β) (n : ℕ) (a : β), n < l.length → (l.set n a)[n]? = some a := by
  intro l
  induction l with
  | nil => intro n a h; cases h
  | cons b t ih =>
    intro n a h
    cases n with
    | zero => simp
    | succ m => simpa using ih m a (by simpa using h)

/-- Claim C6 counterexample: `add_edge` on an existing edge does NOT fail
loudly.  Starting from states holding the edge `0 → 1` (weight 2), a second
`add_edge 0 1 (weight 3)` succeeds silently: the adjacency list ignores it
and the adjacency matrix overwrites the weight. -/
theorem C6_add_edge_silent :
    AdjacencyList.addEdge [[⟨1, 2⟩], []] 0 1 3 = some [[⟨1, 2⟩], []] ∧
    AdjacencyMatrix.addEdge [[0, 2], [0, 0]] 0 1 3 = some [[0, 3], [0, 0]] := by
  decide

/-- Claim C6 as amended: the `weight > 0` and edge-absence preconditions are
enforced for every backend at the `Graph.add_connection` level, which fails
loudly on a duplicate connection or nonpositive weight; at the
representation level only the pointers-and-objects `add_edge` asserts
absence of the edge, while the adjacency list silently ignores a duplicate
`add_edge` (leaving the state unchanged, old weight kept) and the adjacency
matrix checks only `weight > 0` and silently overwrites the stored
weight. -/
theorem C6_add_edge_amended {α : Type} [DecidableEq α] :
    (∀ (g : Graph α) (a b : α) (w : ℚ), w ≤ 0 → g.addConnection a b w = none) ∧
    (∀ (g : Graph α) (a b : α) (w : ℚ), g.hasConnection a b = some true →
      g.addConnection a b w = none) ∧
    (∀ (po : PointersAndObjects) (v1 v2 : ℕ) (w : ℚ), po.hasEdge v1 v2 = some true →
      po.addEdge v1 v2 w = none) ∧
    (∀ (al : AdjacencyList) (v1 v2 : ℕ) (w : ℚ), al.hasEdge v1 v2 = some true →
      al.addEdge v1 v2 w = some al) ∧
    (∀ (m : AdjacencyMatrix) (v1 v2 : ℕ) (w : ℚ) (row : List ℚ), 0 < w →
      m[v1]? = some row → v2 < row.length →
      m.addEdge v1 v2 w = some (m.set v1 (row.set v2 w)) ∧
        AdjacencyMatrix.getEdge (m.set v1 (row.set v2 w)) v1 v2 = some (w : WithTop ℚ)) := by
  refine ⟨?_, ?_, ?_, ?_, ?_⟩
  · intro g a b w hw
    unfold Graph.addConnection
    rw [if_neg (not_lt.mpr hw)]
  · intro g a b w h
    unfold Graph.addConnection
    by_cases hw : 0 < w
    · rw [if_pos hw]
      simp [h]
    · rw [if_neg hw]
  · intro po v1 v2 w h
    cases h1 : po.live[v1]? with
    | none => simp [PointersAndObjects.hasEdge, h1] at h
    | some oid1 =>
      cases h2 : po.live[v2]? with
      | none => simp [PointersAndObjects.hasEdge, h1, h2] at h
      | some oid2 =>
        by_cases he : oid1 = oid2
        · simp [PointersAndObjects.hasEdge, h1, h2, he] at h
        · cases h3 : po.objs[oid1]? with
          | none => simp [PointersAndObjects.hasEdge, h1, h2, he, h3] at h
          | some vx1 =>
            have hany : (vx1.neighbors.any fun p => p.1 == oid2) = true := by
              simpa [PointersAndObjects.hasEdge, h1, h2, he, h3] using h
            simp [PointersAndObjects.addEdge, h1, h2, he, h3, hany]
  · intro al v1 v2 w h
    unfold AdjacencyList.hasEdge at h
    unfold AdjacencyList.addEdge
    by_cases hg : v1 ≠ v2 ∧ v1 < al.length ∧ v2 < al.length
    · rw [if_pos hg] at h
      rw [if_pos hg]
      have hany : ((al.getD v1 []).any fun vw => vw.vertex == v2) = true := by
        simpa using h
      obtain ⟨vw, hmem, hv⟩ := List.any_eq_true.mp hany
      rw [addElementSorted_of_mem _ _ _ ⟨vw, hmem, by simpa using hv⟩]
      rw [listSetGetDSelf]
    · rw [if_neg hg] at h; cases h
  · intro m v1 v2 w row hw h1 h2
    have hv1 : v1 < m.length := by
      by_contra hh
      rw [List.getElem?_eq_none (le_of_not_lt hh)] at h1
      cases h1
    constructor
    · unfold AdjacencyMatrix.addEdge
      rw [if_pos hw, h1]
      simp [List.getElem?_eq_getElem h2]
    · unfold AdjacencyMatrix.getEdge
      rw [listGetSetSelf m v1 (row.set v2 w) hv1]
      simp [listGetSetSelf row v2 w h2]

/-- Claim C6 amended, instantiated: the facade rejects a duplicate
`add_connection` and a nonpositive weight, the pointers backend raises on a
duplicate `add_edge`, the adjacency list ignores it, and the adjacency
matrix overwrites. -/
theorem C6_add_edge_amended_witness :
    ((Graph.mk [1, 2] true (.adjacencyMatrix [[0, 2], [0, 0]]) : Graph ℕ).addConnection
        1 2 (-1) = none) ∧
    ((Graph.mk [1, 2] true (.adjacencyMatrix [[0, 2], [0, 0]]) : Graph ℕ).addConnection
        1 2 3 = none) ∧
    (PointersAndObjects.addEdge ⟨[⟨0, [(1, 2)]⟩, ⟨1, []⟩], [0, 1]⟩ 0 1 3 = none) ∧
    (AdjacencyList.addEdge [[⟨1, 2⟩], []] 0 1 3 = some [[⟨1, 2⟩], []]) ∧
    (AdjacencyMatrix.addEdge [[0, 2], [0, 0]] 0 1 3 =
        some ([[0, 2], [0, 0]].set 0 ([0, 2].set 1 3)) ∧
      AdjacencyMatrix.getEdge ([[0, 2], [0, 0]].set 0 ([0, 2].set 1 3)) 0 1 =
        some ((3 : ℚ) : WithTop ℚ)) := by
  refine ⟨?_, ?_, ?_, ?_, ?_⟩
  · exact (C6_add_edge_amended (α := ℕ)).1
      (Graph.mk [1, 2] true (.adjacencyMatrix [[0, 2], [0, 0]])) 1 2 (-1) (by norm_num)
  · exact (C6_add_edge_amended (α := ℕ)).2.1
      (Graph.mk [1, 2] true (.adjacencyMatrix [[0, 2], [0, 0]])) 1 2 3 (by decide)
  · exact (C6_add_edge_amended (α := ℕ)).2.2.1 ⟨[⟨0, [(1, 2)]⟩, ⟨1, []⟩], [0, 1]⟩ 0 1 3 (by decide)
  · exact (C6_add_edge_amended (α := ℕ)).2.2.2.1 [[⟨1, 2⟩], []] 0 1 3 (by decide)
  · exact (C6_add_edge_amended (α := ℕ)).2.2.2.2 [[0, 2], [0, 0]] 0 1 3 [0, 2]
      (by norm_num) (by decide) (by decide)

/-- Claim C10: with `vertex_source = vertex_target = s` the search succeeds
immediately on any graph state (well-formed or not, any backend, any
heuristic): the seeded entry `(0.0, s)` is popped, the loop breaks before
ever touching the graph, and the reconstruction returns `([s], 0.0)`. -/
theorem C10_source_equals_target {α : Type} [DecidableEq α] [LinearOrder α]
    (g : Graph α) (hfn : α → ℚ) (s : α) :
    aStarSearchAlgorithm g s s hfn = .ok [s] 0 := by
  have hf : g.aStarFuel s =
      (2 * (g.values.map fun v => ((g.pathCosts s v).dedup).length).sum + 1) + 1 := rfl
  simp only [aStarSearchAlgorithm, hf]
  simp only [aStarLoop, popMin_singleton]
  simp [reconsAux, Function.update_same]

/-- Specification of the neighbor-processing loop of `traverse_BFS` (lines
47-50): it marks and enqueues exactly the previously unmarked neighbors. -/
theorem bfsFoldSpec :
    ∀ (l : List VertexAndWeight) (vis0 visA : List Bool) (qA : List ℕ),
      (∀ vw ∈ l, vw.vertex < vis0.length) →
      visA.length = vis0.length →
      (∀ x, Vis visA x ↔ (Vis vis0 x ∨ x ∈ qA)) →
      qA.Nodup →
      (∀ x ∈ qA, ¬ Vis vis0 x ∧ x < vis0.length) →
      ∃ vis2 q2,
        l.foldlM
          (fun (s : List Bool × List ℕ) vw => do
            let b ← s.1[vw.vertex]?
            if b then pure s else pure (s.1.set vw.vertex true, s.2 ++ [vw.vertex]))
          (visA, qA) = some (vis2, q2) ∧
        vis2.length = vis0.length ∧ q2.Nodup ∧
        (∀ x ∈ q2, ¬ Vis vis0 x ∧ x < vis0.length) ∧
        (∀ x, Vis vis2 x ↔ (Vis vis0 x ∨ x ∈ q2)) ∧
        (∀ x, x ∈ q2 ↔ (x ∈ qA ∨ ((∃ vw ∈ l, vw.vertex = x) ∧ ¬ Vis vis0 x))) := by
  intro l
  induction l with
  | nil =>
    intro vis0 visA qA _ hlen hvis hnd hq
    refine ⟨visA, qA, by rw [List.foldlM_nil]; rfl, hlen, hnd, hq, hvis, ?_⟩
    simp
  | cons vw rest ih =>
    intro vis0 visA qA hb hlen hvis hnd hq
    have hvb : vw.vertex < vis0.length := hb vw (by simp)
    have hvA : vw.vertex < visA.length := by rw [hlen]; exact hvb
    rw [List.foldlM_cons]
    by_cases hB : Vis visA vw.vertex
    · have hstep : (do
          let b ← visA[vw.vertex]?
          if b then pure (visA, qA)
          else pure (visA.set vw.vertex true, qA ++ [vw.vertex]) :
            Option (List Bool × List ℕ)) = some (visA, qA) := by
        rw [visGetElem visA vw.vertex hvA, hB]
        simp
      obtain ⟨vis2, q2, hfold, hl2, hnd2, hq2, hvis2, hmem2⟩ :=
        ih vis0 visA qA (fun x hx => hb x (by simp [hx])) hlen hvis hnd hq
      refine ⟨vis2, q2, ?_, hl2, hnd2, hq2, hvis2, ?_⟩
      · rw [hstep]
        simpa using hfold
      · intro x
        rw [hmem2 x]
        constructor
        · rintro (hx | ⟨⟨vw2, hvw2, hx⟩, hnv⟩)
          · exact .inl hx
          · exact .inr ⟨⟨vw2, by simp [hvw2], hx⟩, hnv⟩
        · rintro (hx | ⟨⟨vw2, hvw2, hx⟩, hnv⟩)
          · exact .inl hx
          · rcases List.mem_cons.mp hvw2 with rfl | hr
            · subst hx
              rcases (hvis vw2.vertex).mp hB with h0 | hq0
              · exact absurd h0 hnv
              · exact .inl hq0
            · exact .inr ⟨⟨vw2, hr, hx⟩, hnv⟩
    · have hBf : visA.getD vw.vertex false = false := by
        cases h : visA.getD vw.vertex false
        · rfl
        · exact absurd h hB
      have hstep : (do
          let b ← visA[vw.vertex]?
          if b then pure (visA, qA)
          else pure (visA.set vw.vertex true, qA ++ [vw.vertex]) :
            Option (List Bool × List ℕ)) =
          some (visA.set vw.vertex true, qA ++ [vw.vertex]) := by
        rw [visGetElem visA vw.vertex hvA, hBf]
        simp
      have hnotq : vw.vertex ∉ qA := fun hx => hB ((hvis vw.vertex).mpr (.inr hx))
      have hnot0 : ¬ Vis vis0 vw.vertex := fun hx => hB ((hvis vw.vertex).mpr (.inl hx))
      have hvis' : ∀ x, Vis (visA.set vw.vertex true) x ↔
          (Vis vis0 x ∨ x ∈ qA ++ [vw.vertex]) := by
        intro x
        rw [visSetTrue visA vw.vertex hvA x, hvis x]
        simp only [List.mem_append, List.mem_singleton]
        tauto
      have hnd' : (qA ++ [vw.vertex]).Nodup :=
        hnd.append (List.nodup_singleton _) (by
          intro x hx hx2
          rw [List.mem_singleton] at hx2
          exact hnotq (hx2 ▸ hx))
      have hq' : ∀ x ∈ qA ++ [vw.vertex], ¬ Vis vis0 x ∧ x < vis0.length := by
        intro x hx
        rcases List.mem_append.mp hx with hx | hx
        · exact hq x hx
        · rw [List.mem_singleton] at hx
          subst hx
          exact ⟨hnot0, hvb⟩
      obtain ⟨vis2, q2, hfold, hl2, hnd2, hq2, hvis2, hmem2⟩ :=
        ih vis0 (visA.set vw.vertex true) (qA ++ [vw.vertex])
          (fun x hx => hb x (by simp [hx])) (by simp [hlen]) hvis' hnd' hq'
      refine ⟨vis2, q2, ?_, hl2, hnd2, hq2, hvis2, ?_⟩
      · rw [hstep]
        simpa using hfold
      · intro x
        rw [hmem2 x]
        simp only [List.mem_append, List.mem_singleton]
        constructor
        · rintro ((hx | rfl) | ⟨⟨vw2, hvw2, hx⟩, hnv⟩)
          · exact .inl hx
          · exact .inr ⟨⟨vw, by simp⟩, hnot0⟩
          · exact .inr ⟨⟨vw2, by simp [hvw2], hx⟩, hnv⟩
        · rintro (hx | ⟨⟨vw2, hvw2, hx⟩, hnv⟩)
          · exact .inl (.inl hx)
          · rcases List.mem_cons.mp hvw2 with rfl | hr
            · exact .inl (.inr hx.symm)
            · exact .inr ⟨⟨vw2, hr, hx⟩, hnv⟩

/-- Main specification of the `traverse_BFS` loop: starting from a queue of
marked vertices, it succeeds and yields, exactly once each, the vertices
reachable from the queue along unmarked continuations. -/
theorem bfsAuxSpec (rep : Rep) (n : ℕ) (W : NbrsBound rep n) :
    ∀ (fuel : ℕ) (queue : List ℕ) (vis : List Bool),
      vis.length = n →
      (∀ j ∈ queue, j < n ∧ Vis vis j) →
      queue.Nodup →
      2 * unvis vis + queue.length < fuel →
      ∃ out, Graph.bfsAux rep fuel queue vis = some out ∧ out.Nodup ∧
        (∀ k, k ∈ out ↔ ∃ j ∈ queue, ReachAvoid rep vis j k) := by
  intro fuel
  induction fuel with
  | zero => intro queue vis _ _ _ hf; omega
  | succ f ih =>
    intro queue vis hlen hq hnd hf
    cases queue with
    | nil =>
      refine ⟨[], by simp [Graph.bfsAux], by simp, ?_⟩
      simp
    | cons i rest =>
      obtain ⟨hin, hvi⟩ := hq i (by simp)
      obtain ⟨l, hl, hlb⟩ := W i hin
      obtain ⟨vis2, newq, hfold, hlen2, hnd2, hnew, hvis2, hmem2⟩ :=
        bfsFoldSpec l vis vis []
          (fun vw hvw => by rw [hlen]; exact hlb vw hvw)
          rfl (by simp) (by simp) (by simp)
      have hmem2' : ∀ x, x ∈ newq ↔ ((∃ vw ∈ l, vw.vertex = x) ∧ ¬ Vis vis x) := by
        intro x
        rw [hmem2 x]
        simp
      have hnewlen : unvis vis2 + newq.length = unvis vis :=
        unvisDrop vis vis2 newq hlen2 hnd2 hnew hvis2
      have hq' : ∀ j ∈ rest ++ newq, j < n ∧ Vis vis2 j := by
        intro j hj
        rcases List.mem_append.mp hj with hj | hj
        · obtain ⟨h1, h2⟩ := hq j (by simp [hj])
          exact ⟨h1, (hvis2 j).mpr (.inl h2)⟩
        · exact ⟨hlen ▸ (hnew j hj).2, (hvis2 j).mpr (.inr hj)⟩
      have hnd' : (rest ++ newq).Nodup := by
        refine (List.nodup_cons.mp hnd).2.append hnd2 ?_
        intro x hx hx2
        exact (hnew x hx2).1 (hq x (by simp [hx])).2
      have hf' : 2 * unvis vis2 + (rest ++ newq).length < f := by
        rw [List.length_append]
        simp only [List.length_cons] at hf
        omega
      obtain ⟨out, hout, houtnd, houtmem⟩ := ih (rest ++ newq) vis2 (hlen2.trans hlen) hq' hnd' hf'
      have hinotout : i ∉ out := by
        intro hio
        obtain ⟨j, hj, hra⟩ := (houtmem i).mp hio
        have hvi2 : Vis vis2 i := (hvis2 i).mpr (.inl hvi)
        rcases reachAvoid_elem hra with rfl | hni
        · rcases List.mem_append.mp hj with hj | hj
          · exact (List.nodup_cons.mp hnd).1 hj
          · exact (hnew i hj).1 hvi
        · exact hni hvi2
      refine ⟨i :: out, ?_, List.nodup_cons.mpr ⟨hinotout, houtnd⟩, ?_⟩
      · rw [show Graph.bfsAux rep (f + 1) (i :: rest) vis = do
            let l2 ← rep.iterateNeighbors i
            let s ← l2.foldlM
              (fun (s : List Bool × List ℕ) vw => do
                let b ← s.1[vw.vertex]?
                if b then pure s else pure (s.1.set vw.vertex true, s.2 ++ [vw.vertex]))
              (vis, ([] : List ℕ))
            let out2 ← Graph.bfsAux rep f (rest ++ s.2) s.1
            pure (i :: out2) from rfl]
        rw [hl]
        simp only [Option.bind_eq_bind, Option.some_bind] at hfold ⊢
        rw [hfold]
        simp only [Option.some_bind]
        rw [hout]
        simp only [Option.some_bind]
        rfl
      · intro k
        simp only [List.mem_cons]
        constructor
        · rintro (rfl | hk)
          · exact ⟨k, by simp, .refl⟩
          · obtain ⟨j, hj, hra⟩ := (houtmem k).mp hk
            rcases List.mem_append.mp hj with hj | hj
            · exact ⟨j, by simp [hj], reachAvoid_mono (fun x hx => (hvis2 x).mpr (.inl hx)) hra⟩
            · obtain ⟨⟨vw, hvw, hveq⟩, hnv⟩ := (hmem2' j).mp hj
              refine ⟨i, by simp, reachAvoid_trans (.tail .refl ⟨l, hl, vw, hvw, hveq⟩ hnv)
                (reachAvoid_mono (fun x hx => (hvis2 x).mpr (.inl hx)) hra)⟩
        · rintro ⟨j, hj, hra⟩
          induction hra with
          | refl =>
            rcases hj with rfl | hj2
            · exact .inl rfl
            · exact .inr ((houtmem j).mpr ⟨j, by simp [hj2], .refl⟩)
          | tail hu he hnv ihu =>
            rename_i u w
            rcases ihu with rfl | huo
            · obtain ⟨l2, hl2, vw, hvw, hveq⟩ := he
              rw [hl] at hl2
              cases hl2
              have hwnew : w ∈ newq := (hmem2' w).mpr ⟨⟨vw, hvw, hveq⟩, hnv⟩
              exact .inr ((houtmem w).mpr ⟨w, by simp [hwnew], .refl⟩)
            · obtain ⟨j2, hj2, hra2⟩ := (houtmem u).mp huo
              by_cases hk2 : Vis vis2 w
              · have hwnew : w ∈ newq := by
                  rcases (hvis2 w).mp hk2 with h0 | hq0
                  · exact absurd h0 hnv
                  · exact hq0
                exact .inr ((houtmem w).mpr ⟨w, by simp [hwnew], .refl⟩)
              · exact .inr ((houtmem w).mpr ⟨j2, hj2, .tail hra2 he hk2⟩)

/-- Main specification of the `traverse_DFS` recursion: from an unmarked
start it succeeds and yields, exactly once each, the vertices reachable
through unmarked vertices; from a marked start it yields nothing. -/
theorem dfsAuxSpec (rep : Rep) (n : ℕ) (W : NbrsBound rep n) :
    ∀ (fuel : ℕ) (vis : List Bool) (i : ℕ),
      vis.length = n → i < n → unvis vis < fuel →
      ∃ vis2 out, Graph.dfsAux rep fuel vis i = some (vis2, out) ∧
        vis2.length = n ∧ out.Nodup ∧
        (∀ x ∈ out, ¬ Vis vis x ∧ x < n) ∧
        (∀ x, Vis vis2 x ↔ (Vis vis x ∨ x ∈ out)) ∧
        (∀ k, k ∈ out ↔ (¬ Vis vis i ∧ ReachAvoid rep vis i k)) := by
  intro fuel
  induction fuel with
  | zero => intro vis i _ _ hf; omega
  | succ f ih =>
    intro vis i hlen hi hf
    have hiv : i < vis.length := by rw [hlen]; exact hi
    have hbody : Graph.dfsAux rep (f + 1) vis i = (do
        let b ← vis[i]?
        if b then pure (vis, ([] : List ℕ))
        else do
          let l2 ← rep.iterateNeighbors i
          let s ← l2.foldlM
            (fun (s : List Bool × List ℕ) vw => do
              let r ← Graph.dfsAux rep f s.1 vw.vertex
              pure (r.1, s.2 ++ r.2))
            (vis.set i true, ([] : List ℕ))
          pure (s.1, i :: s.2)) := rfl
    by_cases hB : Vis vis i
    · refine ⟨vis, [], ?_, hlen, by simp, by simp, fun x => by simp, ?_⟩
      · rw [hbody, visGetElem vis i hiv, hB]
        simp
      · intro k
        simp only [List.not_mem_nil, false_iff, not_and]
        intro hni
        exact absurd hB hni
    · have hBf : vis.getD i false = false := by
        cases h : vis.getD i false
        · rfl
        · exact absurd h hB
      have hlen1 : (vis.set i true).length = n := by simp [hlen]
      have hvis1 : ∀ x, Vis (vis.set i true) x ↔ (Vis vis x ∨ x = i) :=
        visSetTrue vis i hiv
      have hdrop : unvis (vis.set i true) + 1 = unvis vis := by
        have := unvisDrop vis (vis.set i true) [i] (by simp) (List.nodup_singleton i)
          (fun x hx => by rw [List.mem_singleton] at hx; subst hx; exact ⟨hB, hiv⟩)
          (fun x => by rw [hvis1 x]; simp)
        simpa using this
      have hunvis1 : unvis (vis.set i true) < f := by omega
      obtain ⟨l, hl, hlb⟩ := W i hi
      have fold : ∀ (l2 : List VertexAndWeight) (visA : List Bool) (outA : List ℕ),
          (∀ vw ∈ l2, vw.vertex < n) →
          visA.length = n →
          unvis visA < f →
          ∃ vis2 outs, l2.foldlM
              (fun (s : List Bool × List ℕ) vw => do
                let r ← Graph.dfsAux rep f s.1 vw.vertex
                pure (r.1, s.2 ++ r.2))
              (visA, outA) = some (vis2, outs) ∧
            vis2.length = n ∧
            ∃ dlt, outs = outA ++ dlt ∧ dlt.Nodup ∧
              (∀ x ∈ dlt, ¬ Vis visA x ∧ x < n) ∧
              (∀ x, Vis vis2 x ↔ (Vis visA x ∨ x ∈ dlt)) ∧
              (∀ k, k ∈ dlt ↔ ∃ vw ∈ l2, ¬ Vis visA vw.vertex ∧
                ReachAvoid rep visA vw.vertex k) := by
        intro l2
        induction l2 with
        | nil =>
          intro visA outA _ hlenA _
          refine ⟨visA, outA, by rw [List.foldlM_nil]; rfl, hlenA, [], by simp, by simp,
            by simp, fun x => by simp, by simp⟩
        | cons vw rest ihl =>
          intro visA outA hb2 hlenA huA
          obtain ⟨visB, out1, hc, hlenB, hnd1, hq1, hvisB, hmem1⟩ :=
            ih visA vw.vertex hlenA (hb2 vw (by simp)) huA
          have hmono : ∀ x, Vis visA x → Vis visB x := fun x hx => (hvisB x).mpr (.inl hx)
          have huB : unvis visB ≤ unvis visA :=
            unvisMono visA visB (hlenB.trans hlenA.symm) hmono
          obtain ⟨vis2, outs, hcr, hlen2, dlt2, hout2eq, hnd2, hq2, hvis22, hmem22⟩ :=
            ihl visB (outA ++ out1) (fun x hx => hb2 x (by simp [hx])) hlenB
              (lt_of_le_of_lt huB huA)
          refine ⟨vis2, outs, ?_, hlen2, out1 ++ dlt2, ?_, ?_, ?_, ?_, ?_⟩
          · rw [List.foldlM_cons]
            simp only [Option.bind_eq_bind, Option.some_bind] at hcr ⊢
            rw [hc]
            simp only [Option.some_bind]
            exact hcr
          · rw [hout2eq, List.append_assoc]
          · refine hnd1.append hnd2 ?_
            intro x hx hx2
            exact (hq2 x hx2).1 ((hvisB x).mpr (.inr hx))
          · intro x hx
            rcases List.mem_append.mp hx with hx | hx
            · exact hq1 x hx
            · obtain ⟨h1, h2⟩ := hq2 x hx
              exact ⟨fun hv => h1 (hmono x hv), h2⟩
          · intro x
            rw [hvis22 x, hvisB x]
            simp only [List.mem_append]
            tauto
          · intro k
            simp only [List.mem_append, List.mem_cons]
            constructor
            · rintro (hk | hk)
              · obtain ⟨h1, h2⟩ := (hmem1 k).mp hk
                exact ⟨vw, .inl rfl, h1, h2⟩
              · obtain ⟨vw2, hvw2, h1, h2⟩ := (hmem22 k).mp hk
                exact ⟨vw2, .inr hvw2, fun hv => h1 (hmono _ hv),
                  reachAvoid_mono hmono h2⟩
            · rintro ⟨vw2, hmem, hnvA, hra⟩
              rcases hmem with rfl | hr
              · exact .inl ((hmem1 k).mpr ⟨hnvA, hra⟩)
              · have key : ∀ k2, ReachAvoid rep visA vw2.vertex k2 →
                    (k2 ∈ out1 ∨ (¬ Vis visB vw2.vertex ∧
                      ReachAvoid rep visB vw2.vertex k2)) := by
                  intro k2 hk2
                  induction hk2 with
                  | refl =>
                    by_cases hvb : Vis visB vw2.vertex
                    · rcases (hvisB vw2.vertex).mp hvb with h0 | h1
                      · exact absurd h0 hnvA
                      · exact .inl h1
                    · exact .inr ⟨hvb, .refl⟩
                  | tail hu he hnv ihu =>
                    rename_i u k3
                    rcases ihu with huo | ⟨hnB, hrb⟩
                    · obtain ⟨hnvw, hrau⟩ := (hmem1 u).mp huo
                      exact .inl ((hmem1 k3).mpr ⟨hnvw, .tail hrau he hnv⟩)
                    · by_cases hvk : Vis visB k3
                      · rcases (hvisB k3).mp hvk with h0 | h1
                        · exact absurd h0 hnv
                        · exact .inl h1
                      · exact .inr ⟨hnB, .tail hrb he hvk⟩
                rcases key k hra with hk1 | ⟨hnB, hk2⟩
                · exact .inl hk1
                · exact .inr ((hmem22 k).mpr ⟨vw2, hr, hnB, hk2⟩)
      obtain ⟨vis2, outs, hfold, hlen2, dlt, hdlt_eq, hdnd, hdq, hdvis, hdmem⟩ :=
        fold l (vis.set i true) [] hlb hlen1 hunvis1
      simp only [List.nil_append] at hdlt_eq
      subst hdlt_eq
      have hidlt : i ∉ outs := fun hx =>
        (hdq i hx).1 ((hvis1 i).mpr (.inr rfl))
      refine ⟨vis2, i :: outs, ?_, hlen2, List.nodup_cons.mpr ⟨hidlt, hdnd⟩, ?_, ?_, ?_⟩
      · rw [hbody, visGetElem vis i hiv, hBf]
        simp only [Option.bind_eq_bind, Option.some_bind] at hfold ⊢
        simp only [Bool.false_eq_true, if_false]
        rw [hl]
        simp only [Option.some_bind]
        rw [hfold]
        simp only [Option.some_bind]
        rfl
      · intro x hx
        rcases List.mem_cons.mp hx with rfl | hx
        · exact ⟨hB, hi⟩
        · obtain ⟨h1, h2⟩ := hdq x hx
          exact ⟨fun hv => h1 ((hvis1 x).mpr (.inl hv)), h2⟩
      · intro x
        rw [hdvis x, hvis1 x]
        simp only [List.mem_cons]
        tauto
      · intro k
        simp only [List.mem_cons]
        constructor
        · rintro (rfl | hk)
          · exact ⟨hB, .refl⟩
          · obtain ⟨vw, hvw, hnv1, hra⟩ := (hdmem k).mp hk
            have hnv : ¬ Vis vis vw.vertex := fun hv => hnv1 ((hvis1 _).mpr (.inl hv))
            refine ⟨hB, reachAvoid_trans (.tail .refl ⟨l, hl, vw, hvw, rfl⟩ hnv)
              (reachAvoid_mono (fun x hx => (hvis1 x).mpr (.inl hx)) hra)⟩
        · rintro ⟨-, hra⟩
          induction hra with
          | refl => exact .inl rfl
          | tail hu he hnv ihu =>
            rename_i u k3
            by_cases hk3 : k3 = i
            · exact .inl hk3
            · have hnv1 : ¬ Vis (vis.set i true) k3 := fun hv => by
                rcases (hvis1 k3).mp hv with h0 | h1
                · exact hnv h0
                · exact hk3 h1
              rcases ihu with rfl | huD
              · obtain ⟨l3, hl3, vw, hvw, hveq⟩ := he
                rw [hl] at hl3
                cases hl3
                refine .inr ((hdmem k3).mpr ⟨vw, hvw, ?_, hveq ▸ .refl⟩)
                rw [hveq]
                exact hnv1
              · obtain ⟨vw, hvw, hnvw, hrau⟩ := (hdmem u).mp huD
                exact .inr ((hdmem k3).mpr ⟨vw, hvw, hnvw, .tail hrau he hnv1⟩)

theorem getIndex_mem {α : Type} [DecidableEq α] (g : Graph α) (v : α) (hv : v ∈ g.values) :
    ∃ i, g.getIndex v = some i := by
  unfold Graph.getIndex
  cases h : g.values.findIdx? (fun x => x == v) with
  | some i => exact ⟨i, rfl⟩
  | none =>
    rw [List.findIdx?_eq_none_iff] at h
    exact absurd (h v hv) (by simp)

theorem getIndex_spec {α : Type} [DecidableEq α] (g : Graph α) (v : α) (i : ℕ)
    (h : g.getIndex v = some i) : i < g.values.length ∧ g.values[i]? = some v := by
  unfold Graph.getIndex at h
  rw [List.findIdx?_eq_some_iff_getElem] at h
  obtain ⟨hi, hp, -⟩ := h
  refine ⟨hi, ?_⟩
  rw [List.getElem?_eq_getElem hi]
  simpa using hp

theorem nodupGetElemInj {α : Type} (vals : List α) (hnd : vals.Nodup) {k1 k2 : ℕ} {u : α}
    (h1 : vals[k1]? = some u) (h2 : vals[k2]? = some u) : k1 = k2 := by
  have hb1 : k1 < vals.length := by
    by_contra hh
    rw [List.getElem?_eq_none (le_of_not_lt hh)] at h1
    cases h1
  have hb2 : k2 < vals.length := by
    by_contra hh
    rw [List.getElem?_eq_none (le_of_not_lt hh)] at h2
    cases h2
  rw [List.getElem?_eq_getElem hb1] at h1
  rw [List.getElem?_eq_getElem hb2] at h2
  have : vals[k1] = vals[k2] := by
    rw [Option.some.inj h1, Option.some.inj h2]
  exact (hnd.getElem_inj_iff).mp this

theorem getIndex_of_getElem {α : Type} [DecidableEq α] (g : Graph α)
    (hnd : g.values.Nodup) (v : α) (k : ℕ) (hk : g.values[k]? = some v) :
    g.getIndex v = some k := by
  unfold Graph.getIndex
  rw [List.findIdx?_eq_some_iff_getElem]
  have hkl : k < g.values.length := by
    by_contra hh
    rw [List.getElem?_eq_none (le_of_not_lt hh)] at hk
    cases hk
  rw [List.getElem?_eq_getElem hkl] at hk
  have hv : g.values[k] = v := Option.some.inj hk
  refine ⟨hkl, by simp [hv], ?_⟩
  intro j hj
  simp only [beq_iff_eq, Bool.not_eq_true, decide_eq_false_iff_not]
  intro hjv
  have : j = k := (hnd.getElem_inj_iff).mp (by rw [hjv, hv])
  omega

theorem forallTwoMemRight {β γ : Type} {R : β → γ → Prop} :
    ∀ {l : List β} {l2 : List γ}, List.Forall₂ R l l2 → ∀ y ∈ l2, ∃ x ∈ l, R x y := by
  intro l l2 h
  induction h with
  | nil => simp
  | cons hR hrest ih =>
    intro y hy
    rcases List.mem_cons.mp hy with rfl | hy2
    · exact ⟨_, by simp, hR⟩
    · obtain ⟨x, hx, hxy⟩ := ih y hy2
      exact ⟨x, by simp [hx], hxy⟩

theorem forallTwoMemLeft {β γ : Type} {R : β → γ → Prop} :
    ∀ {l : List β} {l2 : List γ}, List.Forall₂ R l l2 → ∀ x ∈ l, ∃ y ∈ l2, R x y := by
  intro l l2 h
  induction h with
  | nil => simp
  | cons hR hrest ih =>
    intro x hx
    rcases List.mem_cons.mp hx with rfl | hx2
    · exact ⟨_, by simp, hR⟩
    · obtain ⟨y, hy, hxy⟩ := ih x hx2
      exact ⟨y, by simp [hy], hxy⟩

/-- Well-formedness gives total, in-range neighbor iteration on every
backend. -/
theorem nbrsBound_of_wf (r : Rep) (h : r.WF) : NbrsBound r r.nVertices := by
  cases r with
  | adjacencyList al =>
    intro i hi
    refine ⟨al[i], by simp [Rep.iterateNeighbors, AdjacencyList.iterateNeighbors,
      List.getElem?_eq_getElem hi], ?_⟩
    intro vw hvw
    exact ((h al[i] (al.getElem_mem hi)).1 vw hvw).1
  | adjacencyMatrix am =>
    intro i hi
    refine ⟨am[i].enum.filterMap (fun p => if 0 < p.2 then some ⟨p.1, p.2⟩ else none),
      by simp [Rep.iterateNeighbors, AdjacencyMatrix.iterateNeighbors,
        List.getElem?_eq_getElem hi], ?_⟩
    intro vw hvw
    rw [List.mem_filterMap] at hvw
    obtain ⟨p, hp, hpe⟩ := hvw
    have hlt : p.1 < am[i].length := by
      have := List.mem_enum_iff_getElem?.mp hp
      by_contra hh
      rw [List.getElem?_eq_none (le_of_not_lt hh)] at this
      cases this
    by_cases hw : 0 < p.2
    · rw [if_pos hw] at hpe
      cases hpe
      have : am[i].length = am.length := h.1 am[i] (am.getElem_mem hi)
      simpa [this] using hlt
    · rw [if_neg hw] at hpe
      cases hpe
  | pointersAndObjects po =>
    intro i hi
    obtain ⟨hnd, hwf⟩ := h
    obtain ⟨hoid, hidx, hnb, hnbnd⟩ := hwf i hi
    have hli : po.live[i]? = some po.live[i] := List.getElem?_eq_getElem hi
    have hgd : po.live.getD i 0 = po.live[i] := listGetDEq po.live i 0 hi
    rw [hgd] at hoid hidx hnb hnbnd
    have hobj : po.objs[po.live[i]]? = some po.objs[po.live[i]] :=
      List.getElem?_eq_getElem hoid
    have hgdo : po.objs.getD po.live[i] ⟨0, []⟩ = po.objs[po.live[i]] :=
      listGetDEq po.objs po.live[i] ⟨0, []⟩ hoid
    rw [hgdo] at hidx hnb hnbnd
    have hstep : ∀ p ∈ po.objs[po.live[i]].neighbors,
        ∃ y, (do
          let nv ← po.objs[p.1]?
          pure (⟨nv.index, p.2⟩ : VertexAndWeight)) = some y ∧ y.vertex < po.live.length := by
      intro p hp
      obtain ⟨hmem, -⟩ := hnb p hp
      obtain ⟨j, hjl, hjv⟩ := List.mem_iff_getElem.mp hmem
      obtain ⟨hoid2, hidx2, -, -⟩ := hwf j hjl
      rw [listGetDEq po.live j 0 hjl, hjv] at hoid2 hidx2
      rw [listGetDEq po.objs p.1 ⟨0, []⟩ hoid2] at hidx2
      refine ⟨⟨po.objs[p.1].index, p.2⟩, ?_, ?_⟩
      · rw [List.getElem?_eq_getElem hoid2]
        rfl
      · simpa [hidx2] using hjl
    obtain ⟨l2, hl2, hfa⟩ := listMapMSome _ po.objs[po.live[i]].neighbors
      (fun p hp => ⟨_, ((hstep p hp).choose_spec).1⟩)
    refine ⟨l2, ?_, ?_⟩
    · rw [show Rep.iterateNeighbors (.pointersAndObjects po) i =
        PointersAndObjects.iterateNeighbors po i from rfl]
      unfold PointersAndObjects.iterateNeighbors
      rw [hli]
      simp only [Option.bind_eq_bind, Option.some_bind]
      rw [hobj]
      simp only [Option.some_bind]
      exact hl2
    · intro vw hvw
      obtain ⟨p, hp, hpe⟩ := forallTwoMemRight hfa vw hvw
      obtain ⟨y, hy, hylt⟩ := hstep p hp
      rw [hy] at hpe
      cases hpe
      exact hylt

theorem idxReach_lt {rep : Rep} {n : ℕ} (W : NbrsBound rep n) {i k : ℕ} (hi : i < n)
    (h : IdxReach rep i k) : k < n := by
  induction h with
  | refl => exact hi
  | tail hu he ihu =>
    obtain ⟨l, hl, vw, hvw, hveq⟩ := he
    obtain ⟨l2, hl2, hb⟩ := W _ ihu
    rw [hl] at hl2
    cases hl2
    exact hveq ▸ hb vw hvw

theorem idxReach_reachAvoid_empty {rep : Rep} {vis : List Bool} {i : ℕ}
    (hvis : ∀ x, ¬ Vis vis x) : ∀ {k}, IdxReach rep i k → ReachAvoid rep vis i k := by
  intro k h
  induction h with
  | refl => exact .refl
  | tail _ he ih => exact .tail ih he (hvis _)

/-- The facade's `iterate_neighbors` of a present value: the backend row with
indices resolved through `values`. -/
theorem facadeNbrs {α : Type} [DecidableEq α] (g : Graph α) (hwf : g.WF) (v : α) (k : ℕ)
    (hk : g.getIndex v = some k) :
    ∃ l l2, g.rep.iterateNeighbors k = some l ∧ g.iterateNeighbors v = some l2 ∧
      List.Forall₂ (fun vw (p : α × ℚ) =>
        g.values[vw.vertex]? = some p.1 ∧ vw.weight = p.2) l l2 := by
  obtain ⟨hkn, -⟩ := getIndex_spec g v k hk
  have W := nbrsBound_of_wf g.rep hwf.2.1
  rw [hwf.2.2] at W
  obtain ⟨l, hl, hb⟩ := W k hkn
  have hstep : ∀ vw ∈ l, ∃ y, (do
      let x ← g.values[vw.vertex]?
      pure (x, vw.weight) : Option (α × ℚ)) = some y := by
    intro vw hvw
    have hlt := hb vw hvw
    have := List.getElem?_eq_getElem hlt
    exact ⟨(g.values.get ⟨vw.vertex, hlt⟩, vw.weight), by rw [this]; rfl⟩
  obtain ⟨l2, hl2, hfa⟩ := listMapMSome _ l hstep
  refine ⟨l, l2, hl, ?_, ?_⟩
  · unfold Graph.iterateNeighbors
    rw [hk]
    simp only [Option.bind_eq_bind, Option.some_bind]
    rw [hl]
    simp only [Option.some_bind]
    exact hl2
  · refine hfa.imp ?_
    intro vw p hp
    cases hget : g.values[vw.vertex]? with
    | none => rw [hget] at hp; simp at hp
    | some x =>
      rw [hget] at hp
      simp only [Option.bind_eq_bind, Option.some_bind] at hp
      cases hp
      exact ⟨by simp [hget], rfl⟩

/-- Value-level edges of a present value, at the index level. -/
theorem valEdge_iff {α : Type} [DecidableEq α] (g : Graph α) (hwf : g.WF) (x : α) (k : ℕ)
    (hk : g.getIndex x = some k) (w : α) :
    (∃ c, (w, c) ∈ g.gNbrList x) ↔
      ∃ k2, EdgeIdx g.rep k k2 ∧ g.values[k2]? = some w := by
  obtain ⟨l, l2, hl, hl2, hfa⟩ := facadeNbrs g hwf x k hk
  have hgn : g.gNbrList x = l2 := by
    unfold Graph.gNbrList
    rw [hl2]
    rfl
  constructor
  · rintro ⟨c, hc⟩
    rw [hgn] at hc
    obtain ⟨vw, hvw, hv1, hv2⟩ := forallTwoMemRight hfa (w, c) hc
    exact ⟨vw.vertex, ⟨l, hl, vw, hvw, rfl⟩, hv1⟩
  · rintro ⟨k2, ⟨l3, hl3, vw, hvw, hveq⟩, hw⟩
    rw [hl] at hl3
    cases hl3
    obtain ⟨p, hp, hp1, hp2⟩ := forallTwoMemLeft hfa vw hvw
    rw [hveq, hw] at hp1
    have : p.1 = w := (Option.some.inj hp1).symm
    refine ⟨p.2, ?_⟩
    rw [hgn]
    have : p = (w, p.2) := by
      cases p
      simp at this ⊢
      exact this
    rw [← this]
    exact hp

/-- Value-level reachability coincides with index-level reachability from the
value's index. -/
theorem valReach_iff_idx {α : Type} [DecidableEq α] (g : Graph α) (hwf : g.WF)
    (v : α) (i : ℕ) (hv : g.getIndex v = some i) (u : α) :
    ValReach g v u ↔ ∃ k, IdxReach g.rep i k ∧ g.values[k]? = some u := by
  have W := nbrsBound_of_wf g.rep hwf.2.1
  rw [hwf.2.2] at W
  obtain ⟨hin, hival⟩ := getIndex_spec g v i hv
  constructor
  · intro h
    induction h with
    | refl => exact ⟨i, .refl, hival⟩
    | tail hu he ihu =>
      rename_i x w
      obtain ⟨k, hreach, hku⟩ := ihu
      have hgx : g.getIndex x = some k := getIndex_of_getElem g hwf.1 x k hku
      obtain ⟨k2, hedge, hk2⟩ := (valEdge_iff g hwf x k hgx w).mp he
      exact ⟨k2, .tail hreach hedge, hk2⟩
  · rintro ⟨k, hreach, hku⟩
    induction hreach generalizing u with
    | refl =>
      rw [hival] at hku
      rw [Option.some.inj hku]
      exact .refl
    | tail hr hedge ihr =>
      rename_i k1 k2
      have hk1n : k1 < g.values.length := idxReach_lt W hin hr
      have hk1v : g.values[k1]? = some g.values[k1] := List.getElem?_eq_getElem hk1n
      have hvr : ValReach g v g.values[k1] := ihr g.values[k1] hk1v
      have hgx : g.getIndex g.values[k1] = some k1 :=
        getIndex_of_getElem g hwf.1 _ k1 hk1v
      have hedge2 : ∃ c, (u, c) ∈ g.gNbrList g.values[k1] :=
        (valEdge_iff g hwf _ k1 hgx u).mpr ⟨k2, hedge, hku⟩
      exact .tail hvr hedge2

theorem mapValuesNodup {α : Type} (vals : List α) (hvals : vals.Nodup) :
    ∀ {idxs : List ℕ} {out : List α},
      List.Forall₂ (fun k u => vals[k]? = some u) idxs out → idxs.Nodup → out.Nodup := by
  intro idxs out h
  induction h with
  | nil => intro _; exact List.nodup_nil
  | cons hR hrest ih =>
    intro hnd
    obtain ⟨hknot, hnd2⟩ := List.nodup_cons.mp hnd
    refine List.nodup_cons.mpr ⟨?_, ih hnd2⟩
    intro hu
    obtain ⟨k2, hk2, hk2u⟩ := forallTwoMemRight hrest _ hu
    exact hknot (by rw [nodupGetElemInj vals hvals hR hk2u]; exact hk2)

theorem mapValuesMem {α : Type} (vals : List α) {idxs : List ℕ} {out : List α}
    (h : List.Forall₂ (fun k u => vals[k]? = some u) idxs out) (u : α) :
    u ∈ out ↔ ∃ k ∈ idxs, vals[k]? = some u := by
  constructor
  · intro hu
    exact forallTwoMemRight h u hu
  · rintro ⟨k, hk, hku⟩
    obtain ⟨y, hy, hyu⟩ := forallTwoMemLeft h k hk
    rw [hku] at hyu
    rw [Option.some.inj hyu]
    exact hy

/-- Claim C8: on any well-formed graph (any backend, directed or not, cycles
allowed) and any present start value, `traverse_BFS` and `traverse_DFS` both
succeed and yield exactly the values reachable from the start, each exactly
once. -/
theorem C8_traversals_reach_exactly {α : Type} [DecidableEq α] (g : Graph α) (v : α)
    (hwf : g.WF) (hv : v ∈ g.values) :
    (∃ out, g.traverseBFS v = some out ∧ out.Nodup ∧
      ∀ u, u ∈ out ↔ ValReach g v u) ∧
    (∃ out, g.traverseDFS v = some out ∧ out.Nodup ∧
      ∀ u, u ∈ out ↔ ValReach g v u) := by
  obtain ⟨i, hi⟩ := getIndex_mem g v hv
  obtain ⟨hin, hival⟩ := getIndex_spec g v i hi
  have W := nbrsBound_of_wf g.rep hwf.2.1
  rw [hwf.2.2] at W
  have finish : ∀ idxs : List ℕ, idxs.Nodup → (∀ k, k ∈ idxs ↔ IdxReach g.rep i k) →
      ∃ out, idxs.mapM (fun j => g.values[j]?) = some out ∧ out.Nodup ∧
        ∀ u, u ∈ out ↔ ValReach g v u := by
    intro idxs hnd hmem
    have hbnd : ∀ k ∈ idxs, k < g.values.length := fun k hk =>
      idxReach_lt W hin ((hmem k).mp hk)
    obtain ⟨out, hout, hfa⟩ := listMapMSome (fun j => g.values[j]?) idxs
      (fun k hk => ⟨_, List.getElem?_eq_getElem (hbnd k hk)⟩)
    refine ⟨out, hout, mapValuesNodup g.values hwf.1 hfa hnd, ?_⟩
    intro u
    rw [mapValuesMem g.values hfa u, valReach_iff_idx g hwf v i hi u]
    constructor
    · rintro ⟨k, hk, hku⟩
      exact ⟨k, (hmem k).mp hk, hku⟩
    · rintro ⟨k, hk, hku⟩
      exact ⟨k, (hmem k).mpr hk, hku⟩
  constructor
  · -- BFS
    have hivlen : i < (List.replicate g.values.length false).length := by simpa using hin
    have hvis0 : ∀ x, Vis ((List.replicate g.values.length false).set i true) x ↔ x = i := by
      intro x
      rw [visSetTrue _ i hivlen x]
      simp [visReplicate]
    have hlen0 : ((List.replicate g.values.length false).set i true).length =
        g.values.length := by simp
    have huv : unvis ((List.replicate g.values.length false).set i true) ≤
        g.values.length := by
      unfold unvis
      calc _ ≤ (Finset.range ((List.replicate g.values.length false).set i
            true).length).card := Finset.card_filter_le _ _
        _ = g.values.length := by rw [Finset.card_range, hlen0]
    obtain ⟨idxs, hrun, hnd, hmem⟩ := bfsAuxSpec g.rep g.values.length W
      (2 * g.values.length + 2) [i] _ hlen0
      (fun j hj => by
        rw [List.mem_singleton] at hj
        subst hj
        exact ⟨hin, (hvis0 j).mpr rfl⟩)
      (List.nodup_singleton i) (by simp only [List.length_singleton]; omega)
    have hmem2 : ∀ k, k ∈ idxs ↔ IdxReach g.rep i k := by
      intro k
      rw [hmem k]
      constructor
      · rintro ⟨j, hj, hra⟩
        rw [List.mem_singleton] at hj
        subst hj
        exact reachAvoid_idxReach hra
      · intro hr
        exact ⟨i, by simp, idxReach_reachAvoid_single (fun x hx => (hvis0 x).mp hx) hr⟩
    obtain ⟨out, hout, houtnd, houtmem⟩ := finish idxs hnd hmem2
    refine ⟨out, ?_, houtnd, houtmem⟩
    unfold Graph.traverseBFS
    rw [hi]
    simp only [Option.bind_eq_bind, Option.some_bind]
    rw [hrun]
    simp only [Option.some_bind]
    exact hout
  · -- DFS
    have hvis0 : ∀ x, ¬ Vis (List.replicate g.values.length false) x := fun x =>
      visReplicate g.values.length x
    have hlen0 : (List.replicate g.values.length false).length = g.values.length := by
      simp
    have huv : unvis (List.replicate g.values.length false) ≤ g.values.length := by
      unfold unvis
      calc _ ≤ (Finset.range (List.replicate g.values.length false).length).card :=
            Finset.card_filter_le _ _
        _ = g.values.length := by rw [Finset.card_range, hlen0]
    obtain ⟨vis2, idxs, hrun, -, hnd, -, -, hmem⟩ := dfsAuxSpec g.rep g.values.length W
      (g.values.length + 1) (List.replicate g.values.length false) i hlen0 hin
      (by omega)
    have hmem2 : ∀ k, k ∈ idxs ↔ IdxReach g.rep i k := by
      intro k
      rw [hmem k]
      constructor
      · rintro ⟨-, hra⟩
        exact reachAvoid_idxReach hra
      · intro hr
        exact ⟨hvis0 i, idxReach_reachAvoid_empty hvis0 hr⟩
    obtain ⟨out, hout, houtnd, houtmem⟩ := finish idxs hnd hmem2
    refine ⟨out, ?_, houtnd, houtmem⟩
    unfold Graph.traverseDFS
    rw [hi]
    simp only [Option.bind_eq_bind, Option.some_bind]
    rw [hrun]
    simp only [Option.some_bind]
    exact hout

/-- Claim C8 instantiated on a concrete directed cyclic graph (values
1,2,3,4 with edges 1 → 2 → 3 → 1 and 4 isolated). -/
theorem C8_traversals_witness :
    (∃ out, (Graph.mk [1, 2, 3, 4] true
        (.adjacencyList [[⟨1, 1⟩], [⟨2, 1⟩], [⟨0, 1⟩], []]) : Graph ℕ).traverseBFS 1 =
          some out ∧ out.Nodup ∧
        ∀ u, u ∈ out ↔ ValReach (Graph.mk [1, 2, 3, 4] true
          (.adjacencyList [[⟨1, 1⟩], [⟨2, 1⟩], [⟨0, 1⟩], []])) 1 u) ∧
    (∃ out, (Graph.mk [1, 2, 3, 4] true
        (.adjacencyList [[⟨1, 1⟩], [⟨2, 1⟩], [⟨0, 1⟩], []]) : Graph ℕ).traverseDFS 1 =
          some out ∧ out.Nodup ∧
        ∀ u, u ∈ out ↔ ValReach (Graph.mk [1, 2, 3, 4] true
          (.adjacencyList [[⟨1, 1⟩], [⟨2, 1⟩], [⟨0, 1⟩], []])) 1 u) :=
  C8_traversals_reach_exactly
    (Graph.mk [1, 2, 3, 4] true (.adjacencyList [[⟨1, 1⟩], [⟨2, 1⟩], [⟨0, 1⟩], []]))
    1 (by decide) (by decide)

/-! #### Queue-pop lemmas -/

theorem queueMinFoldMem {α : Type} [LinearOrder α] :
    ∀ (rest : List (WithTop ℚ × α)) (e : WithTop ℚ × α),
      rest.foldl (fun m x => if x.1 < m.1 ∨ (x.1 = m.1 ∧ x.2 < m.2) then x else m) e ∈
        e :: rest := by
  intro rest
  induction rest with
  | nil => intro e; simp
  | cons a r ih =>
    intro e
    rw [List.foldl_cons]
    rcases List.mem_cons.mp (ih (if a.1 < e.1 ∨ (a.1 = e.1 ∧ a.2 < e.2) then a else e))
      with h | h
    · rw [h]
      split
      · simp
      · simp
    · simp [h]

theorem queueMin_mem {α : Type} [LinearOrder α] {q : List (WithTop ℚ × α)}
    {m : WithTop ℚ × α} (h : queueMin q = some m) : m ∈ q := by
  cases q with
  | nil => cases h
  | cons e rest =>
    have h2 : rest.foldl
        (fun m x => if x.1 < m.1 ∨ (x.1 = m.1 ∧ x.2 < m.2) then x else m) e = m :=
      Option.some.inj h
    exact h2 ▸ queueMinFoldMem rest e

theorem popMin_spec {α : Type} [DecidableEq α] [LinearOrder α]
    {q q2 : List (WithTop ℚ × α)} {m : WithTop ℚ × α}
    (h : popMin q = some (m, q2)) : m ∈ q ∧ q2 = q.erase m := by
  unfold popMin at h
  cases hq : queueMin q with
  | none => rw [hq] at h; cases h
  | some m2 =>
    rw [hq] at h
    have h3 : (m2, q.erase m2) = (m, q2) := Option.some.inj h
    have h4 : m2 = m := congrArg Prod.fst h3
    subst h4
    exact ⟨queueMin_mem hq, (congrArg Prod.snd h3).symm⟩

/-! #### Sum and filter lemmas for the termination measure -/

theorem listSumLe {β : Type} (f f2 : β → ℕ) :
    ∀ l : List β, (∀ x ∈ l, f2 x ≤ f x) → (l.map f2).sum ≤ (l.map f).sum := by
  intro l
  induction l with
  | nil => intro _; simp
  | cons a r ih =>
    intro h
    simp only [List.map_cons, List.sum_cons]
    exact Nat.add_le_add (h a (by simp)) (ih fun x hx => h x (by simp [hx]))

theorem listSumLt {β : Type} (f f2 : β → ℕ) :
    ∀ l : List β, (∀ x ∈ l, f2 x ≤ f x) → ∀ x0 ∈ l, f2 x0 < f x0 →
      (l.map f2).sum < (l.map f).sum := by
  intro l
  induction l with
  | nil =>
    intro _ x0 h0
    cases h0
  | cons a r ih =>
    intro h x0 hx0 hlt
    simp only [List.map_cons, List.sum_cons]
    rcases List.mem_cons.mp hx0 with rfl | hx0r
    · exact Nat.add_lt_add_of_lt_of_le hlt (listSumLe f f2 r fun x hx => h x (by simp [hx]))
    · exact Nat.add_lt_add_of_le_of_lt (h a (by simp))
        (ih (fun x hx => h x (by simp [hx])) x0 hx0r hlt)

theorem filterLtLength {l : List ℚ} {a : ℚ} (ha : a ∈ l) {dOld : WithTop ℚ}
    (hlt : ((a : ℚ) : WithTop ℚ) < dOld) :
    (l.filter fun c => ((c : ℚ) : WithTop ℚ) < ((a : ℚ) : WithTop ℚ)).length <
      (l.filter fun c => ((c : ℚ) : WithTop ℚ) < dOld).length := by
  have hsub : (l.filter fun c => ((c : ℚ) : WithTop ℚ) < ((a : ℚ) : WithTop ℚ)).Sublist
      (l.filter fun c => ((c : ℚ) : WithTop ℚ) < dOld) := by
    refine List.monotone_filter_right l ?_
    intro c hc
    simp only [decide_eq_true_eq] at hc ⊢
    exact lt_trans hc hlt
  rcases lt_or_eq_of_le hsub.length_le with h | h
  · exact h
  · exfalso
    have heq := hsub.eq_of_length h
    have hmem : a ∈ l.filter fun c => ((c : ℚ) : WithTop ℚ) < dOld :=
      List.mem_filter.mpr ⟨ha, decide_eq_true hlt⟩
    rw [← heq] at hmem
    have h2 := (List.mem_filter.mp hmem).2
    simp at h2

/-! #### Path-cost lemmas -/

theorem chainRelAt {β : Type} {R : β → β → Prop} :
    ∀ (p : List β), p.Chain' R → ∀ k, (h1 : k < p.length) → (h2 : k + 1 < p.length) →
      R p[k] p[k+1] := by
  intro p
  induction p with
  | nil =>
    intro _ k h1 _
    simp at h1
  | cons a q ih =>
    intro h k h1 h2
    cases q with
    | nil =>
      simp only [List.length_cons, List.length_nil] at h2
      omega
    | cons b r =>
      obtain ⟨hab, hrest⟩ := List.chain'_cons.mp h
      cases k with
      | zero => exact hab
      | succ k =>
        have h1q : k < (b :: r).length := by
          simp only [List.length_cons] at h1 ⊢
          omega
        have h2q : k + 1 < (b :: r).length := by
          simp only [List.length_cons] at h2 ⊢
          omega
        exact ih hrest k h1q h2q

theorem takeGetLast {β : Type} :
    ∀ (p : List β) (k : ℕ) (h : k < p.length), (p.take (k + 1)).getLast? = some p[k] := by
  intro p
  induction p with
  | nil =>
    intro k h
    simp at h
  | cons a q ih =>
    intro k h
    cases k with
    | zero => rfl
    | succ k =>
      cases q with
      | nil =>
        simp only [List.length_cons, List.length_nil] at h
        omega
      | cons b r =>
        have hq : k < (b :: r).length := by
          simp only [List.length_cons] at h ⊢
          omega
        have hih := ih k hq
        rw [show (a :: b :: r).take (k + 2) = a :: b :: (r.take k) from rfl,
          List.getLast?_cons_cons,
          show (b :: r.take k) = (b :: r).take (k + 1) from rfl, hih]
        rfl

theorem pathCost_append {α : Type} [DecidableEq α] (g : Graph α) (w : α) :
    ∀ (p : List α) (x : α), p.getLast? = some x →
      g.pathCost (p ++ [w]) = g.pathCost p + g.wgtVal x w := by
  intro p
  induction p with
  | nil =>
    intro x h
    cases h
  | cons a q ih =>
    intro x h
    cases q with
    | nil =>
      have hx : a = x := by simpa using h
      subst hx
      rw [show g.pathCost ([a] ++ [w]) = g.wgtVal a w + g.pathCost [w] from rfl,
        show g.pathCost [w] = 0 from rfl, show g.pathCost [a] = 0 from rfl]
      ring
    | cons b r =>
      rw [List.getLast?_cons_cons] at h
      rw [show g.pathCost ((a :: b :: r) ++ [w]) =
          g.wgtVal a b + g.pathCost ((b :: r) ++ [w]) from rfl,
        show g.pathCost (a :: b :: r) = g.wgtVal a b + g.pathCost (b :: r) from rfl,
        ih x h]
      ring

theorem takeCostSucc {α : Type} [DecidableEq α] (g : Graph α) (p : List α) (k : ℕ)
    (h1 : k < p.length) (h2 : k + 1 < p.length) :
    g.pathCost (p.take (k + 2)) = g.pathCost (p.take (k + 1)) + g.wgtVal p[k] p[k+1] := by
  have ht : p.take (k + 2) = p.take (k + 1) ++ [p[k+1]] := by
    rw [List.take_succ, List.getElem?_eq_getElem h2]
    rfl
  rw [ht, pathCost_append g _ (p.take (k + 1)) p[k] (takeGetLast p k h1)]

theorem takeCostMono {α : Type} [DecidableEq α] (g : Graph α) (p : List α)
    (hpos : ∀ k, (h1 : k < p.length) → (h2 : k + 1 < p.length) → 0 ≤ g.wgtVal p[k] p[k+1]) :
    ∀ j k, j ≤ k → k < p.length →
      g.pathCost (p.take (j + 1)) ≤ g.pathCost (p.take (k + 1)) := by
  intro j k
  induction k with
  | zero =>
    intro hjk _
    have hj : j = 0 := Nat.le_zero.mp hjk
    rw [hj]
  | succ k ih =>
    intro hjk hk
    rcases Nat.lt_or_ge j (k + 1) with hcase | hcase
    · have hk2 : k < p.length := by omega
      have hstep := takeCostSucc g p k hk2 hk
      calc g.pathCost (p.take (j + 1)) ≤ g.pathCost (p.take (k + 1)) := ih (by omega) hk2
        _ ≤ g.pathCost (p.take (k + 2)) := by
            rw [hstep]
            have := hpos k hk2 hk
            linarith
    · have hj : j = k + 1 := le_antisymm hjk hcase
      rw [hj]

/-! #### Neighbor quality: positive weights and distinct targets -/

theorem filterMapIfSub {β γ : Type} (c : β → Prop) [DecidablePred c] (f : β → γ) :
    ∀ l : List β,
      (l.filterMap fun x => if c x then some (f x) else none).Sublist (l.map f) := by
  intro l
  induction l with
  | nil => simp
  | cons a r ih =>
    rw [List.filterMap_cons, List.map_cons]
    by_cases h : c a
    · rw [if_pos h]
      exact ih.cons₂ (f a)
    · rw [if_neg h]
      exact ih.cons (f a)

theorem forallTwoNodupMap {β γ δ : Type} (fb : β → δ) (fc : γ → δ) :
    ∀ {l : List β} {l2 : List γ}, List.Forall₂ (fun x y => fc y = fb x) l l2 →
      (l.map fb).Nodup → (l2.map fc).Nodup := by
  intro l l2 h
  induction h with
  | nil =>
    intro _
    simp
  | cons hR hrest ih =>
    intro hnd
    rw [List.map_cons] at hnd ⊢
    obtain ⟨hhead, htail⟩ := List.nodup_cons.mp hnd
    refine List.nodup_cons.mpr ⟨?_, ih htail⟩
    intro hy
    rw [List.mem_map] at hy
    obtain ⟨y2, hy2, hy2e⟩ := hy
    obtain ⟨x2, hx2, hx2e⟩ := forallTwoMemRight hrest y2 hy2
    exact hhead (List.mem_map.mpr ⟨x2, hx2, by rw [← hx2e, hy2e, hR]⟩)

theorem mapFstNodupTransfer {α : Type} [DecidableEq α] (g : Graph α)
    (hvals : g.values.Nodup) {l : List VertexAndWeight} {l2 : List (α × ℚ)}
    (hfa : List.Forall₂ (fun vw (p : α × ℚ) =>
      g.values[vw.vertex]? = some p.1 ∧ vw.weight = p.2) l l2)
    (hnd : (l.map VertexAndWeight.vertex).Nodup) : (l2.map Prod.fst).Nodup := by
  have hfa2 : List.Forall₂ (fun vw (p : α × ℚ) =>
      (fun q : α × ℚ => some q.1) p =
        (fun vw : VertexAndWeight => g.values[vw.vertex]?) vw) l l2 :=
    hfa.imp fun _ _ hp => hp.1.symm
  have hvl : (l.map fun vw : VertexAndWeight => g.values[vw.vertex]?).Nodup := by
    rw [show (fun vw : VertexAndWeight => g.values[vw.vertex]?) =
        (fun k => g.values[k]?) ∘ VertexAndWeight.vertex from rfl, ← List.map_map]
    refine List.Nodup.map_on ?_ hnd
    intro x hx y hy hxy
    obtain ⟨vwx, hvwx, hvex⟩ := List.mem_map.mp hx
    obtain ⟨px, hpx, hpex⟩ := forallTwoMemLeft hfa vwx hvwx
    rw [hvex] at hpex
    have h2 : g.values[y]? = some px.1 := by rw [← hxy]; exact hpex.1
    exact nodupGetElemInj g.values hvals hpex.1 h2
  have hl2 : (l2.map fun q : α × ℚ => some q.1).Nodup := forallTwoNodupMap _ _ hfa2 hvl
  rw [show (fun q : α × ℚ => some q.1) = some ∘ Prod.fst from rfl, ← List.map_map] at hl2
  exact List.Nodup.of_map some hl2

/-- Well-formedness gives, on every backend, neighbor rows with positive

weights and pairwise-distinct target indices. -/
theorem nbrsQuality (r : Rep) (h : r.WF) :
    ∀ i, i < r.nVertices → ∀ l, r.iterateNeighbors i = some l →
      (∀ vw ∈ l, 0 < vw.weight) ∧ (l.map VertexAndWeight.vertex).Nodup := by
  cases r with
  | adjacencyList al =>
    intro i hi l hl
    have h2 : Rep.iterateNeighbors (.adjacencyList al) i = some al[i] := by
      simp [Rep.iterateNeighbors, AdjacencyList.iterateNeighbors,
        List.getElem?_eq_getElem hi]
    rw [h2] at hl
    cases Option.some.inj hl
    obtain ⟨hw, hnd⟩ := h al[i] (al.getElem_mem hi)
    exact ⟨fun vw hvw => (hw vw hvw).2, hnd⟩
  | adjacencyMatrix am =>
    intro i hi l hl
    have h2 : Rep.iterateNeighbors (.adjacencyMatrix am) i =
        some (am[i].enum.filterMap fun p =>
          if 0 < p.2 then some ⟨p.1, p.2⟩ else none) := by
      simp [Rep.iterateNeighbors, AdjacencyMatrix.iterateNeighbors,
        List.getElem?_eq_getElem hi]
    rw [h2] at hl
    cases Option.some.inj hl
    constructor
    · intro vw hvw
      rw [List.mem_filterMap] at hvw
      obtain ⟨p, hp, hpe⟩ := hvw
      by_cases hw : 0 < p.2
      · rw [if_pos hw] at hpe
        cases hpe
        exact hw
      · rw [if_neg hw] at hpe
        cases hpe
    · have hmap : (am[i].enum.filterMap fun p =>
          if 0 < p.2 then some (⟨p.1, p.2⟩ : VertexAndWeight) else none).map
            VertexAndWeight.vertex =
          am[i].enum.filterMap fun p => if 0 < p.2 then some p.1 else none := by
        rw [List.map_filterMap]
        congr 1
        funext p
        by_cases hw : 0 < p.2
        · rw [if_pos hw, if_pos hw]
          rfl
        · rw [if_neg hw, if_neg hw]
          rfl
      rw [hmap]
      refine List.Nodup.sublist (filterMapIfSub (fun p : ℕ × ℚ => 0 < p.2) Prod.fst _) ?_
      rw [List.enum_map_fst]
      exact List.nodup_range _
  | pointersAndObjects po =>
    intro i hi l hl
    obtain ⟨hndl, hwf⟩ := h
    obtain ⟨hoid, hidx, hnb, hnbnd⟩ := hwf i hi
    rw [listGetDEq po.live i 0 hi] at hoid hidx hnb hnbnd
    rw [listGetDEq po.objs po.live[i] ⟨0, []⟩ hoid] at hidx hnb hnbnd
    have hli : po.live[i]? = some po.live[i] := List.getElem?_eq_getElem hi
    have hobj : po.objs[po.live[i]]? = some po.objs[po.live[i]] :=
      List.getElem?_eq_getElem hoid
    have heq : Rep.iterateNeighbors (.pointersAndObjects po) i =
        po.objs[po.live[i]].neighbors.mapM (fun p => do
          let nv ← po.objs[p.1]?
          pure (⟨nv.index, p.2⟩ : VertexAndWeight)) := by
      rw [show Rep.iterateNeighbors (.pointersAndObjects po) i =
          PointersAndObjects.iterateNeighbors po i from rfl]
      unfold PointersAndObjects.iterateNeighbors
      rw [hli]
      simp only [Option.bind_eq_bind, Option.some_bind]
      rw [hobj]
      simp only [Option.some_bind]
    rw [heq] at hl
    have hfa := listMapMForall _ po.objs[po.live[i]].neighbors l hl
    constructor
    · intro vw hvw
      obtain ⟨p, hp, hpe⟩ := forallTwoMemRight hfa vw hvw
      obtain ⟨hmem, hwpos⟩ := hnb p hp
      obtain ⟨j, hjl, hjv⟩ := List.mem_iff_getElem.mp hmem
      obtain ⟨hoid2, -, -, -⟩ := hwf j hjl
      rw [listGetDEq po.live j 0 hjl, hjv] at hoid2
      rw [List.getElem?_eq_getElem hoid2] at hpe
      simp only [Option.bind_eq_bind, Option.some_bind] at hpe
      cases Option.some.inj hpe
      exact hwpos
    · have hinj : ∀ a ∈ po.live, ∀ b ∈ po.live,
          (po.objs[a]?.getD ⟨0, []⟩).index = (po.objs[b]?.getD ⟨0, []⟩).index → a = b := by
        intro a ha b hb hab
        obtain ⟨ja, hja, hjav⟩ := List.mem_iff_getElem.mp ha
        obtain ⟨jb, hjb, hjbv⟩ := List.mem_iff_getElem.mp hb
        obtain ⟨hoa, hia, -, -⟩ := hwf ja hja
        obtain ⟨hob, hib, -, -⟩ := hwf jb hjb
        rw [listGetDEq po.live ja 0 hja, hjav] at hoa hia
        rw [listGetDEq po.live jb 0 hjb, hjbv] at hob hib
        rw [listGetDEq po.objs a ⟨0, []⟩ hoa] at hia
        rw [listGetDEq po.objs b ⟨0, []⟩ hob] at hib
        rw [List.getElem?_eq_getElem hoa, List.getElem?_eq_getElem hob] at hab
        simp only [Option.getD_some] at hab
        rw [hia, hib] at hab
        subst hab
        rw [← hjav, ← hjbv]
      have hfa2 : List.Forall₂ (fun (p : ℕ × ℚ) (vw : VertexAndWeight) =>
          (fun vw : VertexAndWeight => vw.vertex) vw =
            (fun p : ℕ × ℚ => (po.objs[p.1]?.getD ⟨0, []⟩).index) p)
          po.objs[po.live[i]].neighbors l := by
        refine hfa.imp ?_
        intro p vw hp
        cases hq : po.objs[p.1]? with
        | none =>
          rw [hq] at hp
          simp at hp
        | some nv =>
          rw [hq] at hp
          simp only [Option.bind_eq_bind, Option.some_bind] at hp
          cases Option.some.inj hp
          show (⟨nv.index, p.2⟩ : VertexAndWeight).vertex =
            (po.objs[p.1]?.getD ⟨0, []⟩).index
          rw [hq]
          rfl
      have hndb : (po.objs[po.live[i]].neighbors.map
          (fun p : ℕ × ℚ => (po.objs[p.1]?.getD ⟨0, []⟩).index)).Nodup := by
        rw [show (fun p : ℕ × ℚ => (po.objs[p.1]?.getD ⟨0, []⟩).index) =
            (fun a : ℕ => (po.objs[a]?.getD ⟨0, []⟩).index) ∘ Prod.fst from rfl,
          ← List.map_map]
        refine List.Nodup.map_on ?_ hnbnd
        intro x hx y hy hxy
        obtain ⟨px, hpx, hpex⟩ := List.mem_map.mp hx
        obtain ⟨py, hpy, hpey⟩ := List.mem_map.mp hy
        exact hinj x (hpex ▸ (hnb px hpx).1) y (hpey ▸ (hnb py hpy).1) hxy
      exact forallTwoNodupMap _ _ hfa2 hndb

/-- The facade's neighbor list of a present value of a well-formed graph:
neighbors are present values, weights are positive, and targets are
pairwise distinct. -/
theorem facadeNbrsGood {α : Type} [DecidableEq α] (g : Graph α) (hwf : g.WF) (v : α)
    (hv : v ∈ g.values) :
    ∃ l2, g.iterateNeighbors v = some l2 ∧ (∀ e ∈ l2, e.1 ∈ g.values ∧ 0 < e.2) ∧
      (l2.map Prod.fst).Nodup := by
  obtain ⟨k, hk⟩ := getIndex_mem g v hv
  obtain ⟨hkn, -⟩ := getIndex_spec g v k hk
  obtain ⟨l, l2, hl, hl2, hfa⟩ := facadeNbrs g hwf v k hk
  have hq := nbrsQuality g.rep hwf.2.1 k (by rw [hwf.2.2]; exact hkn) l hl
  refine ⟨l2, hl2, ?_, mapFstNodupTransfer g hwf.1 hfa hq.2⟩
  intro e he
  obtain ⟨vw, hvw, hr⟩ := forallTwoMemRight hfa e he
  exact ⟨List.mem_iff_getElem?.mpr ⟨vw.vertex, hr.1⟩, hr.2 ▸ hq.1 vw hvw⟩

/-! #### Weight-lookup lemmas -/

theorem gNbrListEq {α : Type} [DecidableEq α] (g : Graph α) {v : α} {l : List (α × ℚ)}
    (h : g.iterateNeighbors v = some l) : g.gNbrList v = l := by
  unfold Graph.gNbrList
  rw [h]
  rfl

theorem anyEdge_iff {α : Type} [DecidableEq α] (g : Graph α) (a b : α) :
    ((g.gNbrList a).any fun e => e.1 == b) = true ↔ ∃ c, (b, c) ∈ g.gNbrList a := by
  rw [List.any_eq_true]
  constructor
  · rintro ⟨⟨e1, e2⟩, he, hb⟩
    rw [beq_iff_eq] at hb
    subst hb
    exact ⟨e2, he⟩
  · rintro ⟨c, hc⟩
    exact ⟨(b, c), hc, by simp⟩

theorem nodupFstMemEq {β γ : Type} :
    ∀ {l : List (β × γ)}, (l.map Prod.fst).Nodup →
      ∀ {b : β} {c c2 : γ}, (b, c) ∈ l → (b, c2) ∈ l → c = c2 := by
  intro l
  induction l with
  | nil =>
    intro _ b c c2 h
    cases h
  | cons a r ih =>
    intro hnd b c c2 h1 h2
    rw [List.map_cons] at hnd
    obtain ⟨hna, hnr⟩ := List.nodup_cons.mp hnd
    rcases List.mem_cons.mp h1 with rfl | h1r
    · rcases List.mem_cons.mp h2 with h2a | h2r
      · exact (congrArg Prod.snd h2a).symm
      · exact absurd (List.mem_map_of_mem Prod.fst h2r) hna
    · rcases List.mem_cons.mp h2 with h2a | h2r
      · exfalso
        have hb : b = a.1 := congrArg Prod.fst h2a
        rw [← hb] at hna
        exact hna (List.mem_map_of_mem Prod.fst h1r)
      · exact ih hnr h1r h2r

theorem wgtVal_eq {α : Type} [DecidableEq α] (g : Graph α) {a : α} {l : List (α × ℚ)}
    (hl : g.gNbrList a = l) (hnd : (l.map Prod.fst).Nodup) {b : α} {c : ℚ}
    (hmem : (b, c) ∈ l) : g.wgtVal a b = c := by
  unfold Graph.wgtVal
  rw [hl]
  cases hf : l.find? (fun e => e.1 == b) with
  | none =>
    rw [List.find?_eq_none] at hf
    exact absurd (by simp : (((b, c) : α × ℚ).1 == b) = true) (hf _ hmem)
  | some e =>
    have hp := List.find?_some hf
    have hm := List.mem_of_find?_eq_some hf
    obtain ⟨e1, e2⟩ := e
    rw [beq_iff_eq] at hp
    subst hp
    show e2 = c
    exact nodupFstMemEq hnd hm hmem

theorem wgtVal_posOf {α : Type} [DecidableEq α] (g : Graph α) {a : α} {l : List (α × ℚ)}
    (hl : g.gNbrList a = l) (hpos : ∀ e ∈ l, 0 < e.2) {b : α}
    (he : ((g.gNbrList a).any fun e => e.1 == b) = true) : 0 < g.wgtVal a b := by
  obtain ⟨c, hc⟩ := (anyEdge_iff g a b).mp he
  rw [hl] at hc
  unfold Graph.wgtVal
  rw [hl]
  cases hf : l.find? (fun e => e.1 == b) with
  | none =>
    rw [List.find?_eq_none] at hf
    exact absurd (by simp : (((b, c) : α × ℚ).1 == b) = true) (hf _ hc)
  | some e =>
    have hm := List.mem_of_find?_eq_some hf
    exact hpos e hm

theorem pathEdgesPos {α : Type} [DecidableEq α] (g : Graph α) (hwf : g.WF)
    {s v : α} {p : List α} (hp : g.IsPathFrom s v p) (hpres : ∀ x ∈ p, x ∈ g.values) :
    ∀ k, (h1 : k < p.length) → (h2 : k + 1 < p.length) → 0 < g.wgtVal p[k] p[k+1] := by
  intro k h1 h2
  have hedge := chainRelAt p hp.2.2 k h1 h2
  obtain ⟨l2, hl2, hgood, -⟩ := facadeNbrsGood g hwf p[k] (hpres _ (p.getElem_mem h1))
  exact wgtVal_posOf g (gNbrListEq g hl2) (fun e he => (hgood e he).2) hedge

/-! #### Completeness of the simple-path enumeration -/

theorem pathsAuxComplete {α : Type} [DecidableEq α] (nbr : α → List α) :
    ∀ (fuel : ℕ) (p : List α) (u t : α) (avoid : List α),
      p.head? = some u → p.getLast? = some t →
      p.Chain' (fun a b => b ∈ nbr a) → p.Nodup →
      (∀ x ∈ p, x ∉ avoid) → p.length ≤ fuel →
      p ∈ Graph.pathsAux nbr fuel u t avoid := by
  intro fuel
  induction fuel with
  | zero =>
    intro p u t avoid hh _ _ _ _ hlen
    cases p with
    | nil => cases hh
    | cons a q => simp at hlen
  | succ f ih =>
    intro p u t avoid hh hl hc hnd hav hlen
    cases p with
    | nil => cases hh
    | cons a q =>
      have ha : a = u := Option.some.inj hh
      subst ha
      cases q with
      | nil =>
        have ht : a = t := Option.some.inj hl
        subst ht
        simp [Graph.pathsAux]
      | cons b r =>
        have hat : a ≠ t := by
          intro he
          rw [List.getLast?_cons_cons] at hl
          have hmem := List.mem_of_getLast?_eq_some hl
          rw [← he] at hmem
          exact (List.nodup_cons.mp hnd).1 hmem
        rw [show Graph.pathsAux nbr (f + 1) a t avoid =
            (if a = t then [[a]] else
              ((nbr a).filter fun w => decide (w ∉ avoid)).flatMap
                fun w => (Graph.pathsAux nbr f w t (a :: avoid)).map fun p => a :: p) from rfl,
          if_neg hat, List.mem_flatMap]
        refine ⟨b, ?_, ?_⟩
        · rw [List.mem_filter]
          obtain ⟨hab, -⟩ := List.chain'_cons.mp hc
          refine ⟨hab, ?_⟩
          simp only [decide_eq_true_eq]
          exact hav b (by simp)
        · rw [List.mem_map]
          refine ⟨b :: r, ?_, rfl⟩
          refine ih (b :: r) b t (a :: avoid) rfl ?_ ?_ ?_ ?_ ?_
          · rw [List.getLast?_cons_cons] at hl
            exact hl
          · exact (List.chain'_cons.mp hc).2
          · exact (List.nodup_cons.mp hnd).2
          · intro x hx
            rw [List.mem_cons]
            rintro (rfl | hxa)
            · exact (List.nodup_cons.mp hnd).1 hx
            · exact hav x (by simp [hx]) hxa
          · simp only [List.length_cons] at hlen ⊢
            omega

theorem simplePathsComplete {α : Type} [DecidableEq α] (g : Graph α) {s v : α}
    {p : List α} (hp : g.IsPathFrom s v p) (hnd : p.Nodup)
    (hpres : ∀ x ∈ p, x ∈ g.values) : p ∈ g.simplePathsFrom s v := by
  unfold Graph.simplePathsFrom
  refine pathsAuxComplete _ (g.values.length + 1) p s v [] hp.1 hp.2.1 ?_ hnd (by simp) ?_
  · refine List.Chain'.imp ?_ hp.2.2
    intro a b hab
    rw [List.any_eq_true] at hab
    obtain ⟨e, he, hbe⟩ := hab
    rw [beq_iff_eq] at hbe
    exact hbe ▸ List.mem_map_of_mem Prod.fst he
  · have := (List.subperm_of_subset hnd fun x hx => hpres x hx).length_le
    omega

theorem isPathFrom_append {α : Type} [DecidableEq α] (g : Graph α) {s u : α}
    {p : List α} (hp : g.IsPathFrom s u p) (w : α)
    (he : ((g.gNbrList u).any fun e => e.1 == w) = true) :
    g.IsPathFrom s w (p ++ [w]) := by
  obtain ⟨hh, hl, hc⟩ := hp
  refine ⟨?_, List.getLast?_concat p, ?_⟩
  · cases p with
    | nil => cases hh
    | cons a q => exact hh
  · rw [List.chain'_append]
    refine ⟨hc, List.chain'_singleton w, ?_⟩
    intro x hx y hy
    rw [hl] at hx
    have hxu : u = x := Option.some.inj (Option.mem_def.mp hx)
    have hyw : w = y := Option.some.inj (Option.mem_def.mp hy)
    rw [← hxu, ← hyw]
    exact he

/-! #### The relaxation step -/

theorem distWitnessMono {α : Type} [DecidableEq α] (g : Graph α)
    {d d2 : α → WithTop ℚ} (hle : ∀ v, d2 v ≤ d v) {p : List α}
    (hw : DistWitness g d p) : DistWitness g d2 p :=
  ⟨hw.1, hw.2.1, fun k h => le_trans (hle _) (hw.2.2 k h)⟩

theorem relaxOne_dist_le {α : Type} [DecidableEq α] (hfn : α → ℚ) (u : α)
    (dsc : WithTop ℚ) (st : AStarState α) (e : α × ℚ) :
    ∀ v, (relaxOne hfn u dsc st e).dist v ≤ st.dist v := by
  have hrel : relaxOne hfn u dsc st e = (if dsc + (e.2 : WithTop ℚ) < st.dist e.1 then
      { queue := ((Function.update st.est e.1
            ((dsc + (e.2 : WithTop ℚ)) + ((hfn e.1 : ℚ) : WithTop ℚ))) e.1, e.1) ::
              st.queue,
        dist := Function.update st.dist e.1 (dsc + (e.2 : WithTop ℚ)),
        est := Function.update st.est e.1
          ((dsc + (e.2 : WithTop ℚ)) + ((hfn e.1 : ℚ) : WithTop ℚ)),
        prev := Function.update st.prev e.1 (some u) }
    else st) := rfl
  intro v
  by_cases himp : dsc + (e.2 : WithTop ℚ) < st.dist e.1
  · have hd : (relaxOne hfn u dsc st e).dist =
        Function.update st.dist e.1 (dsc + (e.2 : WithTop ℚ)) := by
      rw [hrel, if_pos himp]
    rw [hd]
    by_cases hv : v = e.1
    · subst hv
      rw [Function.update_same]
      exact le_of_lt himp
    · rw [Function.update_noteq hv]
  · have hd : (relaxOne hfn u dsc st e).dist = st.dist := by rw [hrel, if_neg himp]
    rw [hd]

theorem relaxOne_spec {α : Type} [DecidableEq α] (g : Graph α) (hwf : g.WF) (s u : α)
    (dsc : WithTop ℚ) (hfn : α → ℚ) (st : AStarState α) (e : α × ℚ)
    (P : List α) (hPp : g.IsPathFrom s u P) (hPw : DistWitness g st.dist P)
    (hPc : dsc = ((g.pathCost P : ℚ) : WithTop ℚ))
    (he1 : e.1 ∈ g.values) (he2 : 0 < e.2)
    (hedge : ((g.gNbrList u).any fun x => x.1 == e.1) = true)
    (hwv : g.wgtVal u e.1 = e.2)
    (hQ : QueueInv g st) (hD : DistInv g s st.dist) :
    QueueInv g (relaxOne hfn u dsc st e) ∧
    DistInv g s (relaxOne hfn u dsc st e).dist ∧
    2 * rankSum g s (relaxOne hfn u dsc st e).dist +
        (relaxOne hfn u dsc st e).queue.length ≤
      2 * rankSum g s st.dist + st.queue.length := by
  have hrel : relaxOne hfn u dsc st e = (if dsc + (e.2 : WithTop ℚ) < st.dist e.1 then
      { queue := ((Function.update st.est e.1
            ((dsc + (e.2 : WithTop ℚ)) + ((hfn e.1 : ℚ) : WithTop ℚ))) e.1, e.1) ::
              st.queue,
        dist := Function.update st.dist e.1 (dsc + (e.2 : WithTop ℚ)),
        est := Function.update st.est e.1
          ((dsc + (e.2 : WithTop ℚ)) + ((hfn e.1 : ℚ) : WithTop ℚ)),
        prev := Function.update st.prev e.1 (some u) }
    else st) := rfl
  by_cases himp : dsc + (e.2 : WithTop ℚ) < st.dist e.1
  case neg =>
    have hid : relaxOne hfn u dsc st e = st := by rw [hrel, if_neg himp]
    rw [hid]
    exact ⟨hQ, hD, le_refl _⟩
  case pos =>
    have hqrel : (relaxOne hfn u dsc st e).queue =
        ((Function.update st.est e.1
          ((dsc + (e.2 : WithTop ℚ)) + ((hfn e.1 : ℚ) : WithTop ℚ))) e.1, e.1) ::
            st.queue := by
      rw [hrel, if_pos himp]
    have hdrel : (relaxOne hfn u dsc st e).dist =
        Function.update st.dist e.1 (dsc + (e.2 : WithTop ℚ)) := by
      rw [hrel, if_pos himp]
    set dsn := dsc + (e.2 : WithTop ℚ) with hdsn
    set d2 := Function.update st.dist e.1 dsn with hd2
    have hu_last : P.getLast? = some u := hPp.2.1
    have hPnd := hPw.1
    have hPpres := hPw.2.1
    have hlenP : 0 < P.length := by
      cases P with
      | nil => cases hPp.1
      | cons a q => simp
    have hnotin : e.1 ∉ P := by
      intro hin
      obtain ⟨j, hj, hjv⟩ := List.mem_iff_getElem.mp hin
      have hjle := hPw.2.2 j hj
      have hmono := takeCostMono g P
        (fun k h1 h2 => le_of_lt (pathEdgesPos g hwf hPp hPpres k h1 h2))
        j (P.length - 1) (by omega) (by omega)
      have hfull : P.take (P.length - 1 + 1) = P := by
        rw [show P.length - 1 + 1 = P.length from by omega]
        exact List.take_length P
      rw [hfull] at hmono
      have hle2 : st.dist e.1 ≤ dsc := by
        rw [hjv] at hjle
        rw [hPc]
        exact le_trans hjle (WithTop.coe_le_coe.mpr hmono)
      have hlt2 : dsc < dsn := by
        rw [hdsn, hPc, show ((g.pathCost P : ℚ) : WithTop ℚ) + (e.2 : WithTop ℚ) =
          ((g.pathCost P + e.2 : ℚ) : WithTop ℚ) from by rw [WithTop.coe_add],
          WithTop.coe_lt_coe]
        linarith
      exact absurd himp (not_lt.mpr (le_of_lt (lt_of_le_of_lt hle2 hlt2)))
    have hP2 : g.IsPathFrom s e.1 (P ++ [e.1]) := isPathFrom_append g hPp e.1 hedge
    have hP2nd : (P ++ [e.1]).Nodup := by
      rw [List.nodup_append]
      refine ⟨hPnd, List.nodup_singleton _, ?_⟩
      intro x hx hx2
      rw [List.mem_singleton] at hx2
      subst hx2
      exact hnotin hx
    have hP2pres : ∀ x ∈ P ++ [e.1], x ∈ g.values := by
      intro x hx
      rcases List.mem_append.mp hx with h | h
      · exact hPpres x h
      · rw [List.mem_singleton] at h
        subst h
        exact he1
    have hP2cost : ((g.pathCost (P ++ [e.1]) : ℚ) : WithTop ℚ) = dsn := by
      rw [pathCost_append g e.1 P u hu_last, hwv, hdsn, hPc, WithTop.coe_add]
    have hle : ∀ v, d2 v ≤ st.dist v := by
      intro v
      by_cases hv : v = e.1
      · subst hv
        rw [hd2, Function.update_same]
        exact le_of_lt himp
      · rw [hd2, Function.update_noteq hv]
    have hd2e : d2 e.1 = dsn := by rw [hd2, Function.update_same]
    have hP2w : DistWitness g d2 (P ++ [e.1]) := by
      refine ⟨hP2nd, hP2pres, ?_⟩
      intro k hk
      have hk1 : k < P.length + 1 := by
        rw [List.length_append, List.length_singleton] at hk
        exact hk
      rcases Nat.lt_or_ge k P.length with hkP | hkP
      · have hget : (P ++ [e.1])[k] = P[k] := List.getElem_append_left hkP
        rw [hget]
        have hne : P[k] ≠ e.1 := fun hh => hnotin (hh ▸ P.getElem_mem hkP)
        rw [hd2, Function.update_noteq hne]
        have htake : (P ++ [e.1]).take (k + 1) = P.take (k + 1) :=
          List.take_append_of_le_length (by omega)
        rw [htake]
        exact hPw.2.2 k hkP
      · have hkeq : k = P.length := by omega
        subst hkeq
        have hget : (P ++ [e.1])[P.length] = e.1 := by
          rw [List.getElem_append_right (le_refl _)]
          simp
        rw [hget, hd2e]
        have htake : (P ++ [e.1]).take (P.length + 1) = P ++ [e.1] := by
          rw [List.take_of_length_le]
          rw [List.length_append, List.length_singleton]
        rw [htake, hP2cost]
    refine ⟨?_, ?_, ?_⟩
    · intro q hq2
      rw [hqrel] at hq2
      rw [hdrel]
      rcases List.mem_cons.mp hq2 with rfl | hq3
      · refine ⟨?_, he1⟩
        show d2 e.1 ≠ ⊤
        rw [hd2e, hdsn, hPc, ← WithTop.coe_add]
        exact WithTop.coe_ne_top
      · have hold := hQ q hq3
        refine ⟨fun htop => hold.1 ?_, hold.2⟩
        have h2 := hle q.2
        rw [htop] at h2
        exact top_le_iff.mp h2
    · rw [hdrel]
      intro v hv
      by_cases hve : v = e.1
      · subst hve
        refine ⟨P ++ [e.1], hP2, hP2w, ?_⟩
        rw [hd2e]
        exact hP2cost.symm
      · rw [hd2, Function.update_noteq hve] at hv ⊢
        obtain ⟨p, hp1, hp2, hp3⟩ := hD v hv
        exact ⟨p, hp1, distWitnessMono g hle hp2, hp3⟩
    · rw [hdrel, hqrel]
      have hmem_costs : g.pathCost (P ++ [e.1]) ∈ (g.pathCosts s e.1).dedup := by
        rw [List.mem_dedup]
        unfold Graph.pathCosts
        exact List.mem_map_of_mem g.pathCost (simplePathsComplete g hP2 hP2nd hP2pres)
      have hranklt : rank g s d2 e.1 < rank g s st.dist e.1 := by
        unfold rank
        rw [hd2e, ← hP2cost]
        refine filterLtLength hmem_costs ?_
        rw [hP2cost]
        exact himp
      have hrankle : ∀ v ∈ g.values, rank g s d2 v ≤ rank g s st.dist v := by
        intro v hv
        by_cases hve : v = e.1
        · subst hve
          exact le_of_lt hranklt
        · unfold rank
          rw [hd2, Function.update_noteq hve]
      have hsum : rankSum g s d2 < rankSum g s st.dist := by
        unfold rankSum
        exact listSumLt _ _ g.values hrankle e.1 he1 hranklt
      rw [List.length_cons]
      omega

theorem relaxFold_spec {α : Type} [DecidableEq α] (g : Graph α) (hwf : g.WF) (s u : α)
    (dsc : WithTop ℚ) (hfn : α → ℚ) :
    ∀ (l : List (α × ℚ)) (st : AStarState α),
      (∀ e ∈ l, e.1 ∈ g.values ∧ 0 < e.2 ∧
        ((g.gNbrList u).any fun x => x.1 == e.1) = true ∧ g.wgtVal u e.1 = e.2) →
      QueueInv g st → DistInv g s st.dist →
      (∃ P, g.IsPathFrom s u P ∧ DistWitness g st.dist P ∧
        dsc = ((g.pathCost P : ℚ) : WithTop ℚ)) →
      QueueInv g (l.foldl (relaxOne hfn u dsc) st) ∧
      DistInv g s (l.foldl (relaxOne hfn u dsc) st).dist ∧
      2 * rankSum g s (l.foldl (relaxOne hfn u dsc) st).dist +
          (l.foldl (relaxOne hfn u dsc) st).queue.length ≤
        2 * rankSum g s st.dist + st.queue.length := by
  intro l
  induction l with
  | nil =>
    intro st _ hQ hD _
    exact ⟨hQ, hD, le_refl _⟩
  | cons e r ih =>
    intro st hent hQ hD hP
    obtain ⟨P, hp1, hp2, hp3⟩ := hP
    obtain ⟨he1, he2, hedge, hwv⟩ := hent e (by simp)
    have hstep := relaxOne_spec g hwf s u dsc hfn st e P hp1 hp2 hp3 he1 he2 hedge hwv hQ hD
    rw [List.foldl_cons]
    have hrec := ih (relaxOne hfn u dsc st e) (fun x hx => hent x (by simp [hx]))
      hstep.1 hstep.2.1
      ⟨P, hp1, distWitnessMono g (relaxOne_dist_le hfn u dsc st e) hp2, hp3⟩
    exact ⟨hrec.1, hrec.2.1, le_trans hrec.2.2 hstep.2.2⟩

/-! #### The search loop on an unreachable target -/

theorem aStarLoopUnreach {α : Type} [DecidableEq α] [LinearOrder α] (g : Graph α)
    (hwf : g.WF) (s t : α) (hfn : α → ℚ)
    (hun : ∀ p, ¬ g.IsPathFrom s t p) :
    ∀ (fuel : ℕ) (st : AStarState α),
      QueueInv g st → DistInv g s st.dist →
      2 * rankSum g s st.dist + st.queue.length < fuel →
      aStarLoop (fun v => g.iterateNeighbors v) hfn t g.values.length fuel st =
        .unreachableTargetError := by
  intro fuel
  induction fuel with
  | zero =>
    intro st _ _ hm
    omega
  | succ f ih =>
    intro st hQ hD hm
    cases hpop : popMin st.queue with
    | none =>
      simp only [aStarLoop, hpop]
    | some pr =>
      obtain ⟨m, q2⟩ := pr
      obtain ⟨mk, mv⟩ := m
      obtain ⟨hmem, herase⟩ := popMin_spec hpop
      have hfin := (hQ (mk, mv) hmem).1
      have hpres := (hQ (mk, mv) hmem).2
      obtain ⟨P, hP, hPw, hPc⟩ := hD mv hfin
      have hvt : mv ≠ t := fun h => hun P (h ▸ hP)
      obtain ⟨l2, hl2, hgood, hnd2⟩ := facadeNbrsGood g hwf mv hpres
      have hgn : g.gNbrList mv = l2 := gNbrListEq g hl2
      have hstep : aStarLoop (fun v => g.iterateNeighbors v) hfn t g.values.length
            (f + 1) st =
          aStarLoop (fun v => g.iterateNeighbors v) hfn t g.values.length f
            (l2.foldl (relaxOne hfn mv (st.dist mv)) { st with queue := q2 }) := by
        simp only [aStarLoop, hpop, if_neg hvt, hl2]
      rw [hstep]
      have hQ2 : QueueInv g { st with queue := q2 } := by
        intro e he
        have he2 : e ∈ st.queue := by
          rw [herase] at he
          exact List.mem_of_mem_erase he
        exact hQ e he2
      have hD2 : DistInv g s ({ st with queue := q2 } : AStarState α).dist := hD
      have hentries : ∀ e ∈ l2, e.1 ∈ g.values ∧ 0 < e.2 ∧
          ((g.gNbrList mv).any fun x => x.1 == e.1) = true ∧ g.wgtVal mv e.1 = e.2 := by
        intro e he
        refine ⟨(hgood e he).1, (hgood e he).2, ?_, ?_⟩
        · rw [hgn, List.any_eq_true]
          exact ⟨e, he, by simp⟩
        · exact wgtVal_eq g hgn hnd2 he
      have hfold := relaxFold_spec g hwf s mv (st.dist mv) hfn l2 { st with queue := q2 }
        hentries hQ2 hD2 ⟨P, hP, hPw, hPc⟩
      refine ih _ hfold.1 hfold.2.1 ?_
      have hfm : 2 * rankSum g s
            (l2.foldl (relaxOne hfn mv (st.dist mv)) { st with queue := q2 }).dist +
          (l2.foldl (relaxOne hfn mv (st.dist mv)) { st with queue := q2 }).queue.length ≤
          2 * rankSum g s st.dist + q2.length := hfold.2.2
      have hlen0 : 0 < st.queue.length := List.length_pos_of_mem hmem
      have herlen : q2.length = st.queue.length - 1 := by
        rw [herase]
        exact List.length_erase_of_mem hmem
      omega

/-- Claim C5: on a well-formed graph with both endpoints present, when no
path leads from the source to the target, the search exhausts its frontier
and ends in the one expected failure: the line-107 assert "Source and target
are not connected" (modelled as `SPOutcome.unreachableTargetError`, distinct
from the missing-value precondition failure), for any heuristic.  The
function never mutates the graph, so the failure is non-corrupting. -/
theorem C5_unreachable_target_error {α : Type} [DecidableEq α] [LinearOrder α]
    (g : Graph α) (s t : α) (hfn : α → ℚ) (hwf : g.WF)
    (hs : s ∈ g.values) (ht : t ∈ g.values)
    (hun : ∀ p, ¬ g.IsPathFrom s t p) :
    aStarSearchAlgorithm g s t hfn = .unreachableTargetError := by
  have hQ0 : QueueInv g ⟨[((0 : WithTop ℚ), s)],
      Function.update (fun _ => (⊤ : WithTop ℚ)) s 0,
      Function.update (fun _ => (⊤ : WithTop ℚ)) s ((hfn s : ℚ) : WithTop ℚ),
      fun _ => none⟩ := by
    intro e he
    rw [List.mem_singleton] at he
    subst he
    refine ⟨?_, hs⟩
    show Function.update (fun _ => (⊤ : WithTop ℚ)) s 0 s ≠ ⊤
    rw [Function.update_same]
    simp
  have hD0 : DistInv g s (Function.update (fun _ => (⊤ : WithTop ℚ)) s 0) := by
    intro v hv
    by_cases hvs : v = s
    · subst hvs
      refine ⟨[v], ⟨rfl, by simp, List.chain'_singleton v⟩,
        ⟨List.nodup_singleton v, ?_, ?_⟩, ?_⟩
      · intro x hx
        rw [List.mem_singleton] at hx
        subst hx
        exact hs
      · intro k hk
        have hk0 : k = 0 := by
          simp only [List.length_singleton] at hk
          omega
        subst hk0
        show Function.update (fun _ => (⊤ : WithTop ℚ)) v 0 v ≤ _
        rw [Function.update_same]
        simp [Graph.pathCost]
      · rw [Function.update_same]
        simp [Graph.pathCost]
    · exact absurd (Function.update_noteq hvs 0 _) hv
  have hm0 : 2 * rankSum g s (Function.update (fun _ => (⊤ : WithTop ℚ)) s 0) +
      ([((0 : WithTop ℚ), s)]).length < g.aStarFuel s := by
    have hr : rankSum g s (Function.update (fun _ => (⊤ : WithTop ℚ)) s 0) ≤
        (g.values.map fun v => ((g.pathCosts s v).dedup).length).sum := by
      unfold rankSum
      refine listSumLe _ _ g.values ?_
      intro v hv
      unfold rank
      exact List.length_filter_le _ _
    unfold Graph.aStarFuel
    rw [List.length_singleton]
    omega
  exact aStarLoopUnreach g hwf s t hfn hun (g.aStarFuel s) _ hQ0 hD0 hm0

/-- Claim C5 instantiated: two values 1 and 2 with the single directed edge
1 → 2 (weight 2, matrix backend); searching from 2 back to 1 exhausts the
frontier and raises the line-107 assert. -/
theorem C5_unreachable_witness :
    aStarSearchAlgorithm
      (Graph.mk [1, 2] true (.adjacencyMatrix [[0, 2], [0, 0]]) : Graph ℕ)
      2 1 noGuessMinDistanceFromTarget = .unreachableTargetError := by
  refine C5_unreachable_target_error _ 2 1 noGuessMinDistanceFromTarget
    (by decide) (by decide) (by decide) ?_
  intro p hp
  obtain ⟨h1, h2, h3⟩ := hp
  cases p with
  | nil => cases h1
  | cons a q =>
    have ha : a = 2 := Option.some.inj h1
    subst ha
    cases q with
    | nil =>
      have h4 : (2 : ℕ) = 1 := by simpa using h2
      exact absurd h4 (by decide)
    | cons b r =>
      have hedge := (List.chain'_cons.mp h3).1
      have hnil : (Graph.mk [1, 2] true
          (.adjacencyMatrix [[0, 2], [0, 0]]) : Graph ℕ).gNbrList 2 = [] := by decide
      rw [hnil] at hedge
      simp at hedge

/-! #### The popped key is minimal -/

theorem queueMinFoldLe {α : Type} [LinearOrder α] :
    ∀ (rest : List (WithTop ℚ × α)) (e : WithTop ℚ × α),
      (rest.foldl (fun m x => if x.1 < m.1 ∨ (x.1 = m.1 ∧ x.2 < m.2) then x else m)
          e).1 ≤ e.1 ∧
      ∀ x ∈ rest,
        (rest.foldl (fun m x => if x.1 < m.1 ∨ (x.1 = m.1 ∧ x.2 < m.2) then x else m)
          e).1 ≤ x.1 := by
  intro rest
  induction rest with
  | nil =>
    intro e
    exact ⟨le_refl _, by simp⟩
  | cons a r ih =>
    intro e
    simp only [List.foldl_cons]
    set e2 := if a.1 < e.1 ∨ (a.1 = e.1 ∧ a.2 < e.2) then a else e with he2
    have h2 := ih e2
    have he2le : e2.1 ≤ e.1 ∧ e2.1 ≤ a.1 := by
      rw [he2]
      split
      · rename_i hcond
        rcases hcond with h | h
        · exact ⟨le_of_lt h, le_refl _⟩
        · exact ⟨le_of_eq h.1, le_refl _⟩
      · rename_i hcond
        exact ⟨le_refl _, le_of_not_lt fun h => hcond (Or.inl h)⟩
    refine ⟨le_trans h2.1 he2le.1, ?_⟩
    intro x hx
    rcases List.mem_cons.mp hx with rfl | hxr
    · exact le_trans h2.1 he2le.2
    · exact h2.2 x hxr

theorem queueMin_le {α : Type} [LinearOrder α] {q : List (WithTop ℚ × α)}
    {m : WithTop ℚ × α} (h : queueMin q = some m) : ∀ x ∈ q, m.1 ≤ x.1 := by
  cases q with
  | nil => cases h
  | cons e rest =>
    have h2 : rest.foldl
        (fun m x => if x.1 < m.1 ∨ (x.1 = m.1 ∧ x.2 < m.2) then x else m) e = m :=
      Option.some.inj h
    intro x hx
    rcases List.mem_cons.mp hx with rfl | hxr
    · exact h2 ▸ (queueMinFoldLe rest x).1
    · exact h2 ▸ (queueMinFoldLe rest e).2 x hxr

/-! #### The least enumerated path cost -/

theorem listFoldrMinLe {l : List (WithTop ℚ)} {x : WithTop ℚ} (hx : x ∈ l) :
    l.foldr min ⊤ ≤ x := by
  induction l with
  | nil => cases hx
  | cons a r ih =>
    rw [List.foldr_cons]
    rcases List.mem_cons.mp hx with rfl | hxr
    · exact min_le_left _ _
    · exact le_trans (min_le_right _ _) (ih hxr)

theorem listFoldrMinGe {l : List (WithTop ℚ)} {b : WithTop ℚ}
    (h : ∀ x ∈ l, b ≤ x) : b ≤ l.foldr min ⊤ := by
  induction l with
  | nil => exact le_top
  | cons a r ih =>
    rw [List.foldr_cons]
    exact le_min (h a (by simp)) (ih fun x hx => h x (by simp [hx]))

theorem minCost_le_cost {α : Type} [DecidableEq α] (g : Graph α) {s v : α}
    {p : List α} (hp : g.IsPathFrom s v p) (hnd : p.Nodup)
    (hpres : ∀ x ∈ p, x ∈ g.values) :
    minCost g s v ≤ ((g.pathCost p : ℚ) : WithTop ℚ) := by
  refine listFoldrMinLe ?_
  rw [List.mem_map]
  refine ⟨g.pathCost p, ?_, rfl⟩
  unfold Graph.pathCosts
  exact List.mem_map_of_mem g.pathCost (simplePathsComplete g hp hnd hpres)

theorem pathsAuxSound {α : Type} [DecidableEq α] (nbr : α → List α) :
    ∀ (fuel : ℕ) (u t : α) (avoid : List α) (p : List α),
      p ∈ Graph.pathsAux nbr fuel u t avoid →
      p.head? = some u ∧ p.getLast? = some t ∧ p.Chain' (fun a b => b ∈ nbr a) := by
  intro fuel
  induction fuel with
  | zero =>
    intro u t avoid p hp
    simp [Graph.pathsAux] at hp
  | succ f ih =>
    intro u t avoid p hp
    by_cases hut : u = t
    · subst hut
      have heq : Graph.pathsAux nbr (f + 1) u u avoid = [[u]] := by
        rw [show Graph.pathsAux nbr (f + 1) u u avoid =
          (if u = u then [[u]] else ((nbr u).filter fun w => decide (w ∉ avoid)).flatMap
            fun w => (Graph.pathsAux nbr f w u (u :: avoid)).map fun p => u :: p)
          from rfl, if_pos rfl]
      rw [heq, List.mem_singleton] at hp
      subst hp
      exact ⟨rfl, rfl, List.chain'_singleton u⟩
    · have hne : Graph.pathsAux nbr (f + 1) u t avoid =
          ((nbr u).filter fun w => decide (w ∉ avoid)).flatMap
            fun w => (Graph.pathsAux nbr f w t (u :: avoid)).map fun p => u :: p := by
        rw [show Graph.pathsAux nbr (f + 1) u t avoid =
          (if u = t then [[u]] else ((nbr u).filter fun w => decide (w ∉ avoid)).flatMap
            fun w => (Graph.pathsAux nbr f w t (u :: avoid)).map fun p => u :: p)
          from rfl, if_neg hut]
      rw [hne, List.mem_flatMap] at hp
      obtain ⟨w, hw, hp2⟩ := hp
      rw [List.mem_map] at hp2
      obtain ⟨p2, hp2m, hp2e⟩ := hp2
      obtain ⟨hh, hl, hc⟩ := ih w t (u :: avoid) p2 hp2m
      subst hp2e
      refine ⟨rfl, ?_, ?_⟩
      · cases p2 with
        | nil => cases hh
        | cons b r =>
          rw [List.getLast?_cons_cons]
          exact hl
      · rw [List.chain'_cons']
        refine ⟨?_, hc⟩
        intro y hy
        rw [hh] at hy
        have hyw : w = y := Option.some.inj (Option.mem_def.mp hy)
        rw [← hyw]
        exact (List.mem_filter.mp hw).1

theorem simplePathsSound {α : Type} [DecidableEq α] (g : Graph α) {s v : α}
    {q : List α} (h : q ∈ g.simplePathsFrom s v) : g.IsPathFrom s v q := by
  unfold Graph.simplePathsFrom at h
  obtain ⟨h1, h2, h3⟩ := pathsAuxSound _ _ _ _ _ _ h
  refine ⟨h1, h2, ?_⟩
  refine List.Chain'.imp ?_ h3
  intro a b hab
  rw [List.mem_map] at hab
  obtain ⟨e, he, hbe⟩ := hab
  rw [List.any_eq_true]
  refine ⟨e, he, ?_⟩
  rw [show Prod.fst e = e.1 from rfl] at hbe
  rw [hbe]
  simp

theorem minCost_ge {α : Type} [DecidableEq α] (g : Graph α) {s v : α}
    {b : WithTop ℚ}
    (h : ∀ q, g.IsPathFrom s v q → b ≤ ((g.pathCost q : ℚ) : WithTop ℚ)) :
    b ≤ minCost g s v := by
  refine listFoldrMinGe ?_
  intro x hx
  rw [List.mem_map] at hx
  obtain ⟨c, hc, hcx⟩ := hx
  unfold Graph.pathCosts at hc
  rw [List.mem_map] at hc
  obtain ⟨q, hq, hqc⟩ := hc
  rw [← hcx, ← hqc]
  exact h q (simplePathsSound g hq)

/-! #### Path vertices of a present source are present; costs are nonnegative -/

theorem pathPres {α : Type} [DecidableEq α] (g : Graph α) (hwf : g.WF) :
    ∀ (p : List α) (u : α), p.head? = some u → u ∈ g.values →
      p.Chain' (fun a b => ((g.gNbrList a).any fun e => e.1 == b) = true) →
      ∀ x ∈ p, x ∈ g.values := by
  intro p
  induction p with
  | nil =>
    intro u h
    cases h
  | cons a q ih =>
    intro u hh hu hc x hx
    have ha : a = u := Option.some.inj hh
    subst ha
    rcases List.mem_cons.mp hx with rfl | hxq
    · exact hu
    · cases q with
      | nil => cases hxq
      | cons b r =>
        obtain ⟨hab, hrest⟩ := List.chain'_cons.mp hc
        obtain ⟨c, hcmem⟩ := (anyEdge_iff g a b).mp hab
        obtain ⟨l2, hl2, hgood, -⟩ := facadeNbrsGood g hwf a hu
        rw [gNbrListEq g hl2] at hcmem
        exact ih b rfl (hgood _ hcmem).1 hrest x hxq

theorem chainCostNonneg {α : Type} [DecidableEq α] (g : Graph α) (hwf : g.WF) :
    ∀ (p : List α),
      p.Chain' (fun a b => ((g.gNbrList a).any fun e => e.1 == b) = true) →
      (∀ x ∈ p, x ∈ g.values) → 0 ≤ g.pathCost p := by
  intro p
  induction p with
  | nil =>
    intro _ _
    exact le_of_eq rfl
  | cons a q ih =>
    intro hc hpres
    cases q with
    | nil => exact le_of_eq rfl
    | cons b r =>
      obtain ⟨hab, hrest⟩ := List.chain'_cons.mp hc
      have hw : 0 < g.wgtVal a b := by
        obtain ⟨l2, hl2, hgood, -⟩ := facadeNbrsGood g hwf a (hpres a (by simp))
        exact wgtVal_posOf g (gNbrListEq g hl2) (fun e he => (hgood e he).2) hab
      have h2 := ih hrest (fun x hx => hpres x (by simp [hx]))
      rw [show g.pathCost (a :: b :: r) = g.wgtVal a b + g.pathCost (b :: r) from rfl]
      linarith

theorem pathCostNonneg {α : Type} [DecidableEq α] (g : Graph α) (hwf : g.WF)
    {s v : α} {p : List α} (hp : g.IsPathFrom s v p)
    (hpres : ∀ x ∈ p, x ∈ g.values) : 0 ≤ g.pathCost p :=
  chainCostNonneg g hwf p hp.2.2 hpres

theorem distNonneg {α : Type} [DecidableEq α] (g : Graph α) (hwf : g.WF) {s : α}
    {d : α → WithTop ℚ} (hD : DistInv g s d) : ∀ v, 0 ≤ d v := by
  intro v
  by_cases hv : d v = ⊤
  · rw [hv]
    exact le_top
  · obtain ⟨p, hp1, hp2, hp3⟩ := hD v hv
    rw [hp3]
    exact_mod_cast pathCostNonneg g hwf hp1 hp2.2.1

/-! #### Dijkstra invariants through one relaxation -/

theorem withTopLtAdd {a : WithTop ℚ} (ha : a ≠ ⊤) {c : ℚ} (hc : 0 < c) :
    a < a + (c : WithTop ℚ) := by
  obtain ⟨q, rfl⟩ := WithTop.ne_top_iff_exists.mp ha
  rw [← WithTop.coe_add, WithTop.coe_lt_coe]
  linarith

theorem dijkRelaxOne {α : Type} [DecidableEq α] (g : Graph α) (s v : α)
    (dsc : WithTop ℚ) (SOld : α → Prop) (dOld : α → WithTop ℚ)
    (hfin : dsc ≠ ⊤) (h0 : 0 ≤ dsc)
    (hSle : ∀ x, SOld x → dOld x ≤ dsc) (hvals : v ∈ g.values)
    (st' : AStarState α) (e : α × ℚ) (he2pos : 0 < e.2)
    (hedge : ((g.gNbrList v).any fun x => x.1 == e.1) = true)
    (hwv : g.wgtVal v e.1 = e.2)
    (hI : DijkFoldInv g s v dsc SOld dOld st') :
    DijkFoldInv g s v dsc SOld dOld
      (relaxOne noGuessMinDistanceFromTarget v dsc st' e) ∧
    (∀ x, (relaxOne noGuessMinDistanceFromTarget v dsc st' e).dist x ≤ st'.dist x) ∧
    (relaxOne noGuessMinDistanceFromTarget v dsc st' e).dist e.1 ≤
      dsc + (e.2 : WithTop ℚ) := by
  obtain ⟨h1, h2, h3, h4, h5, h6, h7, h8, h9, h10, h11, h12, h13⟩ := hI
  have hrel : relaxOne noGuessMinDistanceFromTarget v dsc st' e =
      (if dsc + (e.2 : WithTop ℚ) < st'.dist e.1 then
        { queue := ((Function.update st'.est e.1 ((dsc + (e.2 : WithTop ℚ)) +
              ((noGuessMinDistanceFromTarget e.1 : ℚ) : WithTop ℚ))) e.1, e.1) ::
                st'.queue,
          dist := Function.update st'.dist e.1 (dsc + (e.2 : WithTop ℚ)),
          est := Function.update st'.est e.1 ((dsc + (e.2 : WithTop ℚ)) +
            ((noGuessMinDistanceFromTarget e.1 : ℚ) : WithTop ℚ)),
          prev := Function.update st'.prev e.1 (some v) }
      else st') := rfl
  by_cases himp : dsc + (e.2 : WithTop ℚ) < st'.dist e.1
  case neg =>
    have hid : relaxOne noGuessMinDistanceFromTarget v dsc st' e = st' := by
      rw [hrel, if_neg himp]
    rw [hid]
    exact ⟨⟨h1, h2, h3, h4, h5, h6, h7, h8, h9, h10, h11, h12, h13⟩,
      fun x => le_refl _, le_of_not_lt himp⟩
  case pos =>
    have hq2 : (relaxOne noGuessMinDistanceFromTarget v dsc st' e).queue =
        (dsc + (e.2 : WithTop ℚ), e.1) :: st'.queue := by
      rw [hrel, if_pos himp, Function.update_same,
        show ((noGuessMinDistanceFromTarget e.1 : ℚ) : WithTop ℚ) = 0 from
          WithTop.coe_zero, add_zero]
    have hd2 : (relaxOne noGuessMinDistanceFromTarget v dsc st' e).dist =
        Function.update st'.dist e.1 (dsc + (e.2 : WithTop ℚ)) := by
      rw [hrel, if_pos himp]
    have hp2 : (relaxOne noGuessMinDistanceFromTarget v dsc st' e).prev =
        Function.update st'.prev e.1 (some v) := by
      rw [hrel, if_pos himp]
    have hdsn_gt : dsc < dsc + (e.2 : WithTop ℚ) := withTopLtAdd hfin he2pos
    have hne_v : e.1 ≠ v := by
      intro hh
      rw [hh, h4] at himp
      exact absurd himp (not_lt.mpr (le_of_lt hdsn_gt))
    have hne_s : e.1 ≠ s := by
      intro hh
      rw [hh, h5] at himp
      exact absurd (lt_trans (lt_of_le_of_lt h0 hdsn_gt) himp) (lt_irrefl _)
    have hnot_SOld : ¬ SOld e.1 := by
      intro hh
      rw [h2 e.1 hh] at himp
      exact absurd (lt_trans (lt_of_le_of_lt (hSle e.1 hh) hdsn_gt) himp) (lt_irrefl _)
    have hdist_pt : ∀ x,
        (Function.update st'.dist e.1 (dsc + (e.2 : WithTop ℚ))) x ≤ st'.dist x := by
      intro x
      by_cases hx : x = e.1
      · subst hx
        rw [Function.update_same]
        exact le_of_lt himp
      · rw [Function.update_noteq hx]
    refine ⟨⟨?_, ?_, ?_, ?_, ?_, ?_, ?_, ?_, ?_, ?_, ?_, ?_, ?_⟩, ?_, ?_⟩
    · intro x
      rw [hd2]
      exact le_trans (hdist_pt x) (h1 x)
    · intro x hx
      rw [hd2, Function.update_noteq (fun hh => hnot_SOld (by rw [← hh]; exact hx))]
      exact h2 x hx
    · intro x hx
      rw [hd2, hq2,
        Function.update_noteq (fun hh => hnot_SOld (by rw [← hh]; exact hx))]
      intro hmem
      rcases List.mem_cons.mp hmem with hd | ht
      · have hxe : x = e.1 := congrArg Prod.snd hd
        exact hnot_SOld (by rw [← hxe]; exact hx)
      · exact h3 x hx ht
    · rw [hd2, Function.update_noteq (Ne.symm hne_v)]
      exact h4
    · rw [hd2, Function.update_noteq (Ne.symm hne_s)]
      exact h5
    · intro e' he'
      rw [hq2] at he'
      rw [hd2]
      rcases List.mem_cons.mp he' with rfl | ht
      · rw [Function.update_same]
      · exact le_trans (hdist_pt e'.2) (h6 e' ht)
    · intro x
      rw [hq2, List.filter_cons]
      by_cases hx : e.1 = x
      · rw [if_pos (by simp [hx])]
        rw [List.map_cons]
        refine List.nodup_cons.mpr ⟨?_, h7 x⟩
        intro hmem
        rw [List.mem_map] at hmem
        obtain ⟨e', he', heq⟩ := hmem
        rw [List.mem_filter] at he'
        have hk := h6 e' he'.1
        have he'2 : e'.2 = x := by simpa using he'.2
        rw [he'2, ← hx] at hk
        rw [show Prod.fst e' = e'.1 from rfl] at heq
        rw [heq] at hk
        exact absurd himp (not_lt.mpr hk)
      · rw [if_neg (by simp [hx])]
        exact h7 x
    · intro u hu
      by_cases hue : u = e.1
      · subst hue
        refine Or.inl ?_
        rw [hq2, hd2, Function.update_same]
        exact List.mem_cons_self _ _
      · rw [hd2, Function.update_noteq hue] at hu
        rcases h8 u hu with hq | hS | hv2
        · refine Or.inl ?_
          rw [hq2, hd2, Function.update_noteq hue]
          exact List.mem_cons_of_mem _ hq
        · exact Or.inr (Or.inl hS)
        · exact Or.inr (Or.inr hv2)
    · rw [hp2, Function.update_noteq (Ne.symm hne_s)]
      exact h9
    · intro x hxs hx
      by_cases hxe : x = e.1
      · subst hxe
        refine ⟨v, ?_, ?_, hvals, hedge, ?_⟩
        · rw [hp2, Function.update_same]
        · rw [hd2, Function.update_noteq (Ne.symm hne_v), h4]
          exact hfin
        · rw [hd2, Function.update_noteq (Ne.symm hne_v), h4,
            Function.update_same, hwv]
      · rw [hd2, Function.update_noteq hxe] at hx
        obtain ⟨u, hu1, hu2, hu3, hu4, hu5⟩ := h10 x hxs hx
        refine ⟨u, ?_, ?_, hu3, hu4, ?_⟩
        · rw [hp2, Function.update_noteq hxe]
          exact hu1
        · rw [hd2]
          intro hh
          exact hu2 (top_le_iff.mp (hh ▸ hdist_pt u))
        · rw [hd2, Function.update_noteq hxe]
          exact le_trans (add_le_add_right (hdist_pt u) _) hu5
    · intro e' he'
      rw [hq2] at he'
      rcases List.mem_cons.mp he' with rfl | ht
      · exact le_of_lt hdsn_gt
      · exact h11 e' ht
    · intro x hx e' he'
      rw [hq2] at he'
      rcases List.mem_cons.mp he' with rfl | ht
      · exact le_trans (hSle x hx) (le_of_lt hdsn_gt)
      · exact h12 x hx e' ht
    · rw [hq2]
      intro hmem
      rcases List.mem_cons.mp hmem with hd | ht
      · exact absurd (congrArg Prod.fst hd) (ne_of_lt hdsn_gt)
      · exact h13 ht
    · intro x
      rw [hd2]
      exact hdist_pt x
    · rw [hd2, Function.update_same]

theorem dijkFold {α : Type} [DecidableEq α] (g : Graph α) (s v : α)
    (dsc : WithTop ℚ) (SOld : α → Prop) (dOld : α → WithTop ℚ)
    (hfin : dsc ≠ ⊤) (h0 : 0 ≤ dsc)
    (hSle : ∀ x, SOld x → dOld x ≤ dsc) (hvals : v ∈ g.values) :
    ∀ (l : List (α × ℚ)) (st : AStarState α),
      (∀ e ∈ l, 0 < e.2 ∧ ((g.gNbrList v).any fun x => x.1 == e.1) = true ∧
        g.wgtVal v e.1 = e.2) →
      DijkFoldInv g s v dsc SOld dOld st →
      DijkFoldInv g s v dsc SOld dOld
        (l.foldl (relaxOne noGuessMinDistanceFromTarget v dsc) st) ∧
      (∀ x, (l.foldl (relaxOne noGuessMinDistanceFromTarget v dsc) st).dist x ≤
        st.dist x) ∧
      (∀ e ∈ l, (l.foldl (relaxOne noGuessMinDistanceFromTarget v dsc) st).dist e.1 ≤
        dsc + (e.2 : WithTop ℚ)) := by
  intro l
  induction l with
  | nil =>
    intro st _ hI
    exact ⟨hI, fun x => le_refl _, by simp⟩
  | cons e r ih =>
    intro st hent hI
    obtain ⟨he2pos, hedge, hwv⟩ := hent e (by simp)
    have hstep := dijkRelaxOne g s v dsc SOld dOld hfin h0 hSle hvals st e
      he2pos hedge hwv hI
    simp only [List.foldl_cons]
    have hrec := ih (relaxOne noGuessMinDistanceFromTarget v dsc st e)
      (fun x hx => hent x (by simp [hx])) hstep.1
    refine ⟨hrec.1, ?_, ?_⟩
    · intro x
      exact le_trans (hrec.2.1 x) (hstep.2.1 x)
    · intro e' he'
      rcases List.mem_cons.mp he' with rfl | ht
      · exact le_trans (hrec.2.1 e'.1) hstep.2.2
      · exact hrec.2.2 e' ht

/-! #### The popped minimal fresh key is below every path cost -/

theorem popFreshBound {α : Type} [DecidableEq α] (g : Graph α) (hwf : g.WF)
    (s v : α) (st : AStarState α)
    (hSrc : st.dist s = 0)
    (hRel : ∀ x, Settled st x →
      ∀ e ∈ g.gNbrList x, st.dist e.1 ≤ st.dist x + (e.2 : WithTop ℚ))
    (hmin : ∀ e ∈ st.queue, st.dist v ≤ e.1)
    (q : List α) (hq : g.IsPathFrom s v q) (hpres : ∀ x ∈ q, x ∈ g.values) :
    st.dist v ≤ ((g.pathCost q : ℚ) : WithTop ℚ) := by
  have hpos : ∀ j, (h1 : j < q.length) → (h2 : j + 1 < q.length) →
      0 < g.wgtVal q[j] q[j+1] := pathEdgesPos g hwf hq hpres
  have hlen : 0 < q.length := by
    cases hq' : q with
    | nil =>
      rw [hq'] at hq
      cases hq.1
    | cons a r => simp
  have htake : q.take (q.length - 1 + 1) = q := by
    rw [show q.length - 1 + 1 = q.length from by omega]
    exact List.take_length q
  have key : ∀ k, (hk : k < q.length) →
      st.dist q[k] ≤ ((g.pathCost (q.take (k + 1)) : ℚ) : WithTop ℚ) ∨
      st.dist v ≤ ((g.pathCost q : ℚ) : WithTop ℚ) := by
    intro k
    induction k with
    | zero =>
      intro hk
      left
      have h0 : q[0] = s := by
        have hh := hq.1
        rw [List.head?_eq_getElem?, List.getElem?_eq_getElem hk] at hh
        exact Option.some.inj hh
      have hc1 : g.pathCost (q.take (0 + 1)) = 0 := by
        cases hq' : q with
        | nil =>
          rw [hq'] at hk
          simp at hk
        | cons a r => rfl
      rw [h0, hSrc, hc1, WithTop.coe_zero]
    | succ k ihk =>
      intro hk
      have hk' : k < q.length := by omega
      rcases ihk hk' with hleft | hright
      · have hxfin : st.dist q[k] ≠ ⊤ := by
          intro hh
          rw [hh] at hleft
          exact WithTop.not_top_le_coe _ hleft
        by_cases hxq : (st.dist q[k], q[k]) ∈ st.queue
        · right
          refine le_trans (hmin _ hxq) (le_trans hleft ?_)
          rw [WithTop.coe_le_coe]
          have hmono := takeCostMono g q (fun j h1 h2 => le_of_lt (hpos j h1 h2)) k
            (q.length - 1) (by omega) (by omega)
          rw [htake] at hmono
          exact hmono
        · have hset : Settled st q[k] := ⟨hxfin, hxq⟩
          have hedge := chainRelAt q hq.2.2 k hk' hk
          obtain ⟨c, hc⟩ := (anyEdge_iff g q[k] q[k+1]).mp hedge
          have hwc : g.wgtVal q[k] q[k+1] = c := by
            obtain ⟨l2, hl2, hgood, hnd2⟩ := facadeNbrsGood g hwf q[k]
              (hpres _ (q.getElem_mem hk'))
            have hgn := gNbrListEq g hl2
            refine wgtVal_eq g hgn hnd2 ?_
            rw [← hgn]
            exact hc
          have hr := hRel _ hset (q[k+1], c) hc
          left
          have hstep := takeCostSucc g q k hk' hk
          calc st.dist q[k+1] ≤ st.dist q[k] + (c : WithTop ℚ) := hr
            _ ≤ ((g.pathCost (q.take (k + 1)) : ℚ) : WithTop ℚ) + (c : WithTop ℚ) :=
              add_le_add_right hleft _
            _ = ((g.pathCost (q.take (k + 2)) : ℚ) : WithTop ℚ) := by
              rw [hstep, hwc, WithTop.coe_add]
      · exact Or.inr hright
  rcases key (q.length - 1) (by omega) with hleft | hright
  · have hb1 : q.length - 1 < q.length := by omega
    have hlast : q[q.length - 1] = v := by
      have hh := hq.2.1
      rw [List.getLast?_eq_getElem?, List.getElem?_eq_getElem hb1] at hh
      exact Option.some.inj hh
    rw [hlast, htake] at hleft
    exact hleft
  · exact hright

/-! #### Reconstruction along the predecessor map -/

theorem filterLtLengthGen {β : Type} (l : List β) (p q : β → Prop)
    [DecidablePred p] [DecidablePred q]
    (himp : ∀ x, p x → q x) (x0 : β) (hx0 : x0 ∈ l) (hqx : q x0) (hpx : ¬ p x0) :
    (l.filter fun x => p x).length < (l.filter fun x => q x).length := by
  have hsub : (l.filter fun x => p x).Sublist (l.filter fun x => q x) := by
    refine List.monotone_filter_right l ?_
    intro a ha
    simp only [decide_eq_true_eq] at ha ⊢
    exact himp a ha
  rcases lt_or_eq_of_le hsub.length_le with h | h
  · exact h
  · exfalso
    have heq := hsub.eq_of_length h
    have hmem : x0 ∈ l.filter fun x => q x := List.mem_filter.mpr ⟨hx0, decide_eq_true hqx⟩
    rw [← heq] at hmem
    have h2 := (List.mem_filter.mp hmem).2
    simp only [decide_eq_true_eq] at h2
    exact hpx h2

theorem prevRecons {α : Type} [DecidableEq α] (g : Graph α) (hwf : g.WF) (s : α)
    (hs : s ∈ g.values)
    (d : α → WithTop ℚ) (prev : α → Option α)
    (hSrc : d s = 0)
    (hnone : prev s = none)
    (hPrev : ∀ x, x ≠ s → d x ≠ ⊤ → ∃ u, prev x = some u ∧ d u ≠ ⊤ ∧
      u ∈ g.values ∧ ((g.gNbrList u).any fun e => e.1 == x) = true ∧
      d u + ((g.wgtVal u x : ℚ) : WithTop ℚ) ≤ d x) :
    ∀ (n : ℕ) (v : α), (g.values.filter fun u => d u < d v).length < n → d v ≠ ⊤ →
      ∃ p, g.IsPathFrom s v p ∧ p.Nodup ∧ (∀ x ∈ p, x ∈ g.values) ∧
        ((g.pathCost p : ℚ) : WithTop ℚ) ≤ d v ∧
        (∀ x ∈ p.dropLast, d x < d v) ∧
        ∀ fuel, (g.values.filter fun u => d u < d v).length < fuel →
          ∀ acc, reconsAux prev fuel v acc = some (p.dropLast ++ acc) := by
  intro n
  induction n with
  | zero =>
    intro v hn
    omega
  | succ m ih =>
    intro v hn hv
    by_cases hvs : v = s
    · subst hvs
      refine ⟨[v], ⟨rfl, by simp, List.chain'_singleton v⟩, List.nodup_singleton v,
        ?_, ?_, ?_, ?_⟩
      · intro x hx
        rw [List.mem_singleton] at hx
        subst hx
        exact hs
      · rw [show g.pathCost [v] = 0 from rfl, WithTop.coe_zero, hSrc]
      · intro x hx
        cases hx
      · intro fuel hfuel acc
        cases fuel with
        | zero => omega
        | succ f =>
          rw [show reconsAux prev (f + 1) v acc =
            (match prev v with
              | none => some acc
              | some p2 => reconsAux prev f p2 (p2 :: acc)) from rfl, hnone]
          rfl
    · obtain ⟨u, hu1, hu2, hu3, hu4, hu5⟩ := hPrev v hvs hv
      have hwpos : 0 < g.wgtVal u v := by
        obtain ⟨l2, hl2, hgood, -⟩ := facadeNbrsGood g hwf u hu3
        exact wgtVal_posOf g (gNbrListEq g hl2) (fun e he => (hgood e he).2) hu4
      have hvpres : v ∈ g.values := by
        obtain ⟨c, hc⟩ := (anyEdge_iff g u v).mp hu4
        obtain ⟨l2, hl2, hgood, -⟩ := facadeNbrsGood g hwf u hu3
        rw [gNbrListEq g hl2] at hc
        exact (hgood _ hc).1
      have hduv : d u < d v := lt_of_lt_of_le (withTopLtAdd hu2 hwpos) hu5
      have hμ : (g.values.filter fun x => d x < d u).length <
          (g.values.filter fun x => d x < d v).length :=
        filterLtLengthGen g.values _ _ (fun x hx => lt_trans hx hduv) u hu3 hduv
          (lt_irrefl _)
      obtain ⟨p, hp1, hp2, hp3, hp4, hp5, hp6⟩ := ih u (by omega) hu2
      have hlastp : p.getLast? = some u := hp1.2.1
      have hdrop : p.dropLast ++ [u] = p :=
        List.dropLast_append_getLast? u (Option.mem_def.mpr hlastp)
      have hmemd : ∀ x ∈ p, d x < d v := by
        intro x hx
        rw [← hdrop] at hx
        rcases List.mem_append.mp hx with h | h
        · exact lt_trans (hp5 x h) hduv
        · rw [List.mem_singleton] at h
          subst h
          exact hduv
      have hvnotp : v ∉ p := fun hvp => absurd (hmemd v hvp) (lt_irrefl _)
      refine ⟨p ++ [v], isPathFrom_append g hp1 v hu4, ?_, ?_, ?_, ?_, ?_⟩
      · rw [List.nodup_append]
        refine ⟨hp2, List.nodup_singleton _, ?_⟩
        intro x hx hx2
        rw [List.mem_singleton] at hx2
        subst hx2
        exact hvnotp hx
      · intro x hx
        rcases List.mem_append.mp hx with h | h
        · exact hp3 x h
        · rw [List.mem_singleton] at h
          subst h
          exact hvpres
      · rw [pathCost_append g v p u hlastp, WithTop.coe_add]
        exact le_trans (add_le_add_right hp4 _) hu5
      · rw [List.dropLast_concat]
        exact hmemd
      · intro fuel hfuel acc
        cases fuel with
        | zero => omega
        | succ f =>
          rw [show reconsAux prev (f + 1) v acc =
            (match prev v with
              | none => some acc
              | some p2 => reconsAux prev f p2 (p2 :: acc)) from rfl, hu1]
          show reconsAux prev f u (u :: acc) = some ((p ++ [v]).dropLast ++ acc)
          rw [hp6 f (by omega) (u :: acc), List.dropLast_concat]
          congr 1
          rw [show u :: acc = [u] ++ acc from rfl, ← List.append_assoc, hdrop]

/-! #### Stale entries and no-op folds -/

theorem notMemEraseOfKeysNodup {α : Type} [DecidableEq α] {k : WithTop ℚ} {v : α} :
    ∀ {Q : List (WithTop ℚ × α)},
      ((Q.filter fun e => e.2 = v).map Prod.fst).Nodup → (k, v) ∉ Q.erase (k, v) := by
  intro Q
  induction Q with
  | nil =>
    intro _ h
    simp at h
  | cons e Q2 ih =>
    intro hnd
    rw [List.erase_cons]
    by_cases he : e = (k, v)
    · rw [if_pos (by rw [he]; simp)]
      intro hmem
      have hfc : (e :: Q2).filter (fun e => e.2 = v) =
          e :: Q2.filter (fun e => e.2 = v) := by
        rw [List.filter_cons, if_pos (by rw [he]; simp)]
      rw [hfc, List.map_cons] at hnd
      obtain ⟨hhead, -⟩ := List.nodup_cons.mp hnd
      refine hhead ?_
      rw [List.mem_map]
      refine ⟨(k, v), ?_, by rw [he]⟩
      rw [List.mem_filter]
      exact ⟨hmem, by simp⟩
    · rw [if_neg (by simpa using he)]
      intro hmem
      rcases List.mem_cons.mp hmem with hd | ht
      · exact he hd.symm
      · refine ih ?_ ht
        rw [List.filter_cons] at hnd
        by_cases hp : e.2 = v
        · rw [if_pos (by simp [hp])] at hnd
          rw [List.map_cons] at hnd
          exact (List.nodup_cons.mp hnd).2
        · rw [if_neg (by simp [hp])] at hnd
          exact hnd

theorem relaxFoldNoop {α : Type} [DecidableEq α] (hfn : α → ℚ) (u : α)
    (dsc : WithTop ℚ) :
    ∀ (l : List (α × ℚ)) (st : AStarState α),
      (∀ e ∈ l, ¬ (dsc + (e.2 : WithTop ℚ) < st.dist e.1)) →
      l.foldl (relaxOne hfn u dsc) st = st := by
  intro l
  induction l with
  | nil =>
    intro st _
    rfl
  | cons e r ih =>
    intro st h
    rw [List.foldl_cons]
    have hid : relaxOne hfn u dsc st e = st := by
      rw [show relaxOne hfn u dsc st e = (if dsc + (e.2 : WithTop ℚ) < st.dist e.1 then
        { queue := ((Function.update st.est e.1
              ((dsc + (e.2 : WithTop ℚ)) + ((hfn e.1 : ℚ) : WithTop ℚ))) e.1, e.1) ::
                st.queue,
          dist := Function.update st.dist e.1 (dsc + (e.2 : WithTop ℚ)),
          est := Function.update st.est e.1
            ((dsc + (e.2 : WithTop ℚ)) + ((hfn e.1 : ℚ) : WithTop ℚ)),
          prev := Function.update st.prev e.1 (some u) }
      else st) from rfl, if_neg (h e (by simp))]
    rw [hid]
    exact ih st (fun e2 he2 => h e2 (by simp [he2]))

/-! #### The search loop with a unique minimum path -/

theorem aStarLoopDijkstra {α : Type} [DecidableEq α] [LinearOrder α] (g : Graph α)
    (hwf : g.WF) (s t : α) (hs : s ∈ g.values)
    (p₀ : List α) (hp₀ : g.IsPathFrom s t p₀) (hp₀nd : p₀.Nodup)
    (huniq : ∀ q, g.IsPathFrom s t q → q.Nodup → q ≠ p₀ →
      g.pathCost p₀ < g.pathCost q) :
    ∀ (fuel : ℕ) (st : AStarState α),
      DijkInv g s t st →
      2 * rankSum g s st.dist + st.queue.length < fuel →
      aStarLoop (fun v => g.iterateNeighbors v) noGuessMinDistanceFromTarget t
        g.values.length fuel st = .ok p₀ ((g.pathCost p₀ : ℚ) : WithTop ℚ) := by
  intro fuel
  induction fuel with
  | zero =>
    intro st _ hm
    omega
  | succ f ih =>
    intro st hI hm
    obtain ⟨hQ, hD, hSrc, hKey, hNd, hSet, hT, hPnone, hPrev⟩ := hI
    have hpres₀ : ∀ x ∈ p₀, x ∈ g.values := pathPres g hwf p₀ s hp₀.1 hs hp₀.2.2
    have hlen₀ : 0 < p₀.length := by
      cases hq' : p₀ with
      | nil =>
        rw [hq'] at hp₀
        cases hp₀.1
      | cons a r => simp
    cases hpop : popMin st.queue with
    | none =>
      exfalso
      have hempty : st.queue = [] := by
        cases hq : st.queue with
        | nil => rfl
        | cons e r =>
          rw [hq] at hpop
          simp [popMin, queueMin] at hpop
      have hfin : ∀ k, (hk : k < p₀.length) → st.dist p₀[k] ≠ ⊤ := by
        intro k
        induction k with
        | zero =>
          intro hk
          have h0 : p₀[0] = s := by
            have hh := hp₀.1
            rw [List.head?_eq_getElem?, List.getElem?_eq_getElem hk] at hh
            exact Option.some.inj hh
          rw [h0, hSrc]
          intro hh
          simp at hh
        | succ k ihk =>
          intro hk
          have hk' : k < p₀.length := by omega
          have hx := ihk hk'
          have hsettled : Settled st p₀[k] := ⟨hx, by rw [hempty]; simp⟩
          have hedge := chainRelAt p₀ hp₀.2.2 k hk' hk
          obtain ⟨c, hc⟩ := (anyEdge_iff g p₀[k] p₀[k+1]).mp hedge
          have hr := (hSet _ hsettled).2 (p₀[k+1], c) hc
          intro htop
          rw [htop] at hr
          have h2 := top_le_iff.mp hr
          rw [WithTop.add_eq_top] at h2
          rcases h2 with h | h
          · exact hx h
          · exact WithTop.coe_ne_top h
      have htfin : st.dist t ≠ ⊤ := by
        have hb1 : p₀.length - 1 < p₀.length := by omega
        have hlast : p₀[p₀.length - 1] = t := by
          have hh := hp₀.2.1
          rw [List.getLast?_eq_getElem?, List.getElem?_eq_getElem hb1] at hh
          exact Option.some.inj hh
        have h2 := hfin (p₀.length - 1) (by omega)
        rw [hlast] at h2
        exact h2
      have h3 := hT htfin
      rw [hempty] at h3
      exact absurd h3 (List.not_mem_nil _)
    | some pr =>
      obtain ⟨m, q2⟩ := pr
      obtain ⟨mk, mv⟩ := m
      obtain ⟨hmem, herase⟩ := popMin_spec hpop
      have hqm : queueMin st.queue = some (mk, mv) := by
        unfold popMin at hpop
        cases hq : queueMin st.queue with
        | none =>
          rw [hq] at hpop
          cases hpop
        | some m2 =>
          rw [hq] at hpop
          have h3 : (m2, st.queue.erase m2) = ((mk, mv), q2) := Option.some.inj hpop
          have h4 : m2 = (mk, mv) := congrArg Prod.fst h3
          rw [h4]
      have hmin : ∀ x ∈ st.queue, mk ≤ x.1 := fun x hx => queueMin_le hqm x hx
      have hfinv := (hQ (mk, mv) hmem).1
      have hpresv := (hQ (mk, mv) hmem).2
      have hlen0 : 0 < st.queue.length := List.length_pos_of_mem hmem
      have herlen : q2.length = st.queue.length - 1 := by
        rw [herase]
        exact List.length_erase_of_mem hmem
      by_cases hvt : mv = t
      · -- the target is popped: the loop breaks
        have hkd : mk = st.dist t := by
          have h1 := hKey (mk, mv) hmem
          rw [hvt] at h1
          have h2 := hmin (st.dist t, t) (hT (by rw [← hvt]; exact hfinv))
          exact le_antisymm h2 h1
        have hbound : ∀ q, g.IsPathFrom s t q →
            st.dist t ≤ ((g.pathCost q : ℚ) : WithTop ℚ) := by
          intro q hq
          refine popFreshBound g hwf s t st hSrc (fun x hx => (hSet x hx).2) ?_ q hq
            (pathPres g hwf q s hq.1 hs hq.2.2)
          intro e he
          rw [← hkd]
          exact hmin e he
        have htfin : st.dist t ≠ ⊤ := by
          rw [← hvt]
          exact hfinv
        have hdt : st.dist t = ((g.pathCost p₀ : ℚ) : WithTop ℚ) := by
          refine le_antisymm (hbound p₀ hp₀) ?_
          obtain ⟨w, hw1, hw2, hw3⟩ := hD t htfin
          rw [hw3, WithTop.coe_le_coe]
          by_cases hww : w = p₀
          · rw [hww]
          · exact le_of_lt (huniq w hw1 hw2.1 hww)
        have hμ : (g.values.filter fun u => st.dist u < st.dist t).length <
            g.values.length + 1 := by
          have := List.length_filter_le
            (fun u => decide (st.dist u < st.dist t)) g.values
          omega
        obtain ⟨p, hp1, hp2, hp3, hp4, hp5, hp6⟩ := prevRecons g hwf s hs st.dist
          st.prev hSrc hPnone hPrev (g.values.length + 1) t hμ htfin
        have hpp : p = p₀ := by
          by_contra hne
          have hlt := huniq p hp1 hp2 hne
          rw [hdt, WithTop.coe_le_coe] at hp4
          linarith
        have hrec : reconsAux st.prev (g.values.length + 1) t [t] = some p₀ := by
          rw [hp6 (g.values.length + 1) hμ [t], hpp]
          congr 1
          exact List.dropLast_append_getLast? t (Option.mem_def.mpr hp₀.2.1)
        simp only [aStarLoop, hpop, if_pos hvt, hrec, hdt]
      · -- a non-target vertex is popped
        obtain ⟨l2, hl2, hgood, hnd2⟩ := facadeNbrsGood g hwf mv hpresv
        have hgn := gNbrListEq g hl2
        have hQ2 : QueueInv g { st with queue := q2 } := by
          intro e he
          have he2 : e ∈ st.queue := by
            rw [herase] at he
            exact List.mem_of_mem_erase he
          exact hQ e he2
        by_cases hfresh : mk = st.dist mv
        · -- fresh pop
          subst hfresh
          have h02 : 0 ≤ st.dist mv := distNonneg g hwf hD mv
          have hSle : ∀ x, Settled st x → st.dist x ≤ st.dist mv := fun x hx =>
            (hSet x hx).1 (st.dist mv, mv) hmem
          have hnotq2 : (st.dist mv, mv) ∉ q2 := by
            rw [herase]
            exact notMemEraseOfKeysNodup (hNd mv)
          have hI0 : DijkFoldInv g s mv (st.dist mv) (Settled st) st.dist
              { st with queue := q2 } := by
            refine ⟨fun x => le_refl _, fun x _ => rfl, ?_, rfl, hSrc, ?_, ?_, ?_,
              hPnone, hPrev, ?_, ?_, hnotq2⟩
            · intro x hx hmem2
              refine hx.2 ?_
              rw [herase] at hmem2
              exact List.mem_of_mem_erase hmem2
            · intro e he
              have he2 : e ∈ st.queue := by
                rw [herase] at he
                exact List.mem_of_mem_erase he
              exact hKey e he2
            · intro x
              have hsub : ({ st with queue := q2 } : AStarState α).queue.Sublist
                  st.queue := by
                rw [herase]
                exact List.erase_sublist _ _
              exact List.Nodup.sublist ((hsub.filter _).map Prod.fst) (hNd x)
            · intro u hu
              by_cases hset : Settled st u
              · exact Or.inr (Or.inl hset)
              · have hq3 : (st.dist u, u) ∈ st.queue := by
                  by_contra hq4
                  exact hset ⟨hu, hq4⟩
                by_cases hue : u = mv
                · exact Or.inr (Or.inr hue)
                · refine Or.inl ?_
                  rw [herase]
                  refine (List.mem_erase_of_ne ?_).mpr hq3
                  intro hh
                  exact hue (congrArg Prod.snd hh)
            · intro e he
              have he2 : e ∈ st.queue := by
                rw [herase] at he
                exact List.mem_of_mem_erase he
              exact hmin e he2
            · intro x hx e he
              have he2 : e ∈ st.queue := by
                rw [herase] at he
                exact List.mem_of_mem_erase he
              exact (hSet x hx).1 e he2
          have hentries : ∀ e ∈ l2, e.1 ∈ g.values ∧ 0 < e.2 ∧
              ((g.gNbrList mv).any fun x => x.1 == e.1) = true ∧
              g.wgtVal mv e.1 = e.2 := by
            intro e he
            refine ⟨(hgood e he).1, (hgood e he).2, ?_, ?_⟩
            · rw [hgn, List.any_eq_true]
              exact ⟨e, he, by simp⟩
            · exact wgtVal_eq g hgn hnd2 he
          have hent : ∀ e ∈ l2, 0 < e.2 ∧
              ((g.gNbrList mv).any fun x => x.1 == e.1) = true ∧
              g.wgtVal mv e.1 = e.2 := fun e he =>
            ⟨(hentries e he).2.1, (hentries e he).2.2.1, (hentries e he).2.2.2⟩
          have hF := dijkFold g s mv (st.dist mv) (Settled st) st.dist hfinv h02
            hSle hpresv l2 { st with queue := q2 } hent hI0
          obtain ⟨⟨f1, f2, f3, f4, f5, f6, f7, f8, f9, f10, f11, f12, f13⟩,
            fmono, frel⟩ := hF
          obtain ⟨P, hP, hPw, hPc⟩ := hD mv hfinv
          have hfold := relaxFold_spec g hwf s mv (st.dist mv)
            noGuessMinDistanceFromTarget l2 { st with queue := q2 } hentries hQ2 hD
            ⟨P, hP, hPw, hPc⟩
          have hstep : aStarLoop (fun v => g.iterateNeighbors v)
                noGuessMinDistanceFromTarget t g.values.length (f + 1) st =
              aStarLoop (fun v => g.iterateNeighbors v) noGuessMinDistanceFromTarget t
                g.values.length f
                (l2.foldl (relaxOne noGuessMinDistanceFromTarget mv (st.dist mv))
                  { st with queue := q2 }) := by
            simp only [aStarLoop, hpop, if_neg hvt, hl2]
          rw [hstep]
          refine ih _ ⟨hfold.1, hfold.2.1, f5, f6, f7, ?_, ?_, f9, f10⟩ ?_
          · -- settled vertices of the new state
            intro x hx
            have hcase : Settled st x ∨ x = mv := by
              rcases f8 x hx.1 with hq3 | hS | hv2
              · exact absurd hq3 hx.2
              · exact Or.inl hS
              · exact Or.inr hv2
            constructor
            · intro e he
              rcases hcase with hS | rfl
              · rw [f2 x hS]
                exact f12 x hS e he
              · rw [f4]
                exact f11 e he
            · intro e he
              rcases hcase with hS | rfl
              · rw [f2 x hS]
                exact le_trans (f1 e.1) ((hSet x hS).2 e he)
              · rw [f4]
                refine frel e ?_
                rw [← hgn]
                exact he
          · -- fresh target entry
            intro htf
            rcases f8 t htf with hq3 | hS | hv2
            · exact hq3
            · exact absurd (hT hS.1) hS.2
            · exact absurd hv2.symm hvt
          · -- measure
            have hfm : 2 * rankSum g s
                  (l2.foldl (relaxOne noGuessMinDistanceFromTarget mv (st.dist mv))
                    { st with queue := q2 }).dist +
                (l2.foldl (relaxOne noGuessMinDistanceFromTarget mv (st.dist mv))
                  { st with queue := q2 }).queue.length ≤
                2 * rankSum g s st.dist + q2.length := hfold.2.2
            omega
        · -- stale pop: the vertex is already settled, the fold is a no-op
          have hstale : st.dist mv < mk :=
            lt_of_le_of_ne (hKey (mk, mv) hmem) (fun h => hfresh h.symm)
          have hsettled : Settled st mv := by
            refine ⟨hfinv, ?_⟩
            intro hmem2
            exact absurd hstale (not_lt.mpr (hmin _ hmem2))
          have hnoop : l2.foldl (relaxOne noGuessMinDistanceFromTarget mv (st.dist mv))
              { st with queue := q2 } = { st with queue := q2 } := by
            refine relaxFoldNoop _ _ _ l2 _ ?_
            intro e he
            refine not_lt.mpr ?_
            exact (hSet mv hsettled).2 e (by rw [hgn]; exact he)
          have hstep : aStarLoop (fun v => g.iterateNeighbors v)
                noGuessMinDistanceFromTarget t g.values.length (f + 1) st =
              aStarLoop (fun v => g.iterateNeighbors v) noGuessMinDistanceFromTarget t
                g.values.length f { st with queue := q2 } := by
            simp only [aStarLoop, hpop, if_neg hvt, hl2, hnoop]
          rw [hstep]
          have hSet2 : ∀ x, Settled { st with queue := q2 } x → Settled st x := by
            intro x hx
            refine ⟨hx.1, ?_⟩
            intro hmem2
            refine hx.2 ?_
            rw [herase]
            refine (List.mem_erase_of_ne ?_).mpr hmem2
            intro hh
            have hxv : x = mv := congrArg Prod.snd hh
            have hkk : st.dist x = mk := congrArg Prod.fst hh
            rw [hxv] at hkk
            exact absurd hkk (ne_of_lt hstale)
          refine ih _ ⟨hQ2, hD, hSrc, ?_, ?_, ?_, ?_, hPnone, hPrev⟩ ?_
          · intro e he
            have he2 : e ∈ st.queue := by
              rw [herase] at he
              exact List.mem_of_mem_erase he
            exact hKey e he2
          · intro x
            have hsub : ({ st with queue := q2 } : AStarState α).queue.Sublist
                st.queue := by
              rw [herase]
              exact List.erase_sublist _ _
            exact List.Nodup.sublist ((hsub.filter _).map Prod.fst) (hNd x)
          · intro x hx
            have hS := hSet2 x hx
            constructor
            · intro e he
              have he2 : e ∈ st.queue := by
                rw [herase] at he
                exact List.mem_of_mem_erase he
              exact (hSet x hS).1 e he2
            · exact (hSet x hS).2
          · intro htf
            have h3 := hT htf
            rw [herase]
            refine (List.mem_erase_of_ne ?_).mpr h3
            intro hh
            exact hvt (congrArg Prod.snd hh).symm
          · have hb1 : rankSum g s ({ st with queue := q2 } : AStarState α).dist =
                rankSum g s st.dist := rfl
            have hb2 : ({ st with queue := q2 } : AStarState α).queue.length =
                q2.length := rfl
            omega

/-- Claim C4: on a well-formed graph with a unique minimum-weight path `p₀`
from a present source to a present target, the search with the default zero
heuristic (`no_guess_min_distance_from_target`, i.e. Dijkstra) returns
exactly that path and exactly the sum of its edge weights (weights are exact
rationals here, so "within floating-point tolerance" is exact equality). -/
theorem C4_unique_shortest_path {α : Type} [DecidableEq α] [LinearOrder α]
    (g : Graph α) (s t : α) (p₀ : List α) (hwf : g.WF)
    (hs : s ∈ g.values) (ht : t ∈ g.values)
    (hp₀ : g.IsPathFrom s t p₀) (hp₀nd : p₀.Nodup)
    (huniq : ∀ q, g.IsPathFrom s t q → q.Nodup → q ≠ p₀ →
      g.pathCost p₀ < g.pathCost q) :
    aStarSearchAlgorithm g s t noGuessMinDistanceFromTarget =
      .ok p₀ ((g.pathCost p₀ : ℚ) : WithTop ℚ) := by
  have hSrc0 : (Function.update (fun _ => (⊤ : WithTop ℚ)) s 0 : α → WithTop ℚ) s =
      0 := Function.update_same s 0 _
  have hD0 : DistInv g s (Function.update (fun _ => (⊤ : WithTop ℚ)) s 0) := by
    intro v hv
    by_cases hvs : v = s
    · subst hvs
      refine ⟨[v], ⟨rfl, by simp, List.chain'_singleton v⟩,
        ⟨List.nodup_singleton v, ?_, ?_⟩, ?_⟩
      · intro x hx
        rw [List.mem_singleton] at hx
        subst hx
        exact hs
      · intro k hk
        have hk0 : k = 0 := by
          simp only [List.length_singleton] at hk
          omega
        subst hk0
        show Function.update (fun _ => (⊤ : WithTop ℚ)) v 0 v ≤ _
        rw [Function.update_same]
        simp [Graph.pathCost]
      · rw [Function.update_same]
        simp [Graph.pathCost]
    · exact absurd (Function.update_noteq hvs 0 _) hv
  have hI0 : DijkInv g s t
      ⟨[((0 : WithTop ℚ), s)],
        Function.update (fun _ => (⊤ : WithTop ℚ)) s 0,
        Function.update (fun _ => (⊤ : WithTop ℚ)) s
          ((noGuessMinDistanceFromTarget s : ℚ) : WithTop ℚ),
        fun _ => none⟩ := by
    refine ⟨?_, hD0, hSrc0, ?_, ?_, ?_, ?_, rfl, ?_⟩
    · intro e he
      rw [List.mem_singleton] at he
      subst he
      refine ⟨?_, hs⟩
      show Function.update (fun _ => (⊤ : WithTop ℚ)) s 0 s ≠ ⊤
      rw [Function.update_same]
      simp
    · intro e he
      rw [List.mem_singleton] at he
      subst he
      show Function.update (fun _ => (⊤ : WithTop ℚ)) s 0 s ≤ 0
      rw [Function.update_same]
    · intro v
      refine List.Nodup.sublist ((List.filter_sublist _).map Prod.fst) ?_
      simp
    · intro v hv
      exfalso
      have hv1 : Function.update (fun _ => (⊤ : WithTop ℚ)) s 0 v ≠ ⊤ := hv.1
      have hv2 : (Function.update (fun _ => (⊤ : WithTop ℚ)) s 0 v, v) ∉
          [((0 : WithTop ℚ), s)] := hv.2
      by_cases hvs : v = s
      · subst hvs
        rw [Function.update_same] at hv2
        exact hv2 (by simp)
      · exact hv1 (Function.update_noteq hvs 0 _)
    · intro htf
      have htf2 : Function.update (fun _ => (⊤ : WithTop ℚ)) s 0 t ≠ ⊤ := htf
      show (Function.update (fun _ => (⊤ : WithTop ℚ)) s 0 t, t) ∈
        [((0 : WithTop ℚ), s)]
      by_cases hts : t = s
      · subst hts
        rw [Function.update_same]
        simp
      · exact absurd (Function.update_noteq hts 0 _) htf2
    · intro x hxs hx
      have hx2 : Function.update (fun _ => (⊤ : WithTop ℚ)) s 0 x ≠ ⊤ := hx
      exact absurd (Function.update_noteq hxs 0 _) hx2
  have hm0 : 2 * rankSum g s (Function.update (fun _ => (⊤ : WithTop ℚ)) s 0) +
      ([((0 : WithTop ℚ), s)]).length < g.aStarFuel s := by
    have hr : rankSum g s (Function.update (fun _ => (⊤ : WithTop ℚ)) s 0) ≤
        (g.values.map fun v => ((g.pathCosts s v).dedup).length).sum := by
      unfold rankSum
      refine listSumLe _ _ g.values ?_
      intro v hv
      unfold rank
      exact List.length_filter_le _ _
    unfold Graph.aStarFuel
    rw [List.length_singleton]
    omega
  exact aStarLoopDijkstra g hwf s t hs p₀ hp₀ hp₀nd huniq (g.aStarFuel s) _ hI0 hm0

/-- Claim C4 instantiated on the spec's diamond scenario (weights doubled to
stay integral): values 1,2,3,4 with directed edges 1 → 2 (weight 2),
2 → 4 (weight 3), 1 → 3 (weight 4), 3 → 4 (weight 2); the unique shortest
path 1 → 4 is `[1, 2, 4]` with distance 5, and the search returns exactly
it. -/
theorem C4_unique_shortest_witness :
    aStarSearchAlgorithm
      (Graph.mk [1, 2, 3, 4] true
        (.adjacencyList [[⟨1, 2⟩, ⟨2, 4⟩], [⟨3, 3⟩], [⟨3, 2⟩], []]) : Graph ℕ)
      1 4 noGuessMinDistanceFromTarget = .ok [1, 2, 4] ((5 : ℚ) : WithTop ℚ) := by
  have hw12 : (Graph.mk [1, 2, 3, 4] true
      (.adjacencyList [[⟨1, 2⟩, ⟨2, 4⟩], [⟨3, 3⟩], [⟨3, 2⟩], []]) :
        Graph ℕ).wgtVal 1 2 = 2 := by decide
  have hw24 : (Graph.mk [1, 2, 3, 4] true
      (.adjacencyList [[⟨1, 2⟩, ⟨2, 4⟩], [⟨3, 3⟩], [⟨3, 2⟩], []]) :
        Graph ℕ).wgtVal 2 4 = 3 := by decide
  have hw13 : (Graph.mk [1, 2, 3, 4] true
      (.adjacencyList [[⟨1, 2⟩, ⟨2, 4⟩], [⟨3, 3⟩], [⟨3, 2⟩], []]) :
        Graph ℕ).wgtVal 1 3 = 4 := by decide
  have hw34 : (Graph.mk [1, 2, 3, 4] true
      (.adjacencyList [[⟨1, 2⟩, ⟨2, 4⟩], [⟨3, 3⟩], [⟨3, 2⟩], []]) :
        Graph ℕ).wgtVal 3 4 = 2 := by decide
  have hc124 : (Graph.mk [1, 2, 3, 4] true
      (.adjacencyList [[⟨1, 2⟩, ⟨2, 4⟩], [⟨3, 3⟩], [⟨3, 2⟩], []]) :
        Graph ℕ).pathCost [1, 2, 4] = 5 := by
    rw [show (Graph.mk [1, 2, 3, 4] true
        (.adjacencyList [[⟨1, 2⟩, ⟨2, 4⟩], [⟨3, 3⟩], [⟨3, 2⟩], []]) :
          Graph ℕ).pathCost [1, 2, 4] =
      (Graph.mk [1, 2, 3, 4] true
        (.adjacencyList [[⟨1, 2⟩, ⟨2, 4⟩], [⟨3, 3⟩], [⟨3, 2⟩], []]) :
          Graph ℕ).wgtVal 1 2 +
      ((Graph.mk [1, 2, 3, 4] true
        (.adjacencyList [[⟨1, 2⟩, ⟨2, 4⟩], [⟨3, 3⟩], [⟨3, 2⟩], []]) :
          Graph ℕ).wgtVal 2 4 + 0) from rfl, hw12, hw24]
    norm_num
  have hc134 : (Graph.mk [1, 2, 3, 4] true
      (.adjacencyList [[⟨1, 2⟩, ⟨2, 4⟩], [⟨3, 3⟩], [⟨3, 2⟩], []]) :
        Graph ℕ).pathCost [1, 3, 4] = 6 := by
    rw [show (Graph.mk [1, 2, 3, 4] true
        (.adjacencyList [[⟨1, 2⟩, ⟨2, 4⟩], [⟨3, 3⟩], [⟨3, 2⟩], []]) :
          Graph ℕ).pathCost [1, 3, 4] =
      (Graph.mk [1, 2, 3, 4] true
        (.adjacencyList [[⟨1, 2⟩, ⟨2, 4⟩], [⟨3, 3⟩], [⟨3, 2⟩], []]) :
          Graph ℕ).wgtVal 1 3 +
      ((Graph.mk [1, 2, 3, 4] true
        (.adjacencyList [[⟨1, 2⟩, ⟨2, 4⟩], [⟨3, 3⟩], [⟨3, 2⟩], []]) :
          Graph ℕ).wgtVal 3 4 + 0) from rfl, hw13, hw34]
    norm_num
  have henum : (Graph.mk [1, 2, 3, 4] true
      (.adjacencyList [[⟨1, 2⟩, ⟨2, 4⟩], [⟨3, 3⟩], [⟨3, 2⟩], []]) :
        Graph ℕ).simplePathsFrom 1 4 = [[1, 2, 4], [1, 3, 4]] := by decide
  have huniq : ∀ q, (Graph.mk [1, 2, 3, 4] true
      (.adjacencyList [[⟨1, 2⟩, ⟨2, 4⟩], [⟨3, 3⟩], [⟨3, 2⟩], []]) :
        Graph ℕ).IsPathFrom 1 4 q → q.Nodup → q ≠ [1, 2, 4] →
      (Graph.mk [1, 2, 3, 4] true
        (.adjacencyList [[⟨1, 2⟩, ⟨2, 4⟩], [⟨3, 3⟩], [⟨3, 2⟩], []]) :
          Graph ℕ).pathCost [1, 2, 4] <
      (Graph.mk [1, 2, 3, 4] true
        (.adjacencyList [[⟨1, 2⟩, ⟨2, 4⟩], [⟨3, 3⟩], [⟨3, 2⟩], []]) :
          Graph ℕ).pathCost q := by
    intro q h1 h2 h3
    have hpres := pathPres (Graph.mk [1, 2, 3, 4] true
      (.adjacencyList [[⟨1, 2⟩, ⟨2, 4⟩], [⟨3, 3⟩], [⟨3, 2⟩], []])) (by decide)
      q 1 h1.1 (by decide) h1.2.2
    have hmem := simplePathsComplete (Graph.mk [1, 2, 3, 4] true
      (.adjacencyList [[⟨1, 2⟩, ⟨2, 4⟩], [⟨3, 3⟩], [⟨3, 2⟩], []])) h1 h2 hpres
    rw [henum] at hmem
    rcases List.mem_cons.mp hmem with rfl | hmem2
    · exact absurd rfl h3
    · rcases List.mem_cons.mp hmem2 with rfl | hmem3
      · rw [hc124, hc134]
        norm_num
      · cases hmem3
  have h := C4_unique_shortest_path
    (Graph.mk [1, 2, 3, 4] true
      (.adjacencyList [[⟨1, 2⟩, ⟨2, 4⟩], [⟨3, 3⟩], [⟨3, 2⟩], []]))
    1 4 [1, 2, 4] (by decide) (by decide) (by decide)
    (by
      refine ⟨rfl, by decide, ?_⟩
      rw [List.chain'_cons]
      refine ⟨by decide, ?_⟩
      rw [List.chain'_cons]
      exact ⟨by decide, List.chain'_singleton _⟩)
    (by decide) huniq
  rw [hc124] at h
  exact h

end DSA
